import Mathlib

/-!
# minilzf: a shallow embedding of `lzf.c`

The two functions of `src/lzf.c`, `lzf_compress` and `lzf_decompress`, are
translated statement by statement into Lean functions over explicit states.

Conventions of the embedding.

* A byte is a `Fin 256`.  Memory is a total map `Nat → Byte` indexed from the
  start of the buffer; the C lengths `in_len` and `out_len` are separate
  arguments, exactly as in the C signatures.  A buffer of capacity `n` is the
  part of the map below index `n`; what the map holds at index `n` and above
  stands for whatever memory follows the buffer.
* Pointers into a buffer are positions relative to the start of the buffer.
  Pointers that the C code may move before the buffer, or that come from
  uninitialised memory, are integers (`Int`).
* `lzf_compress` never initialises its tables `first` and `prev`, and it uses
  the numeric address of `ip`.  The initial contents of both tables and the
  address `base` of `in_data` are therefore arguments of the embedding.  A
  pointer stored in `first` is kept as a position relative to `in_data`, so the
  null pointer is the position `-base`.
* Every access to the input buffer and to the output buffer is recorded in the
  state (`rds`, `wrs`, `srcs`, `refs`), newest first.  These ghost fields never
  influence the computation.
* Loops whose trip count is not syntactically bounded take a fuel argument and
  return `none` when it runs out.
* Positions, lengths and the `int` locals are unbounded numbers: the code does
  not overflow them for buffers that fit in the address space.  The stores into
  `uint8_t` and `uint16_t` objects reduce modulo 256 and 65536 (`u8`, `u16`).
-/

namespace MiniLzf

/-- A byte (`uint8_t`). -/
abbrev Byte := Fin 256

/-- The constant `LZF_MAX_LIT`, `1 << 5`. -/
def LZF_MAX_LIT : Nat := 1 <<< 5

/-- The constant `LZF_MAX_OFF`, `1 << 13`. -/
def LZF_MAX_OFF : Nat := 1 <<< 13

/-- The constant `LZF_MAX_REF`, `(1 << 8) + (1 << 3)`. -/
def LZF_MAX_REF : Nat := (1 <<< 8) + (1 <<< 3)

/-- Conversion of a C `int` to `uint8_t`: reduction modulo 256. -/
def u8 (z : Int) : Byte := ⟨(z % 256).toNat, by omega⟩

/-- Conversion of a pointer difference to `uint16_t`: reduction modulo 65536. -/
def u16 (z : Int) : Nat := (z % 65536).toNat

/-- Memory after the store `m[i] = v`. -/
def store (m : Nat → α) (i : Nat) (v : α) : Nat → α :=
  fun j => if j = i then v else m j

/-- How a loop body ends: it falls through to the next iteration, it leaves the
loop with `break`, or it leaves the function with `return 0`. -/
inductive Ctl (σ : Type) where
  | next (s : σ)
  | stop (s : σ)
  | ret0 (s : σ)

/-- The value returned by a call together with the final state. -/
structure Ret (σ : Type) where
  ret : Nat
  st : σ

/-! ## `lzf_decompress` -/

/-- State of `lzf_decompress`: the cursors `ip` and `op` as positions, the
output memory, and the recorded accesses: input positions read (`rds`), output
positions written (`wrs`), and for every byte of a back-reference copy the
position read together with the write position at that moment (`srcs`). -/
structure DState where
  ip : Nat
  op : Nat
  out : Nat → Byte
  rds : List Nat
  wrs : List Nat
  srcs : List (Int × Nat)

/-- The loop `while (ctrl--) *op++ = *ip++;` (line 162). -/
def copy_literal (in_data : Nat → Byte) : Nat → DState → DState
  | 0, s => s
  | n + 1, s =>
    copy_literal in_data n
      { s with
        ip := s.ip + 1
        op := s.op + 1
        out := store s.out s.op (in_data s.ip)
        rds := s.ip :: s.rds
        wrs := s.op :: s.wrs }

/-- The loop `do *op++ = *ref++; while (--len);` (line 175) for a count
`len ≥ 1`, which runs `len` times.  The only call passes `len + 2`. -/
def copy_backref : Nat → Int → DState → DState
  | 0, _, s => s
  | n + 1, ref, s =>
    copy_backref n (ref + 1)
      { s with
        op := s.op + 1
        out := store s.out s.op (s.out ref.toNat)
        wrs := s.op :: s.wrs
        srcs := (ref, s.op) :: s.srcs }

/-- Lines 171-175: the low offset byte, the two checks and the copy. -/
def decode_backref (in_data : Nat → Byte) (out_len : Nat) (len : Nat) (ref : Int)
    (s : DState) : Ctl DState :=
  let ref := ref - ((in_data s.ip).val : Int)
  let s := { s with ip := s.ip + 1, rds := s.ip :: s.rds }
  if s.op + len + 2 > out_len then .ret0 s
  else if ref < 0 then .ret0 s
  else .next (copy_backref (len + 2) ref s)

/-- One iteration of the `do ... while` body (lines 157-176). -/
def decode_token (in_data : Nat → Byte) (in_len out_len : Nat) (s : DState) : Ctl DState :=
  let ctrl := (in_data s.ip).val
  let s := { s with ip := s.ip + 1, rds := s.ip :: s.rds }
  if ctrl < 1 <<< 5 then
    let ctrl := ctrl + 1
    if s.op + ctrl > out_len then .ret0 s
    else if s.ip + ctrl > in_len then .ret0 s
    else .next (copy_literal in_data ctrl s)
  else
    let len := ctrl >>> 5
    let ref : Int := (s.op : Int) - (((ctrl &&& 0x1f) <<< 8 : Nat) : Int) - 1
    if s.ip ≥ in_len then .ret0 s
    else if len = 7 then
      let len := len + (in_data s.ip).val
      let s := { s with ip := s.ip + 1, rds := s.ip :: s.rds }
      if s.ip ≥ in_len then .ret0 s
      else decode_backref in_data out_len len ref s
    else decode_backref in_data out_len len ref s

/-- The loop `do ... while (ip < in_end)` and the final `return`. -/
def decompress_loop (in_data : Nat → Byte) (in_len out_len : Nat) :
    Nat → DState → Option (Ret DState)
  | 0, _ => none
  | fuel + 1, s =>
    match decode_token in_data in_len out_len s with
    | .ret0 s1 => some ⟨0, s1⟩
    | .stop s1 => some ⟨0, s1⟩
    | .next s1 =>
      if s1.ip < in_len then decompress_loop in_data in_len out_len fuel s1
      else some ⟨s1.op, s1⟩

/-- The function `lzf_decompress` (lines 149-179).  Every iteration consumes at
least one input byte, so `in_len + 1` iterations are enough fuel. -/
def lzf_decompress (in_data : Nat → Byte) (in_len : Nat) (out_data : Nat → Byte)
    (out_len : Nat) : Option (Ret DState) :=
  decompress_loop in_data in_len out_len (in_len + 1)
    { ip := 0, op := 0, out := out_data, rds := [], wrs := [], srcs := [] }

/-! ## `lzf_compress` -/

/-- State of `lzf_compress`: the cursors, the length `lit` of the open literal
run, the output memory, the two tables, and the recorded accesses: input
positions read (`rds`), output positions written (`wrs`) and the
back-references emitted as triples (position, candidate, length) (`refs`). -/
structure CState where
  ip : Nat
  op : Nat
  lit : Nat
  out : Nat → Byte
  first : Nat → Int
  prev : Nat → Nat
  rds : List Int
  wrs : List Int
  refs : List (Nat × Int × Nat)

/-- Load of an input byte through a pointer at position `p`. -/
def load (in_data : Nat → Byte) (p : Int) : Byte := in_data p.toNat

/-- The macro `HASH(p)`, converted to `uint16_t`. -/
def HASH (in_data : Nat → Byte) (p : Nat) : Nat :=
  ((((in_data p).val <<< 6) ^^^ ((in_data (p + 1)).val <<< 3)) ^^^ (in_data (p + 2)).val) % 65536

/-- The chain slot of a pointer: `((uintptr_t)p) & (LZF_MAX_OFF - 1)`. -/
def slot (base : Nat) (p : Int) : Nat := ((base : Int) + p).toNat &&& (LZF_MAX_OFF - 1)

/-- Lines 72-78 and 118-122: hash the three bytes at `ip`, link `ip` to the
previous occupant `p` of its bucket.  Returns the new state and `p`. -/
def index_update (in_data : Nat → Byte) (base : Nat) (s : CState) : CState × Int :=
  let res := slot base s.ip
  let hash := HASH in_data s.ip
  let p := s.first hash
  ({ s with
      prev := store s.prev res (u16 ((s.ip : Int) - p))
      first := store s.first hash (s.ip : Int)
      rds := ((s.ip : Int) + 2) :: ((s.ip : Int) + 1) :: (s.ip : Int) :: s.rds }, p)

/-- The loop `while (p[len] == ip[len] && len < maxlen) ++len;` (line 84).  The
fuel is `maxlen - len`: when it is `0` the test `len < maxlen` fails, after both
bytes have been read. -/
def extend_match (in_data : Nat → Byte) (p : Int) (ip : Nat) (maxlen : Nat) :
    Nat → Nat → List Int → Nat × List Int
  | 0, len, rds => (len, ((ip : Int) + len) :: (p + len) :: rds)
  | fuel + 1, len, rds =>
    let rds := ((ip : Int) + len) :: (p + len) :: rds
    if load in_data (p + len) = load in_data ((ip : Int) + len) ∧ len < maxlen then
      extend_match in_data p ip maxlen fuel (len + 1) rds
    else (len, rds)

/-- The result of examining candidates: the best length and candidate so far,
whether the search was left with `break`, and the input reads. -/
structure Best where
  l : Nat
  p : Int
  brk : Bool
  rds : List Int

/-- Lines 80-92: examine the candidate `p`. -/
def candidate (in_data : Nat → Byte) (ip : Nat) (maxlen : Nat) (p : Int) (bst : Best) : Best :=
  let rds := ((ip : Int) + 2) :: (p + 2) :: bst.rds
  if load in_data (p + 2) = load in_data ((ip : Int) + 2) then
    let rds := ((ip : Int) + bst.l) :: (p + bst.l) :: rds
    if load in_data (p + bst.l) = load in_data ((ip : Int) + bst.l) then
      let rds := ((ip : Int) + 1) :: (p + 1) :: rds
      if load in_data (p + 1) = load in_data ((ip : Int) + 1) then
        let rds := (ip : Int) :: p :: rds
        if load in_data p = load in_data (ip : Int) then
          let r := extend_match in_data p ip maxlen (maxlen - 3) 3 rds
          if r.1 > bst.l then
            { l := r.1, p := p, brk := decide (r.1 ≥ LZF_MAX_REF), rds := r.2 }
          else { bst with rds := r.2 }
        else { bst with rds := rds }
      else { bst with rds := rds }
    else { bst with rds := rds }
  else { bst with rds := rds }

/-- The loop `while (p >= b) { ... }` (lines 79-95) over the chain. -/
def walk (in_data : Nat → Byte) (base : Nat) (prev : Nat → Nat) (ip : Nat) (b : Int)
    (maxlen : Nat) : Nat → Int → Best → Option Best
  | 0, _, _ => none
  | fuel + 1, p, bst =>
    if p ≥ b then
      let bst := candidate in_data ip maxlen p bst
      if bst.brk then some bst
      else
        let diff := prev (slot base p)
        let p := if diff ≠ 0 then p - (diff : Int) else -(base : Int)
        walk in_data base prev ip b maxlen fuel p bst
    else some bst

/-- The loop `do { ... ip++; } while (len--);` (lines 117-124), which runs
`len + 1` times: the argument is the number of iterations. -/
def index_skipped (in_data : Nat → Byte) (base : Nat) : Nat → CState → CState
  | 0, s => s
  | n + 1, s =>
    let s1 := (index_update in_data base s).1
    index_skipped in_data base n { s1 with ip := s1.ip + 1 }

/-- Lines 102-114: end the open literal run (and undo it when it is empty), write the
back-reference token for the candidate `best_p` and the length `best_l`, start a new run
and move `ip` behind the match. -/
def put_backref (s : CState) (best_l : Nat) (best_p : Int) : CState :=
  let len := best_l
  let off : Int := (s.ip : Int) - best_p - 1
  let nolit : Nat := if s.lit = 0 then 1 else 0
  let stop : Int := (s.op : Int) - s.lit - 1
  let s := { s with
    out := store s.out stop.toNat (u8 ((s.lit : Int) - 1))
    wrs := stop :: s.wrs
    refs := (s.ip, best_p, best_l) :: s.refs }
  let s := { s with op := s.op - nolit }
  let len := len - 2
  let s := { s with ip := s.ip + 1 }
  let s :=
    if len < 7 then
      { s with
        out := store s.out s.op (u8 ((off >>> (8 : Nat)) + ((len <<< 5 : Nat) : Int)))
        wrs := (s.op : Int) :: s.wrs
        op := s.op + 1 }
    else
      { s with
        out := store (store s.out s.op (u8 ((off >>> (8 : Nat)) + ((7 <<< 5 : Nat) : Int))))
          (s.op + 1) (u8 ((len : Int) - 7))
        wrs := ((s.op : Int) + 1) :: (s.op : Int) :: s.wrs
        op := s.op + 2 }
  let s := { s with out := store s.out s.op (u8 off), wrs := (s.op : Int) :: s.wrs, op := s.op + 1 }
  let s := { s with lit := 0, op := s.op + 1 }
  { s with ip := s.ip + (len + 1) }

/-- Lines 97-124: a match was found.  After the capacity test the token is written; unless
the match ends within two bytes of the end of the input, the positions it covers are
entered into the tables. -/
def emit_match (in_data : Nat → Byte) (in_len out_len base : Nat) (s : CState)
    (best_l : Nat) (best_p : Int) : Ctl CState :=
  let nolit : Nat := if s.lit = 0 then 1 else 0
  if s.op + 3 + 1 ≥ out_len ∧ s.op - nolit + 3 + 1 ≥ out_len then .ret0 s
  else
    let len := best_l - 2
    let s := put_backref s best_l best_p
    if (s.ip : Int) ≥ (in_len : Int) - 2 then .stop s
    else
      let s := { s with ip := s.ip - (len + 1) }
      .next (index_skipped in_data base (len + 1) s)

/-- Lines 130-131 and 140-141: close a full literal run and open a new one. -/
def close_run (s : CState) : CState :=
  if s.lit = LZF_MAX_LIT then
    let stop : Int := (s.op : Int) - s.lit - 1
    { s with
      out := store s.out stop.toNat (u8 ((s.lit : Int) - 1))
      wrs := stop :: s.wrs
      lit := 0
      op := s.op + 1 }
  else s

/-- The statement `lit++; *op++ = *ip++;` (lines 67, 128 and 138). -/
def add_literal (in_data : Nat → Byte) (s : CState) : CState :=
  { s with
    lit := s.lit + 1
    out := store s.out s.op (in_data s.ip)
    rds := (s.ip : Int) :: s.rds
    wrs := (s.op : Int) :: s.wrs
    op := s.op + 1
    ip := s.ip + 1 }

/-- The statement `lit++; *op++ = *ip++;` followed by the test of
`lit == LZF_MAX_LIT` (lines 128-132 and 138-142). -/
def push_literal (in_data : Nat → Byte) (s : CState) : CState :=
  close_run (add_literal in_data s)

/-- Lines 126-133: one more literal byte. -/
def emit_literal (in_data : Nat → Byte) (out_len : Nat) (s : CState) : Ctl CState :=
  if s.op ≥ out_len then .ret0 s
  else .next (push_literal in_data s)

/-- One iteration of the main loop (lines 69-133). -/
def compress_step (in_data : Nat → Byte) (in_len out_len base : Nat) (s : CState) :
    Option (Ctl CState) :=
  let maxlen := if in_len - s.ip < LZF_MAX_REF then in_len - s.ip else LZF_MAX_REF
  let b : Int := if s.ip < LZF_MAX_OFF then 0 else (s.ip : Int) - LZF_MAX_OFF
  let ip := s.ip
  let r := index_update in_data base s
  let s := r.1
  let p := r.2
  let found :=
    if p < (ip : Int) then
      walk in_data base s.prev ip b maxlen (LZF_MAX_OFF + 1) p
        { l := 0, p := 0, brk := false, rds := s.rds }
    else some { l := 0, p := 0, brk := false, rds := s.rds }
  match found with
  | none => none
  | some bst =>
    let s := { s with rds := bst.rds }
    if bst.l ≠ 0 then some (emit_match in_data in_len out_len base s bst.l bst.p)
    else some (emit_literal in_data out_len s)

/-- The loop `while (ip < in_end) { ... }` (lines 137-143); the argument is the
number `in_end - ip` of iterations. -/
def copy_tail (in_data : Nat → Byte) : Nat → CState → CState
  | 0, s => s
  | n + 1, s => copy_tail in_data n (push_literal in_data s)

/-- Lines 135-146: the capacity test, the tail, the end of the last run. -/
def finish (in_data : Nat → Byte) (in_len out_len : Nat) (s : CState) : Ret CState :=
  if s.op + 3 > out_len then ⟨0, s⟩
  else
    let s := copy_tail in_data (in_len - s.ip) s
    let stop : Int := (s.op : Int) - s.lit - 1
    let s := { s with out := store s.out stop.toNat (u8 ((s.lit : Int) - 1)), wrs := stop :: s.wrs }
    let s := { s with op := s.op - (if s.lit = 0 then 1 else 0) }
    ⟨s.op, s⟩

/-- The main loop `while (ip < in_end - 2) { ... }` followed by lines 135-146. -/
def compress_loop (in_data : Nat → Byte) (in_len out_len base : Nat) :
    Nat → CState → Option (Ret CState)
  | 0, _ => none
  | fuel + 1, s =>
    if (s.ip : Int) < (in_len : Int) - 2 then
      match compress_step in_data in_len out_len base s with
      | none => none
      | some (.ret0 s1) => some ⟨0, s1⟩
      | some (.stop s1) => some (finish in_data in_len out_len s1)
      | some (.next s1) => compress_loop in_data in_len out_len base fuel s1
    else some (finish in_data in_len out_len s)

/-- The function `lzf_compress` (lines 54-147).  The arguments `base`, `first`
and `prev` are the address of `in_data` and the initial contents of the two
uninitialised tables.  Every iteration of the main loop advances `ip`, so
`in_len` iterations are enough fuel. -/
def lzf_compress (in_data : Nat → Byte) (in_len : Nat) (out_data : Nat → Byte) (out_len : Nat)
    (base : Nat) (first : Nat → Int) (prev : Nat → Nat) : Option (Ret CState) :=
  let s : CState :=
    { ip := 0, op := 0, lit := 0, out := out_data, first := first, prev := prev,
      rds := [], wrs := [], refs := [] }
  if in_len = 0 ∨ out_len = 0 then some ⟨0, s⟩
  else
    let s := { s with lit := 0, op := s.op + 1 }
    compress_loop in_data in_len out_len base in_len (add_literal in_data s)

/-- The bytes `m[0], ..., m[n-1]` of a memory as a list. -/
def bytes (m : Nat → Byte) (n : Nat) : List Byte := (List.range n).map m

/-- The memory that holds the list `l` from index `0` on, and `0` after it. -/
def mem (l : List Byte) : Nat → Byte := fun i => l.getD i 0

/-! ## Predicates used by the statements -/

/-- The recorded accesses of a decoder state respect the two buffers. -/
def DSafe (in_len out_len : Nat) (s : DState) : Prop :=
  (∀ i ∈ s.rds, i < in_len) ∧ (∀ i ∈ s.wrs, i < out_len) ∧
    (∀ e ∈ s.srcs, 0 ≤ e.1 ∧ e.1 < (e.2 : Int))

/-- What holds of the state in which a loop body ends, by the way it ends. -/
def Ctl.Holds {σ : Type} (N S R : σ → Prop) : Ctl σ → Prop
  | .next s => N s
  | .stop s => S s
  | .ret0 s => R s

/-- Two decoder states at the same cursors whose outputs agree below `op`. -/
def DAgree (a b : DState) : Prop :=
  a.ip = b.ip ∧ a.op = b.op ∧ ∀ i, i < a.op → a.out i = b.out i

/-- The number of input bytes of the token whose control byte is at position `a`. -/
def tok_size (in_data : Nat → Byte) (a : Nat) : Nat :=
  if (in_data a).val < 32 then (in_data a).val + 2
  else if (in_data a).val >>> 5 = 7 then 3 else 2

/-- The number of output bytes that the token at position `a` declares. -/
def tok_len (in_data : Nat → Byte) (a : Nat) : Nat :=
  if (in_data a).val < 32 then (in_data a).val + 1
  else if (in_data a).val >>> 5 = 7 then 7 + (in_data (a + 1)).val + 2
  else (in_data a).val >>> 5 + 2

/-- The distance of the back-reference token at position `a`: the 13-bit offset, whose low
byte is the last byte of the token, plus one. -/
def tok_dist (in_data : Nat → Byte) (a : Nat) : Nat :=
  (((in_data a).val &&& 0x1f) <<< 8) + (in_data (a + tok_size in_data a - 1)).val + 1

/-- `Complete in_data a e k`: the input positions from `a` up to `e` hold a sequence of
complete tokens, and the lengths these tokens declare add up to `k`. -/
inductive Complete (in_data : Nat → Byte) : Nat → Nat → Nat → Prop
  | done (a : Nat) : Complete in_data a a 0
  | token (a e k : Nat) : Complete in_data (a + tok_size in_data a) e k →
      Complete in_data a e (tok_len in_data a + k)

/-- What the search keeps: no match, or a candidate inside the window, before `ip`, whose
first `l` bytes equal the bytes at `ip`, with `3 ≤ l ≤ maxlen`. -/
def GoodMatch (in_data : Nat → Byte) (ip : Nat) (b : Int) (maxlen : Nat) (bst : Best) : Prop :=
  bst.l = 0 ∨ (b ≤ bst.p ∧ bst.p < (ip : Int) ∧ 3 ≤ bst.l ∧ bst.l ≤ maxlen ∧
    ∀ k, k < bst.l → load in_data (bst.p + k) = load in_data ((ip : Int) + k))

/-- The token at position `a` of `src` is valid when `k` output bytes exist and the output
is to become `tgt`: a literal run carries the next bytes of `tgt`; a back-reference has a
distance of at most `k`, and `tgt` repeats itself at that distance over the declared
length. -/
def TokOk (src tgt : Nat → Byte) (a k : Nat) : Prop :=
  if (src a).val < 32 then ∀ j, j < tok_len src a → src (a + 1 + j) = tgt (k + j)
  else tok_dist src a ≤ k ∧
    ∀ j, j < tok_len src a → tgt (k + j) = tgt (k + j - tok_dist src a)

/-- `Toks src tgt a e k K`: the positions from `a` up to `e` of `src` hold valid tokens
that extend an output of `k` bytes to the first `K` bytes of `tgt`. -/
inductive Toks (src tgt : Nat → Byte) : Nat → Nat → Nat → Nat → Prop
  | done (a k : Nat) : Toks src tgt a a k k
  | token (a e k K : Nat) : TokOk src tgt a k →
      Toks src tgt (a + tok_size src a) e (k + tok_len src a) K → Toks src tgt a e k K

/-- What holds of an emitted back-reference `(i, p, l)`: the candidate `p` is inside the
input and at most `LZF_MAX_OFF` before `i`, the length is between 3 and `LZF_MAX_REF` and
stays inside the input, and the `l` bytes at `p` equal the `l` bytes at `i`. -/
def RefOk (in_data : Nat → Byte) (in_len : Nat) (e : Nat × Int × Nat) : Prop :=
  0 ≤ e.2.1 ∧ 1 ≤ (e.1 : Int) - e.2.1 ∧ (e.1 : Int) - e.2.1 ≤ 8192 ∧
    3 ≤ e.2.2 ∧ e.2.2 ≤ 264 ∧ e.1 + e.2.2 ≤ in_len ∧
    ∀ k, k < e.2.2 → load in_data (e.2.1 + (k : Int)) = load in_data ((e.1 : Int) + (k : Int))

/-- Invariant of the main loop of `lzf_compress`: the output below the control byte of the
open run is a valid token stream for the input consumed before the run, the open run holds
the last `lit` input bytes, and every emitted back-reference is sound. -/
structure CInv (in_data : Nat → Byte) (in_len : Nat) (s : CState) : Prop where
  lit_le : s.lit ≤ s.ip
  ip_le : s.ip ≤ in_len
  lit_lt : s.lit < 32
  op_ge : s.lit + 1 ≤ s.op
  op_two : 1 ≤ s.ip → 2 ≤ s.op
  toks : Toks s.out in_data 0 (s.op - s.lit - 1) 0 (s.ip - s.lit)
  run : ∀ j, j < s.lit → s.out (s.op - s.lit + j) = in_data (s.ip - s.lit + j)
  refs_ok : ∀ e ∈ s.refs, RefOk in_data in_len e

/-- What an iteration of the main loop that started at the cursors `ip` and `op` and did not
return establishes: the invariant, progress of `ip`, and a bound on the growth of `op`. -/
def StepOk (in_data : Nat → Byte) (in_len ip op : Nat) (s1 : CState) : Prop :=
  CInv in_data in_len s1 ∧ ip < s1.ip ∧ op ≤ s1.op ∧ s1.op + 2 * ip ≤ op + 2 * s1.ip

/-- What holds when an iteration that started at the output cursor `op` returns 0: the
emitted back-references are sound and the capacity is at most `op + 4`. -/
def FailOk (in_data : Nat → Byte) (in_len out_len op : Nat) (s1 : CState) : Prop :=
  (∀ e ∈ s1.refs, RefOk in_data in_len e) ∧ out_len ≤ op + 4

/-- The back-references emitted by a call of `lzf_compress`, as triples (position,
candidate, length), newest first. -/
def emitted (o : Option (Ret CState)) : List (Nat × Int × Nat) :=
  match o with
  | none => []
  | some r => r.st.refs

/-- The state in which a loop body ends. -/
def Ctl.st {σ : Type} : Ctl σ → σ
  | .next s => s
  | .stop s => s
  | .ret0 s => s

/-- The loop body ended with `return 0`. -/
def Ctl.failed {σ : Type} : Ctl σ → Prop
  | .next _ => False
  | .stop _ => False
  | .ret0 _ => True

/-- The match kept by the search cannot be extended: there is no match, or its length is
`maxlen`, or the byte after the candidate differs from the byte after the match. -/
def MaxMatch (in_data : Nat → Byte) (ip maxlen : Nat) (bst : Best) : Prop :=
  bst.l = 0 ∨ bst.l = maxlen ∨
    load in_data (bst.p + (bst.l : Int)) ≠ load in_data ((ip : Int) + (bst.l : Int))

/-- What one iteration of the main loop does at a state `s`, seen from the output: it adds
a literal, or it emits a back-reference `(s.ip, p, l)` that is a true match inside the
window, extended as far as the input and `LZF_MAX_REF` allow. -/
def StepShape (in_data : Nat → Byte) (in_len out_len base : Nat) (s s1 : CState)
    (c : Ctl CState) : Prop :=
  c = emit_literal in_data out_len s1 ∨
    ∃ (l : Nat) (p : Int), RefOk in_data in_len (s.ip, p, l) ∧
      (l = min 264 (in_len - s.ip) ∨
        load in_data (p + (l : Int)) ≠ load in_data ((s.ip : Int) + (l : Int))) ∧
      c = emit_match in_data in_len out_len base s1 l p

/-- A token as the encoder emits it: a literal run of `n` bytes, or a back-reference of
distance `d` and length `l`. -/
inductive Tok where
  | lit (n : Nat)
  | ref (d l : Nat)

/-- The number of input bytes a token stands for. -/
def Tok.len : Tok → Nat
  | .lit n => n
  | .ref _ l => l

/-- The bounds of the format: a literal run holds 1 to `LZF_MAX_LIT` bytes; a back-reference
has a distance of 1 to `LZF_MAX_OFF` and a length of 3 to `LZF_MAX_REF`, and the extra
length byte `l - 9` of the long form fits a byte. -/
def Tok.InRange : Tok → Prop
  | .lit n => 1 ≤ n ∧ n ≤ 32
  | .ref d l => 1 ≤ d ∧ d ≤ 8192 ∧ 3 ≤ l ∧ l ≤ 264 ∧ l - 9 ≤ 255

/-- The back-references among a list of tokens, as pairs (distance, length). -/
def back_refs : List Tok → List (Nat × Nat)
  | [] => []
  | .lit _ :: ts => back_refs ts
  | .ref d l :: ts => (d, l) :: back_refs ts

/-- The number of input bytes a list of tokens stands for. -/
def total_len : List Tok → Nat
  | [] => 0
  | t :: ts => t.len + total_len ts

/-- The distance and the length of an emitted back-reference `(i, p, l)`. -/
def ref_dl (e : Nat × Int × Nat) : Nat × Nat := (((e.1 : Int) - e.2.1).toNat, e.2.2)

/-- The bytes of a back-reference token of length `l` and distance `d` as the specification
states them, two bytes when `l ≤ 8` and three bytes otherwise.  The writes of `put_backref`
are compared with this definition. -/
def spec_backref (l d : Nat) : List Nat :=
  if l ≤ 8 then [((l - 2) <<< 5) ||| ((d - 1) >>> 8), (d - 1) &&& 0xFF]
  else [0xE0 ||| ((d - 1) >>> 8), l - 9, (d - 1) &&& 0xFF]

/-- `Layout out e ts`: the output positions below `e` hold exactly the tokens `ts` (newest
first), one after the other from position 0: a literal run of `n` bytes is a control byte
`n - 1` followed by `n` bytes; a back-reference is the bytes `spec_backref l d`. -/
inductive Layout (out : Nat → Byte) : Nat → List Tok → Prop
  | nil : Layout out 0 []
  | lit (e n : Nat) (ts : List Tok) : Layout out e ts → (out e).val + 1 = n →
      Layout out (e + 1 + n) (Tok.lit n :: ts)
  | ref (e d l : Nat) (ts : List Tok) : Layout out e ts →
      (∀ j, j < (spec_backref l d).length →
        (out (e + j)).val = (spec_backref l d).getD j 0) →
      Layout out (e + (spec_backref l d).length) (Tok.ref d l :: ts)

/-- Invariant of the main loop for the layout: the output below the control byte of the open
run holds tokens within the bounds of the format that stand for the input consumed before
the run, and their back-references are the emitted ones. -/
def LayoutInv (s : CState) : Prop :=
  ∃ ts, Layout s.out (s.op - s.lit - 1) ts ∧ back_refs ts = s.refs.map ref_dl ∧
    total_len ts = s.ip - s.lit ∧ ∀ t ∈ ts, t.InRange

/-- What the layout invariant gives for the result of a call: the tokens occupy the output
below some position `e`, which is the returned length when that is not zero, and then they
stand for the whole input. -/
def LayoutEnd (in_len : Nat) (r : Ret CState) : Prop :=
  ∃ e ts, Layout r.st.out e ts ∧ back_refs ts = r.st.refs.map ref_dl ∧
    (∀ t ∈ ts, t.InRange) ∧ (r.ret ≠ 0 → e = r.ret ∧ total_len ts = in_len)

/-- No sequence of three bytes occurs at two different positions of the input. -/
def NoRepeat (in_data : Nat → Byte) (in_len : Nat) : Prop :=
  ∀ j, j < in_len → ∀ i, i < j → j + 3 ≤ in_len →
    ¬(in_data i = in_data j ∧ in_data (i + 1) = in_data (j + 1) ∧
      in_data (i + 2) = in_data (j + 2))

/-- The property `NoRepeat` is decidable: both positions are bounded by the length. -/
instance NoRepeat.decide (in_data : Nat → Byte) (in_len : Nat) :
    Decidable (NoRepeat in_data in_len) :=
  inferInstanceAs (Decidable (∀ j, j < in_len → ∀ i, i < j → j + 3 ≤ in_len →
    ¬(in_data i = in_data j ∧ in_data (i + 1) = in_data (j + 1) ∧
      in_data (i + 2) = in_data (j + 2))))

/-- Invariant of the main loop while only literals were emitted: the open run holds the last
`ip % 32` bytes, every input byte `i` consumed so far stands at the output position
`i + i / 32 + 1`, and every closed run has the control byte 31. -/
def LitInv (in_data : Nat → Byte) (s : CState) : Prop :=
  s.refs = [] ∧ s.lit = s.ip % 32 ∧ s.op = s.ip + s.ip / 32 + 1 ∧
    (∀ i, i < s.ip → s.out (i + i / 32 + 1) = in_data i) ∧
    ∀ q, 32 * (q + 1) ≤ s.ip → (s.out (33 * q)).val = 31

/-- What the invariant `LitInv` gives for the result of a call on an input of length `n`:
no back-reference, and when the call succeeds, the length `n + ceil(n/32)`, every input byte
`i` at the output position `i + i / 32 + 1`, and before every chunk of 32 bytes (the last
one possibly shorter) a control byte equal to the length of the chunk minus one. -/
def LitEnd (in_data : Nat → Byte) (in_len : Nat) (r : Ret CState) : Prop :=
  r.st.refs = [] ∧ (r.ret ≠ 0 → r.ret = in_len + (in_len + 31) / 32 ∧
    (∀ i, i < in_len → r.st.out (i + i / 32 + 1) = in_data i) ∧
    ∀ q, 32 * q < in_len → (r.st.out (33 * q)).val = min 32 (in_len - 32 * q) - 1)

/-! ## Theorems -/

@[simp] theorem LZF_MAX_LIT_eq : LZF_MAX_LIT = 32 := rfl
@[simp] theorem LZF_MAX_OFF_eq : LZF_MAX_OFF = 8192 := rfl
@[simp] theorem LZF_MAX_REF_eq : LZF_MAX_REF = 264 := rfl

@[simp] theorem store_same (m : Nat → α) (i : Nat) (v : α) : store m i v i = v := by
  simp [store]

theorem store_other (m : Nat → α) (i j : Nat) (v : α) (h : j ≠ i) : store m i v j = m j := by
  simp [store, h]

theorem copy_literal_safe (in_data : Nat → Byte) (in_len out_len : Nat) :
    ∀ (n : Nat) (s : DState), DSafe in_len out_len s → s.ip + n ≤ in_len →
      s.op + n ≤ out_len →
      DSafe in_len out_len (copy_literal in_data n s) ∧
        (copy_literal in_data n s).ip = s.ip + n ∧ (copy_literal in_data n s).op = s.op + n := by
  intro n
  induction n with
  | zero => intro s hs _ _; simpa [copy_literal] using hs
  | succ n ih =>
    intro s hs hi ho
    obtain ⟨h1, h2, h3⟩ := hs
    simp only [copy_literal]
    refine And.imp id (fun h => ⟨by rw [h.1]; simp; omega, by rw [h.2]; simp; omega⟩)
      (ih _ ⟨?_, ?_, h3⟩ (by simp; omega) (by simp; omega))
    · intro i hi'; simp at hi'; rcases hi' with rfl | hi'
      · omega
      · exact h1 i hi'
    · intro i hi'; simp at hi'; rcases hi' with rfl | hi'
      · omega
      · exact h2 i hi'

theorem copy_backref_safe (in_len out_len : Nat) :
    ∀ (n : Nat) (ref : Int) (s : DState), DSafe in_len out_len s → 0 ≤ ref → ref < (s.op : Int) →
      s.op + n ≤ out_len →
      DSafe in_len out_len (copy_backref n ref s) ∧
        (copy_backref n ref s).ip = s.ip ∧ (copy_backref n ref s).op = s.op + n := by
  intro n
  induction n with
  | zero => intro ref s hs _ _ _; simpa [copy_backref] using hs
  | succ n ih =>
    intro ref s hs h0 hr ho
    obtain ⟨h1, h2, h3⟩ := hs
    simp only [copy_backref]
    refine And.imp id (fun h => ⟨by rw [h.1], by rw [h.2]; simp; omega⟩)
      (ih (ref + 1) _ ⟨h1, ?_, ?_⟩ (by omega) (by simp; omega) (by simp; omega))
    · intro i hi'; simp at hi'; rcases hi' with rfl | hi'
      · omega
      · exact h2 i hi'
    · intro e he; simp at he; rcases he with rfl | he
      · exact ⟨h0, hr⟩
      · exact h3 e he

theorem Ctl.Holds.mono {σ : Type} {N S R N1 S1 R1 : σ → Prop} {c : Ctl σ}
    (h : c.Holds N S R) (hN : ∀ s, N s → N1 s) (hS : ∀ s, S s → S1 s)
    (hR : ∀ s, R s → R1 s) : c.Holds N1 S1 R1 := by
  cases c with
  | next s => exact hN s h
  | stop s => exact hS s h
  | ret0 s => exact hR s h

theorem DSafe_read (in_len out_len : Nat) (s : DState) (hs : DSafe in_len out_len s)
    (hip : s.ip < in_len) :
    DSafe in_len out_len { s with ip := s.ip + 1, rds := s.ip :: s.rds } := by
  obtain ⟨h1, h2, h3⟩ := hs
  refine ⟨?_, h2, h3⟩
  intro i hi'; simp at hi'; rcases hi' with rfl | hi'
  · omega
  · exact h1 i hi'

theorem decode_backref_safe (in_data : Nat → Byte) (in_len out_len len : Nat) (ref : Int)
    (s : DState) (hs : DSafe in_len out_len s) (hip : s.ip < in_len)
    (href : ref < (s.op : Int)) :
    (decode_backref in_data out_len len ref s).Holds
      (fun s1 => DSafe in_len out_len s1 ∧ s1.ip = s.ip + 1) (fun _ => False)
      (fun s1 => DSafe in_len out_len s1) := by
  have hs1 := DSafe_read in_len out_len s hs hip
  unfold decode_backref
  simp only
  split_ifs with c1 c2
  · exact hs1
  · exact hs1
  · have := copy_backref_safe in_len out_len (len + 2) (ref - ((in_data s.ip).val : Int)) _ hs1
      (by omega) (by simp; omega) (by simp at c1 ⊢; omega)
    exact ⟨this.1, by rw [this.2.1]⟩

theorem decode_token_safe (in_data : Nat → Byte) (in_len out_len : Nat)
    (s : DState) (hs : DSafe in_len out_len s) (hip : s.ip < in_len) :
    (decode_token in_data in_len out_len s).Holds
      (fun s1 => DSafe in_len out_len s1 ∧ s.ip < s1.ip ∧ s1.ip ≤ in_len) (fun _ => False)
      (fun s1 => DSafe in_len out_len s1) := by
  have hs1 := DSafe_read in_len out_len s hs hip
  unfold decode_token
  simp only
  split_ifs with c1 c2 c3 c4 c5 c6
  · exact hs1
  · exact hs1
  · have := copy_literal_safe in_data in_len out_len ((in_data s.ip).val + 1) _ hs1
      (by simp at c3 ⊢; omega) (by simp at c2 ⊢; omega)
    refine ⟨this.1, ?_, ?_⟩
    · rw [this.2.1]; simp; omega
    · rw [this.2.1]; simp at c3 ⊢; omega
  · exact hs1
  · exact DSafe_read in_len out_len _ hs1 (by simp at c4 ⊢; omega)
  · have hs2 := DSafe_read in_len out_len _ hs1 (by simp at c4 ⊢; omega)
    refine (decode_backref_safe in_data in_len out_len _ _ _ hs2 (by simp at c6 ⊢; omega)
      (by simp; omega)).mono ?_ (fun _ h => h) (fun _ h => h)
    intro s1 h
    have h2 := h.2
    simp only [ge_iff_le, not_le] at h2 c6
    exact ⟨h.1, by omega, by omega⟩
  · refine (decode_backref_safe in_data in_len out_len _ _ _ hs1 (by simp at c4 ⊢; omega)
      (by simp; omega)).mono ?_ (fun _ h => h) (fun _ h => h)
    intro s1 h
    have h2 := h.2
    simp only [ge_iff_le, not_le] at h2 c4
    exact ⟨h.1, by omega, by omega⟩

theorem decompress_loop_safe (in_data : Nat → Byte) (in_len out_len : Nat) :
    ∀ (fuel : Nat) (s : DState), DSafe in_len out_len s → s.ip < in_len →
      in_len < s.ip + fuel + 1 →
      ∃ r, decompress_loop in_data in_len out_len fuel s = some r ∧
        DSafe in_len out_len r.st := by
  intro fuel
  induction fuel with
  | zero => intro s _ h1 h2; omega
  | succ fuel ih =>
    intro s hs hip hf
    have ht := decode_token_safe in_data in_len out_len s hs hip
    unfold decompress_loop
    cases hc : decode_token in_data in_len out_len s with
    | ret0 s1 =>
      rw [hc] at ht
      exact ⟨_, rfl, ht⟩
    | stop s1 =>
      rw [hc] at ht
      exact ht.elim
    | next s1 =>
      rw [hc] at ht
      simp only
      split_ifs with c
      · exact ih s1 ht.1 c (by have := ht.2.1; omega)
      · exact ⟨_, rfl, ht.1⟩

/-- C2. Decoder bounds safety on untrusted input: for every input of length `in_len ≥ 1`
with arbitrary bytes, every output capacity and every initial output content,
`lzf_decompress` returns a value, every input position it read is below `in_len`, every
output position it wrote is below `out_len`, and every position it read from the output for
a back-reference copy is at least 0 and below the write position at the time of the read. -/
theorem lzf_decompress_bounds_safe (in_data : Nat → Byte) (in_len : Nat)
    (out_data : Nat → Byte) (out_len : Nat) (h : 1 ≤ in_len) :
    ∃ r, lzf_decompress in_data in_len out_data out_len = some r ∧
      (∀ i ∈ r.st.rds, i < in_len) ∧ (∀ i ∈ r.st.wrs, i < out_len) ∧
      (∀ e ∈ r.st.srcs, 0 ≤ e.1 ∧ e.1 < (e.2 : Int)) := by
  unfold lzf_decompress
  refine decompress_loop_safe in_data in_len out_len (in_len + 1) _ ?_ ?_ ?_
  · exact ⟨fun i hi => by simp at hi, fun i hi => by simp at hi, fun e he => by simp at he⟩
  · simp only; omega
  · simp only; omega

theorem lzf_decompress_bounds_safe_witness :
    1 ≤ 4 ∧ ∃ r, lzf_decompress (mem [0x00, 0x78, 0x60, 0x00]) 4 (mem []) 6 = some r ∧
      (∀ i ∈ r.st.rds, i < 4) ∧ (∀ i ∈ r.st.wrs, i < 6) ∧
      (∀ e ∈ r.st.srcs, 0 ≤ e.1 ∧ e.1 < (e.2 : Int)) :=
  ⟨by decide, lzf_decompress_bounds_safe (mem [0x00, 0x78, 0x60, 0x00]) 4 (mem []) 6 (by decide)⟩

theorem copy_literal_ip (in_data : Nat → Byte) :
    ∀ (n : Nat) (s : DState), (copy_literal in_data n s).ip = s.ip + n := by
  intro n
  induction n with
  | zero => intro s; rfl
  | succ n ih => intro s; simp only [copy_literal]; rw [ih]; simp only; omega

theorem copy_literal_op (in_data : Nat → Byte) :
    ∀ (n : Nat) (s : DState), (copy_literal in_data n s).op = s.op + n := by
  intro n
  induction n with
  | zero => intro s; rfl
  | succ n ih => intro s; simp only [copy_literal]; rw [ih]; simp only; omega

theorem copy_literal_out (in_data : Nat → Byte) :
    ∀ (n : Nat) (s : DState) (i : Nat), (copy_literal in_data n s).out i =
      if s.op ≤ i ∧ i < s.op + n then in_data (s.ip + (i - s.op)) else s.out i := by
  intro n
  induction n with
  | zero => intro s i; rw [if_neg (by omega)]; rfl
  | succ n ih =>
    intro s i
    simp only [copy_literal]
    rw [ih]
    simp only
    by_cases h1 : i = s.op
    · subst h1
      simp
    · rw [store_other _ _ _ _ h1]
      by_cases h2 : s.op + 1 ≤ i ∧ i < s.op + 1 + n
      · rw [if_pos h2, if_pos (by omega)]
        congr 1
        omega
      · rw [if_neg h2, if_neg (by omega)]

theorem copy_backref_ip :
    ∀ (n : Nat) (ref : Int) (s : DState), (copy_backref n ref s).ip = s.ip := by
  intro n
  induction n with
  | zero => intro ref s; rfl
  | succ n ih => intro ref s; simp only [copy_backref]; rw [ih]

theorem copy_backref_op :
    ∀ (n : Nat) (ref : Int) (s : DState), (copy_backref n ref s).op = s.op + n := by
  intro n
  induction n with
  | zero => intro ref s; rfl
  | succ n ih => intro ref s; simp only [copy_backref]; rw [ih]; simp only; omega

theorem copy_backref_agree :
    ∀ (n : Nat) (ref : Int) (a b : DState), DAgree a b → 0 ≤ ref → ref < (a.op : Int) →
      DAgree (copy_backref n ref a) (copy_backref n ref b) := by
  intro n
  induction n with
  | zero => intro ref a b h _ _; exact h
  | succ n ih =>
    intro ref a b h h0 h1
    obtain ⟨hip, hop, hout⟩ := h
    simp only [copy_backref]
    refine ih (ref + 1) _ _ ⟨hip, by simp only; omega, ?_⟩ (by omega) (by simp only; omega)
    intro i hi
    simp only at hi ⊢
    rw [← hop]
    by_cases hc : i = a.op
    · subst hc
      simp only [store_same]
      exact hout _ (by omega)
    · rw [store_other _ _ _ _ hc, store_other _ _ _ _ hc]
      exact hout i (by omega)

theorem copy_literal_agree (in_data : Nat → Byte) (n : Nat) (a b : DState) (h : DAgree a b) :
    DAgree (copy_literal in_data n a) (copy_literal in_data n b) := by
  obtain ⟨hip, hop, hout⟩ := h
  refine ⟨by simp only [copy_literal_ip]; omega, by simp only [copy_literal_op]; omega, ?_⟩
  intro i hi
  rw [copy_literal_out, copy_literal_out, ← hip, ← hop]
  rw [copy_literal_op] at hi
  split_ifs with c
  · rfl
  · exact hout i (by omega)

theorem decode_backref_agree (in_data : Nat → Byte) (c0 c len : Nat) (ref : Int)
    (a b a1 : DState) (h : DAgree a b) (href : ref < (a.op : Int))
    (ha : decode_backref in_data c0 len ref a = .next a1) :
    a.op < a1.op ∧
    (a1.op ≤ c → ∃ b1, decode_backref in_data c len ref b = .next b1 ∧ DAgree a1 b1) ∧
    (c < a1.op → ∃ b1, decode_backref in_data c len ref b = .ret0 b1) := by
  obtain ⟨hip, hop, hout⟩ := h
  unfold decode_backref at ha ⊢
  simp only at ha ⊢
  rw [← hip, ← hop]
  split_ifs at ha with c1 c2
  injection ha with ha
  have hop1 : a1.op = a.op + (len + 2) := by rw [← ha, copy_backref_op]
  refine ⟨by omega, ?_, ?_⟩
  · intro hc
    rw [if_neg (by omega), if_neg c2]
    refine ⟨_, rfl, ?_⟩
    rw [← ha]
    exact copy_backref_agree _ _ _ _ ⟨rfl, rfl, hout⟩ (by omega)
      (by simp only; omega)
  · intro hc
    rw [if_pos (by omega)]
    exact ⟨_, rfl⟩

theorem decode_token_agree (in_data : Nat → Byte) (in_len c0 c : Nat)
    (a b a1 : DState) (h : DAgree a b)
    (ha : decode_token in_data in_len c0 a = .next a1) :
    a.op < a1.op ∧
    (a1.op ≤ c → ∃ b1, decode_token in_data in_len c b = .next b1 ∧ DAgree a1 b1) ∧
    (c < a1.op → ∃ b1, decode_token in_data in_len c b = .ret0 b1) := by
  obtain ⟨hip, hop, hout⟩ := h
  unfold decode_token at ha ⊢
  simp only at ha ⊢
  rw [← hip, ← hop]
  split_ifs at ha with c1 c2 c3 c4 c5 c6
  · injection ha with ha
    have hop1 : a1.op = a.op + ((in_data a.ip).val + 1) := by rw [← ha, copy_literal_op]
    rw [if_pos c1]
    refine ⟨by omega, ?_, ?_⟩
    · intro hc
      rw [if_neg (by omega), if_neg c3]
      refine ⟨_, rfl, ?_⟩
      rw [← ha]
      exact copy_literal_agree _ _ _ _ ⟨rfl, rfl, hout⟩
    · intro hc
      rw [if_pos (by omega)]
      exact ⟨_, rfl⟩
  · rw [if_neg c1, if_neg c4, if_pos c5, if_neg c6]
    have key := fun b1 hb => decode_backref_agree in_data c0 c _ _ _ b1 a1 hb
      (by simp only; omega) ha
    exact key _ ⟨rfl, rfl, hout⟩
  · rw [if_neg c1, if_neg c4, if_neg c5]
    have key := fun b1 hb => decode_backref_agree in_data c0 c _ _ _ b1 a1 hb
      (by simp only; omega) ha
    exact key _ ⟨rfl, rfl, hout⟩

theorem DAgree_refl (a : DState) : DAgree a a := ⟨rfl, rfl, fun _ _ => rfl⟩

theorem decompress_loop_capacity (in_data : Nat → Byte) (in_len c0 c : Nat) :
    ∀ (fuel : Nat) (a b : DState) (r : Ret DState), DAgree a b →
      decompress_loop in_data in_len c0 fuel a = some r → r.ret ≠ 0 →
      a.op ≤ r.ret ∧
      (r.ret ≤ c → ∃ r1, decompress_loop in_data in_len c fuel b = some r1 ∧
        r1.ret = r.ret ∧ ∀ i, i < r.ret → r1.st.out i = r.st.out i) ∧
      (c < r.ret → ∃ r1, decompress_loop in_data in_len c fuel b = some r1 ∧ r1.ret = 0) := by
  intro fuel
  induction fuel with
  | zero => intro a b r _ h _; simp [decompress_loop] at h
  | succ fuel ih =>
    intro a b r hab h hr
    unfold decompress_loop at h ⊢
    cases hc : decode_token in_data in_len c0 a with
    | ret0 a1 =>
      rw [hc] at h
      simp only [Option.some.injEq] at h
      rw [← h] at hr
      exact absurd rfl hr
    | stop a1 =>
      rw [hc] at h
      simp only [Option.some.injEq] at h
      rw [← h] at hr
      exact absurd rfl hr
    | next a1 =>
      rw [hc] at h
      simp only at h
      obtain ⟨hlt, hle, hgt⟩ := decode_token_agree in_data in_len c0 c a b a1 hab hc
      have hip : a1.op ≤ r.ret := by
        split_ifs at h with c1
        · exact (ih a1 a1 r (DAgree_refl a1) h hr).1
        · simp only [Option.some.injEq] at h
          rw [← h]
      refine ⟨by omega, ?_, ?_⟩
      · intro hcap
        obtain ⟨b1, hb1, hab1⟩ := hle (by omega)
        rw [hb1]
        simp only
        rw [← hab1.1]
        split_ifs at h ⊢ with c1
        · exact (ih a1 b1 r hab1 h hr).2.1 hcap
        · simp only [Option.some.injEq] at h
          refine ⟨_, rfl, ?_, ?_⟩
          · rw [← h]; exact hab1.2.1.symm
          · intro i hi
            rw [← h] at hi ⊢
            exact (hab1.2.2 i hi).symm
      · intro hcap
        by_cases hc1 : a1.op ≤ c
        · obtain ⟨b1, hb1, hab1⟩ := hle hc1
          rw [hb1]
          simp only
          rw [← hab1.1]
          split_ifs at h ⊢ with c1
          · exact (ih a1 b1 r hab1 h hr).2.2 hcap
          · simp only [Option.some.injEq] at h
            rw [← h] at hcap
            simp only at hcap
            omega
        · obtain ⟨b1, hb1⟩ := hgt (by omega)
          rw [hb1]
          exact ⟨_, rfl, rfl⟩

theorem bytes_congr (f g : Nat → Byte) (n : Nat) (h : ∀ i, i < n → f i = g i) :
    bytes f n = bytes g n := by
  unfold bytes
  apply List.map_congr_left
  intro i hi
  exact h i (List.mem_range.mp hi)

/-- C7. Decoder capacity is exact: if `lzf_decompress` decodes a stream to `n` bytes (a non-zero
return) under some capacity, then under every capacity `c` (and every initial content of the
output buffer) it returns `n` with the same `n` output bytes when `c ≥ n`, including `c = n`,
and it returns `0` when `c < n`. -/
theorem lzf_decompress_capacity_exact (in_data : Nat → Byte) (in_len : Nat)
    (out0 : Nat → Byte) (c0 n : Nat)
    (h : (lzf_decompress in_data in_len out0 c0).map Ret.ret = some n) (hn : n ≠ 0)
    (out1 : Nat → Byte) (c : Nat) :
    (n ≤ c → ∃ r r1, lzf_decompress in_data in_len out0 c0 = some r ∧
        lzf_decompress in_data in_len out1 c = some r1 ∧ r1.ret = n ∧
        bytes r1.st.out n = bytes r.st.out n) ∧
      (c < n → ∃ r1, lzf_decompress in_data in_len out1 c = some r1 ∧ r1.ret = 0) := by
  cases hr : lzf_decompress in_data in_len out0 c0 with
  | none => rw [hr] at h; simp at h
  | some r =>
    rw [hr] at h
    simp only [Option.map_some', Option.some.injEq] at h
    subst h
    unfold lzf_decompress at hr ⊢
    obtain ⟨_, hle, hgt⟩ := decompress_loop_capacity in_data in_len c0 c (in_len + 1)
      { ip := 0, op := 0, out := out0, rds := [], wrs := [], srcs := [] }
      { ip := 0, op := 0, out := out1, rds := [], wrs := [], srcs := [] } r
      ⟨rfl, rfl, fun i hi => absurd hi (Nat.not_lt_zero i)⟩ hr hn
    refine ⟨fun hc => ?_, fun hc => hgt hc⟩
    obtain ⟨r1, h1, h2, h3⟩ := hle hc
    exact ⟨r, r1, rfl, h1, h2, bytes_congr _ _ _ h3⟩

theorem lzf_decompress_capacity_exact_witness :
    (lzf_decompress (mem [0, 120, 0x60, 0]) 4 (mem []) 9).map Ret.ret = some 6 ∧ 6 ≠ 0 ∧
    ((6 ≤ 6 → ∃ r r1, lzf_decompress (mem [0, 120, 0x60, 0]) 4 (mem []) 9 = some r ∧
        lzf_decompress (mem [0, 120, 0x60, 0]) 4 (mem [1, 2, 3]) 6 = some r1 ∧ r1.ret = 6 ∧
        bytes r1.st.out 6 = bytes r.st.out 6) ∧
      (6 < 6 → ∃ r1, lzf_decompress (mem [0, 120, 0x60, 0]) 4 (mem [1, 2, 3]) 6 = some r1 ∧
        r1.ret = 0)) :=
  ⟨by decide, by decide,
    lzf_decompress_capacity_exact (mem [0, 120, 0x60, 0]) 4 (mem []) 9 6
      (by decide) (by decide) (mem [1, 2, 3]) 6⟩

theorem Complete_le (in_data : Nat → Byte) (a e k : Nat) (h : Complete in_data a e k) :
    a ≤ e := by
  induction h with
  | done a => exact Nat.le_refl a
  | token a e k _ ih => omega

theorem decode_backref_advance (in_data : Nat → Byte) (out_len len : Nat) (ref : Int)
    (s : DState) :
    (decode_backref in_data out_len len ref s).Holds
      (fun s1 => s1.ip = s.ip + 1 ∧ s1.op = s.op + (len + 2)) (fun _ => False)
      (fun _ => True) := by
  unfold decode_backref
  simp only
  split_ifs
  · trivial
  · trivial
  · exact ⟨by rw [copy_backref_ip], by rw [copy_backref_op]⟩

theorem decode_token_advance (in_data : Nat → Byte) (in_len out_len : Nat) (s : DState) :
    (decode_token in_data in_len out_len s).Holds
      (fun s1 => s1.ip = s.ip + tok_size in_data s.ip ∧ s1.op = s.op + tok_len in_data s.ip)
      (fun _ => False) (fun _ => True) := by
  unfold decode_token tok_size tok_len
  simp only [show (1 <<< 5 : Nat) = 32 from rfl]
  by_cases c1 : (in_data s.ip).val < 32
  · simp only [if_pos c1]
    split_ifs
    · trivial
    · trivial
    · exact ⟨by rw [copy_literal_ip]; simp only; omega, by rw [copy_literal_op]⟩
  · simp only [if_neg c1]
    by_cases c2 : (in_data s.ip).val >>> 5 = 7
    · simp only [if_pos c2]
      split_ifs
      · trivial
      · trivial
      · refine (decode_backref_advance in_data out_len _ _ _).mono ?_ (fun _ h => h)
          (fun _ h => h)
        intro s1 h
        simp only at h
        exact ⟨by omega, by omega⟩
    · simp only [if_neg c2]
      split_ifs
      · trivial
      · refine (decode_backref_advance in_data out_len _ _ _).mono ?_ (fun _ h => h)
          (fun _ h => h)
        intro s1 h
        simp only at h
        exact ⟨by omega, by omega⟩

theorem decompress_loop_prefix (in_data : Nat → Byte) (in_len out_len e K : Nat)
    (he : e < in_len)
    (hbad : ∀ s : DState, s.ip = e → s.op = K →
      ∃ s1, decode_token in_data in_len out_len s = .ret0 s1) :
    ∀ (a k : Nat), Complete in_data a e k → ∀ (fuel : Nat) (s : DState), s.ip = a →
      s.op + k = K → in_len < s.ip + fuel + 1 →
      ∃ r, decompress_loop in_data in_len out_len fuel s = some r ∧ r.ret = 0 := by
  intro a k h
  induction h with
  | done a =>
    intro fuel s hip hop hf
    cases fuel with
    | zero => omega
    | succ fuel =>
      obtain ⟨s1, h1⟩ := hbad s hip (by omega)
      unfold decompress_loop
      rw [h1]
      exact ⟨_, rfl, rfl⟩
  | token a e1 k hc ih =>
    intro fuel s hip hop hf
    have hle := Complete_le _ _ _ _ hc
    cases fuel with
    | zero => omega
    | succ fuel =>
      have hadv := decode_token_advance in_data in_len out_len s
      unfold decompress_loop
      cases hd : decode_token in_data in_len out_len s with
      | ret0 s1 => exact ⟨_, rfl, rfl⟩
      | stop s1 => exact ⟨_, rfl, rfl⟩
      | next s1 =>
        rw [hd] at hadv
        obtain ⟨h1, h2⟩ := hadv
        rw [hip] at h1 h2
        simp only
        rw [if_pos (by omega)]
        have hpos : 0 < tok_size in_data a := by unfold tok_size; split_ifs <;> omega
        exact ih he hbad fuel s1 h1 (by omega) (by omega)

theorem tok_size_pos (in_data : Nat → Byte) (a : Nat) : 2 ≤ tok_size in_data a := by
  unfold tok_size; split_ifs <;> omega

/-- C5. Invalid back-reference is rejected: when the input starts with complete tokens that
occupy the positions below `a` and declare `k` output bytes, and a complete back-reference
token (control byte at least 32, all its bytes inside the input) at position `a` has a
distance larger than `k`, then `lzf_decompress` returns 0, for every output capacity, every
initial output content and whatever bytes follow the token. -/
theorem lzf_decompress_rejects_invalid_backref (in_data : Nat → Byte) (in_len : Nat)
    (out_data : Nat → Byte) (out_len a k : Nat) (hpre : Complete in_data 0 a k)
    (hctrl : 32 ≤ (in_data a).val) (hfit : a + tok_size in_data a ≤ in_len)
    (hd : k < tok_dist in_data a) :
    ∃ r, lzf_decompress in_data in_len out_data out_len = some r ∧ r.ret = 0 := by
  unfold lzf_decompress
  refine decompress_loop_prefix in_data in_len out_len a k
    (by have := tok_size_pos in_data a; omega) ?_ 0 k hpre _ _ rfl
    (by simp only; omega) (by simp only; omega)
  intro s hip hop
  subst hip hop
  unfold tok_dist tok_size at hd
  unfold tok_size at hfit
  unfold decode_token decode_backref
  simp only [show (1 <<< 5 : Nat) = 32 from rfl]
  rw [if_neg (by omega)] at hd hfit
  rw [if_neg (by omega)]
  by_cases c2 : (in_data s.ip).val >>> 5 = 7
  · rw [if_pos c2] at hd hfit
    rw [if_neg (by omega), if_pos c2, if_neg (by omega)]
    split_ifs with c3 c4
    · exact ⟨_, rfl⟩
    · exact ⟨_, rfl⟩
    · exfalso
      simp only [show s.ip + 3 - 1 = s.ip + 1 + 1 from rfl] at hd
      omega
  · rw [if_neg c2] at hd hfit
    rw [if_neg (by omega), if_neg c2]
    split_ifs with c3 c4
    · exact ⟨_, rfl⟩
    · exact ⟨_, rfl⟩
    · exfalso
      simp only [show s.ip + 2 - 1 = s.ip + 1 from rfl] at hd
      omega

theorem lzf_decompress_rejects_invalid_backref_witness :
    Complete (mem [0x20, 0x00]) 0 0 0 ∧ 32 ≤ (mem [0x20, 0x00] 0).val ∧
    0 + tok_size (mem [0x20, 0x00]) 0 ≤ 2 ∧ 0 < tok_dist (mem [0x20, 0x00]) 0 ∧
    ∃ r, lzf_decompress (mem [0x20, 0x00]) 2 (mem []) 16 = some r ∧ r.ret = 0 :=
  ⟨Complete.done 0, by decide, by decide, by decide,
    lzf_decompress_rejects_invalid_backref (mem [0x20, 0x00]) 2 (mem []) 16 0 0
      (Complete.done 0) (by decide) (by decide) (by decide)⟩

/-- C6. Truncated stream is rejected: when the input starts with complete tokens that occupy
the positions below `a`, and the token that starts at position `a < in_len` is cut by the end
of the input (a literal control byte `L < 32` followed by fewer than `L + 1` bytes, a
back-reference control byte with no byte after it, or a control byte with top bits 111
followed by fewer than 2 bytes), then `lzf_decompress` returns 0, for every output capacity
and every initial output content. -/
theorem lzf_decompress_rejects_truncated (in_data : Nat → Byte) (in_len : Nat)
    (out_data : Nat → Byte) (out_len a k : Nat) (hpre : Complete in_data 0 a k)
    (ha : a < in_len)
    (hcut : ((in_data a).val < 32 ∧ in_len - (a + 1) < (in_data a).val + 1) ∨
      (32 ≤ (in_data a).val ∧ in_len - (a + 1) = 0) ∨
      ((in_data a).val >>> 5 = 7 ∧ in_len - (a + 1) < 2)) :
    ∃ r, lzf_decompress in_data in_len out_data out_len = some r ∧ r.ret = 0 := by
  unfold lzf_decompress
  refine decompress_loop_prefix in_data in_len out_len a k ha ?_ 0 k hpre _ _ rfl
    (by simp only; omega) (by simp only; omega)
  intro s hip _
  subst hip
  unfold decode_token
  simp only [show (1 <<< 5 : Nat) = 32 from rfl]
  have h7 : (in_data s.ip).val >>> 5 = 7 → 32 ≤ (in_data s.ip).val := by
    intro h
    rw [Nat.shiftRight_eq_div_pow] at h
    omega
  by_cases c1 : (in_data s.ip).val < 32
  · rw [if_pos c1]
    split_ifs with c2 c3
    · exact ⟨_, rfl⟩
    · exact ⟨_, rfl⟩
    · exfalso
      rcases hcut with h | h | h
      · omega
      · omega
      · have := h7 h.1
        omega
  · rw [if_neg c1]
    split_ifs with c2 c3 c4
    · exact ⟨_, rfl⟩
    · exact ⟨_, rfl⟩
    · exfalso
      rcases hcut with h | h | h <;> omega
    · exfalso
      rcases hcut with h | h | h
      · omega
      · omega
      · exact c3 h.1

theorem lzf_decompress_rejects_truncated_witness :
    Complete (mem [0x00, 0x41, 0x05, 0x42]) 0 2 1 ∧ 2 < 4 ∧
    (((mem [0x00, 0x41, 0x05, 0x42] 2).val < 32 ∧
        4 - (2 + 1) < (mem [0x00, 0x41, 0x05, 0x42] 2).val + 1) ∨
      (32 ≤ (mem [0x00, 0x41, 0x05, 0x42] 2).val ∧ 4 - (2 + 1) = 0) ∨
      ((mem [0x00, 0x41, 0x05, 0x42] 2).val >>> 5 = 7 ∧ 4 - (2 + 1) < 2)) ∧
    ∃ r, lzf_decompress (mem [0x00, 0x41, 0x05, 0x42]) 4 (mem []) 16 = some r ∧ r.ret = 0 :=
  ⟨Complete.token 0 2 0 (Complete.done 2), by decide, by decide,
    lzf_decompress_rejects_truncated (mem [0x00, 0x41, 0x05, 0x42]) 4 (mem []) 16 2 1
      (Complete.token 0 2 0 (Complete.done 2)) (by decide) (by decide)⟩

/-! ### The match finder -/

theorem extend_match_spec (in_data : Nat → Byte) (p : Int) (ip maxlen : Nat) :
    ∀ (fuel len : Nat) (rds : List Int), len ≤ maxlen →
      (∀ k, k < len → load in_data (p + k) = load in_data ((ip : Int) + k)) →
      len ≤ (extend_match in_data p ip maxlen fuel len rds).1 ∧
      (extend_match in_data p ip maxlen fuel len rds).1 ≤ maxlen ∧
      ∀ k, k < (extend_match in_data p ip maxlen fuel len rds).1 →
        load in_data (p + k) = load in_data ((ip : Int) + k) := by
  intro fuel
  induction fuel with
  | zero => intro len rds h1 h2; exact ⟨Nat.le_refl _, h1, h2⟩
  | succ fuel ih =>
    intro len rds h1 h2
    unfold extend_match
    simp only
    split_ifs with c
    · obtain ⟨a, b, d⟩ := ih (len + 1) (((ip : Int) + len) :: (p + len) :: rds) (by omega) (by
        intro k hk
        by_cases hkl : k = len
        · subst hkl; exact c.1
        · exact h2 k (by omega))
      exact ⟨by omega, b, d⟩
    · exact ⟨Nat.le_refl _, h1, h2⟩

theorem candidate_good (in_data : Nat → Byte) (ip maxlen : Nat) (b p : Int) (bst : Best)
    (hb : GoodMatch in_data ip b maxlen bst) (hpb : b ≤ p) (hpi : p < (ip : Int))
    (hm : 3 ≤ maxlen) : GoodMatch in_data ip b maxlen (candidate in_data ip maxlen p bst) := by
  unfold candidate
  simp only
  split_ifs with c1 c2 c3 c4 c5
  · have h := extend_match_spec in_data p ip maxlen (maxlen - 3) 3
      ((ip : Int) :: p :: ((ip : Int) + 1) :: (p + 1) :: ((ip : Int) + bst.l) :: (p + bst.l) ::
        ((ip : Int) + 2) :: (p + 2) :: bst.rds) hm (by
        intro k hk
        have hk3 : k = 0 ∨ k = 1 ∨ k = 2 := by omega
        rcases hk3 with rfl | rfl | rfl
        · simpa using c4
        · simpa using c3
        · simpa using c1)
    right
    exact ⟨hpb, hpi, h.1, h.2.1, h.2.2⟩
  · exact hb
  · exact hb
  · exact hb
  · exact hb
  · exact hb

theorem walk_good (in_data : Nat → Byte) (base : Nat) (prev : Nat → Nat) (ip : Nat) (b : Int)
    (maxlen : Nat) (hb0 : 0 ≤ b) (hm : 3 ≤ maxlen) :
    ∀ (fuel : Nat) (p : Int) (bst r : Best), GoodMatch in_data ip b maxlen bst →
      p < (ip : Int) → walk in_data base prev ip b maxlen fuel p bst = some r →
      GoodMatch in_data ip b maxlen r := by
  intro fuel
  induction fuel with
  | zero => intro p bst r _ _ h; simp [walk] at h
  | succ fuel ih =>
    intro p bst r hg hp h
    unfold walk at h
    simp only at h
    split_ifs at h with c1 c2 c3
    · simp only [Option.some.injEq] at h
      rw [← h]
      exact candidate_good in_data ip maxlen b p bst hg c1 hp hm
    · exact ih _ _ r (candidate_good in_data ip maxlen b p bst hg c1 hp hm) (by omega) h
    · exact ih _ _ r (candidate_good in_data ip maxlen b p bst hg c1 hp hm) (by omega) h
    · simp only [Option.some.injEq] at h
      rw [← h]
      exact hg

theorem walk_total (in_data : Nat → Byte) (base : Nat) (prev : Nat → Nat) (ip : Nat) (b : Int)
    (maxlen : Nat) (hb0 : 0 ≤ b) (hbase : 0 < base) :
    ∀ (fuel : Nat) (p : Int) (bst : Best), 1 ≤ fuel → p - b + 2 ≤ (fuel : Int) →
      ∃ r, walk in_data base prev ip b maxlen fuel p bst = some r := by
  intro fuel
  induction fuel with
  | zero => intro p bst h; omega
  | succ fuel ih =>
    intro p bst _ hf
    unfold walk
    simp only
    split_ifs with c1 c2 c3
    · exact ⟨_, rfl⟩
    · exact ih _ _ (by omega) (by omega)
    · exact ih _ _ (by omega) (by omega)
    · exact ⟨_, rfl⟩

/-! ### Decoding a stream of valid tokens -/

theorem tok_len_pos (src : Nat → Byte) (a : Nat) : 1 ≤ tok_len src a := by
  unfold tok_len; split_ifs <;> omega

theorem Toks_le (src tgt : Nat → Byte) (a e k K : Nat) (h : Toks src tgt a e k K) :
    a ≤ e ∧ k ≤ K := by
  induction h with
  | done a k => exact ⟨Nat.le_refl a, Nat.le_refl k⟩
  | token a e k K _ _ ih => omega

theorem Toks_same (src tgt : Nat → Byte) (a k K : Nat) (h : Toks src tgt a a k K) :
    k = K := by
  cases h with
  | done => rfl
  | token _ _ _ _ _ hr =>
    have := (Toks_le _ _ _ _ _ _ hr).1
    have := tok_size_pos src a
    omega

theorem Toks_trans (src tgt : Nat → Byte) (a m e k k1 K : Nat)
    (h1 : Toks src tgt a m k k1) (h2 : Toks src tgt m e k1 K) : Toks src tgt a e k K := by
  induction h1 with
  | done a k => exact h2
  | token a m k k1 hok _ ih => exact Toks.token a e k K hok (ih h2)

theorem copy_backref_target (tgt : Nat → Byte) :
    ∀ (n : Nat) (ref : Int) (s : DState), 0 ≤ ref → ref < (s.op : Int) →
      (∀ i, i < s.op → s.out i = tgt i) →
      (∀ j, j < n → tgt (s.op + j) = tgt (ref + (j : Int)).toNat) →
      ∀ i, i < s.op + n → (copy_backref n ref s).out i = tgt i := by
  intro n
  induction n with
  | zero => intro ref s _ _ h _ i hi; exact h i hi
  | succ n ih =>
    intro ref s h0 h1 hout htgt i hi
    simp only [copy_backref]
    refine ih (ref + 1) _ (by omega) (by simp only; omega) ?_ ?_ i (by simp only; omega)
    · intro i hi
      simp only at hi ⊢
      by_cases hc : i = s.op
      · subst hc
        rw [store_same, hout _ (by omega)]
        have := htgt 0 (by omega)
        simp only [Nat.add_zero, Nat.cast_zero, Int.add_zero] at this
        exact this.symm
      · rw [store_other _ _ _ _ hc]
        exact hout i (by omega)
    · intro j hj
      simp only
      have := htgt (j + 1) (by omega)
      rw [show s.op + 1 + j = s.op + (j + 1) by omega,
        show ref + 1 + (j : Int) = ref + ((j + 1 : Nat) : Int) by push_cast; omega]
      exact this

theorem decode_token_valid (src tgt : Nat → Byte) (in_len out_len : Nat) (s : DState)
    (hok : TokOk src tgt s.ip s.op) (hin : s.ip + tok_size src s.ip ≤ in_len)
    (hout : s.op + tok_len src s.ip ≤ out_len) (hag : ∀ i, i < s.op → s.out i = tgt i) :
    ∃ s1, decode_token src in_len out_len s = .next s1 ∧ s1.ip = s.ip + tok_size src s.ip ∧
      s1.op = s.op + tok_len src s.ip ∧ ∀ i, i < s1.op → s1.out i = tgt i := by
  unfold TokOk at hok
  unfold tok_dist at hok
  unfold tok_size at hin hok
  unfold tok_len at hout hok
  unfold decode_token tok_size tok_len
  simp only [show (1 <<< 5 : Nat) = 32 from rfl]
  by_cases c1 : (src s.ip).val < 32
  · simp only [if_pos c1] at hin hout hok ⊢
    rw [if_neg (by omega), if_neg (by omega)]
    refine ⟨_, rfl, by rw [copy_literal_ip]; simp only; omega, by rw [copy_literal_op], ?_⟩
    intro i hi
    rw [copy_literal_op] at hi
    rw [copy_literal_out]
    simp only at hi ⊢
    split_ifs with c2
    · have := hok (i - s.op) (by omega)
      rw [show s.ip + 1 + (i - s.op) = s.ip + 1 + (i - s.op) from rfl] at this
      rw [this]
      congr 1
      omega
    · exact hag i (by omega)
  · simp only [if_neg c1] at hin hout hok ⊢
    unfold decode_backref
    by_cases c2 : (src s.ip).val >>> 5 = 7
    · simp only [if_pos c2] at hin hout hok ⊢
      simp only [show s.ip + 3 - 1 = s.ip + 1 + 1 from rfl] at hok
      obtain ⟨hd, hrep⟩ := hok
      rw [if_neg (by omega), if_neg (by omega), if_neg (by omega), if_neg (by omega)]
      refine ⟨_, rfl, ?_, ?_, ?_⟩
      · rw [copy_backref_ip]
      · rw [copy_backref_op]; simp only [c2]
      · intro i hi
        rw [copy_backref_op] at hi
        simp only [c2] at hi ⊢
        refine copy_backref_target tgt _ _ _ ?_ ?_ ?_ ?_ i hi
        · omega
        · simp only; omega
        · exact hag
        · intro j hj
          simp only
          rw [hrep j (by omega)]
          congr 1
          omega
    · simp only [if_neg c2] at hin hout hok ⊢
      simp only [show s.ip + 2 - 1 = s.ip + 1 from rfl] at hok
      obtain ⟨hd, hrep⟩ := hok
      rw [if_neg (by omega), if_neg (by omega), if_neg (by omega)]
      refine ⟨_, rfl, ?_, ?_, ?_⟩
      · rw [copy_backref_ip]
      · rw [copy_backref_op]
      · intro i hi
        rw [copy_backref_op] at hi
        refine copy_backref_target tgt _ _ _ ?_ ?_ ?_ ?_ i hi
        · omega
        · simp only; omega
        · exact hag
        · intro j hj
          simp only
          rw [hrep j (by omega)]
          congr 1
          omega

theorem decompress_loop_Toks (src tgt : Nat → Byte) (out_len : Nat) :
    ∀ (a e k K : Nat), Toks src tgt a e k K → ∀ (fuel : Nat) (s : DState), s.ip = a →
      s.op = k → a < e → K ≤ out_len → (∀ i, i < s.op → s.out i = tgt i) →
      e < a + fuel + 1 →
      ∃ r, decompress_loop src e out_len fuel s = some r ∧ r.ret = K ∧
        ∀ i, i < K → r.st.out i = tgt i := by
  intro a e k K h
  induction h with
  | done a k => intro fuel s _ _ h; omega
  | token a e k K hok hrest ih =>
    intro fuel s hip hop hae hK hag hf
    obtain ⟨hle1, hle2⟩ := Toks_le _ _ _ _ _ _ hrest
    subst hip hop
    cases fuel with
    | zero => omega
    | succ fuel =>
      obtain ⟨s1, h1, h2, h3, h4⟩ := decode_token_valid src tgt e out_len s hok hle1
        (by omega) hag
      unfold decompress_loop
      rw [h1]
      simp only
      have hpos := tok_size_pos src s.ip
      split_ifs with c
      · exact ih fuel s1 h2 h3 (by omega) hK h4 (by omega)
      · have he : s.ip + tok_size src s.ip = e := by omega
        rw [he] at hrest
        have := Toks_same _ _ _ _ _ hrest
        refine ⟨_, rfl, by simp only; omega, ?_⟩
        intro i hi
        exact h4 i (by omega)

/-! ### Building valid token streams -/

theorem and31 (c : Nat) : c &&& 31 = c % 32 := Nat.and_pow_two_sub_one_eq_mod c 5

theorem Toks_literal (src tgt : Nat → Byte) (a k n : Nat) (h1 : 1 ≤ n) (h2 : n ≤ 32)
    (hc : (src a).val = n - 1) (hb : ∀ j, j < n → src (a + 1 + j) = tgt (k + j)) :
    Toks src tgt a (a + 1 + n) k (k + n) := by
  have hs : tok_size src a = 1 + n := by
    unfold tok_size; rw [if_pos (by omega)]; omega
  have hl : tok_len src a = n := by
    unfold tok_len; rw [if_pos (by omega)]; omega
  refine Toks.token a _ k _ ?_ ?_
  · unfold TokOk
    rw [if_pos (by omega), hl]
    exact hb
  · rw [hs, hl, ← Nat.add_assoc]
    exact Toks.done _ _

theorem Toks_short (src tgt : Nat → Byte) (a k l off : Nat) (hl1 : 3 ≤ l) (hl2 : l ≤ 8)
    (ho : off < 8192) (hc : (src a).val = off / 256 + (l - 2) * 32)
    (hlo : (src (a + 1)).val = off % 256) (hk : off + 1 ≤ k)
    (hrep : ∀ j, j < l → tgt (k + j) = tgt (k + j - (off + 1))) :
    Toks src tgt a (a + 2) k (k + l) := by
  have h5 : (src a).val >>> 5 = l - 2 := by
    rw [Nat.shiftRight_eq_div_pow]; omega
  have hs : tok_size src a = 2 := by
    unfold tok_size; rw [if_neg (by omega), if_neg (by omega)]
  have hl : tok_len src a = l := by
    unfold tok_len; rw [if_neg (by omega), if_neg (by omega)]; omega
  have hd : tok_dist src a = off + 1 := by
    unfold tok_dist
    rw [hs, and31, Nat.shiftLeft_eq, show a + 2 - 1 = a + 1 from rfl, hlo]
    omega
  refine Toks.token a _ k _ ?_ ?_
  · unfold TokOk
    rw [if_neg (by omega), hl, hd]
    exact ⟨hk, hrep⟩
  · rw [hs, hl]
    exact Toks.done _ _

theorem Toks_long (src tgt : Nat → Byte) (a k l off : Nat) (hl1 : 9 ≤ l) (hl2 : l ≤ 264)
    (ho : off < 8192) (hc : (src a).val = off / 256 + 224)
    (hx : (src (a + 1)).val = l - 9)
    (hlo : (src (a + 2)).val = off % 256) (hk : off + 1 ≤ k)
    (hrep : ∀ j, j < l → tgt (k + j) = tgt (k + j - (off + 1))) :
    Toks src tgt a (a + 3) k (k + l) := by
  have h5 : (src a).val >>> 5 = 7 := by
    rw [Nat.shiftRight_eq_div_pow]; omega
  have hs : tok_size src a = 3 := by
    unfold tok_size; rw [if_neg (by omega), if_pos h5]
  have hl : tok_len src a = l := by
    unfold tok_len; rw [if_neg (by omega), if_pos h5]; omega
  have hd : tok_dist src a = off + 1 := by
    unfold tok_dist
    rw [hs, and31, Nat.shiftLeft_eq, show a + 3 - 1 = a + 2 from rfl, hlo]
    omega
  refine Toks.token a _ k _ ?_ ?_
  · unfold TokOk
    rw [if_neg (by omega), hl, hd]
    exact ⟨hk, hrep⟩
  · rw [hs, hl]
    exact Toks.done _ _

theorem Toks_congr (src src1 tgt : Nat → Byte) :
    ∀ (a e k K : Nat), Toks src tgt a e k K → (∀ i, a ≤ i → i < e → src i = src1 i) →
      Toks src1 tgt a e k K := by
  intro a e k K h
  induction h with
  | done a k => intro _; exact Toks.done a k
  | token a e k K hok hrest ih =>
    intro hag
    have hle := (Toks_le _ _ _ _ _ _ hrest).1
    have hpos := tok_size_pos src a
    have h0 : src1 a = src a := (hag a (Nat.le_refl a) (by omega)).symm
    have hs : tok_size src1 a = tok_size src a := by
      unfold tok_size; rw [h0]
    have hl : tok_len src1 a = tok_len src a := by
      unfold tok_len
      rw [h0]
      by_cases c1 : (src a).val < 32
      · rw [if_pos c1, if_pos c1]
      · rw [if_neg c1, if_neg c1]
        by_cases c2 : (src a).val >>> 5 = 7
        · rw [if_pos c2, if_pos c2]
          have : tok_size src a = 3 := by
            unfold tok_size; rw [if_neg c1, if_pos c2]
          rw [← hag (a + 1) (by omega) (by omega)]
        · rw [if_neg c2, if_neg c2]
    have hd : tok_dist src1 a = tok_dist src a := by
      unfold tok_dist
      rw [hs, h0, ← hag (a + tok_size src a - 1) (by omega) (by omega)]
    refine Toks.token a e k K ?_ ?_
    · unfold TokOk at hok ⊢
      rw [h0, hl, hd]
      by_cases c1 : (src a).val < 32
      · rw [if_pos c1] at hok ⊢
        intro j hj
        have hsz : tok_size src a = (src a).val + 2 := by
          unfold tok_size; rw [if_pos c1]
        have hln : tok_len src a = (src a).val + 1 := by
          unfold tok_len; rw [if_pos c1]
        rw [← hag (a + 1 + j) (by omega) (by omega)]
        exact hok j hj
      · rw [if_neg c1] at hok ⊢
        exact hok
    · rw [hs, hl]
      exact ih (fun i h1 h2 => hag i (by omega) h2)

/-! ### The invariant of the encoder -/

theorem u8_val (z : Int) : (u8 z).val = (z % 256).toNat := rfl

theorem u8_lit (lit : Nat) (h1 : 1 ≤ lit) (h2 : lit ≤ 32) :
    (u8 ((lit : Int) - 1)).val = lit - 1 := by
  rw [u8_val]; omega

theorem u8_low (off : Int) (o : Nat) (ho : off = (o : Int)) : (u8 off).val = o % 256 := by
  rw [u8_val, ho]; omega

theorem u8_ext (len : Nat) (h1 : 7 ≤ len) (h2 : len ≤ 262) :
    (u8 ((len : Int) - 7)).val = len - 7 := by
  rw [u8_val]; omega

theorem u8_ctrl (off : Int) (o len : Nat) (ho : off = (o : Int)) (h : o < 8192)
    (hl : len ≤ 7) :
    (u8 ((off >>> (8 : Nat)) + ((len <<< 5 : Nat) : Int))).val = o / 256 + len * 32 := by
  rw [u8_val, ho, Int.shiftRight_eq_div_pow, Nat.shiftLeft_eq]
  norm_num
  omega

theorem index_skipped_fields (in_data : Nat → Byte) (base : Nat) :
    ∀ (n : Nat) (s : CState), (index_skipped in_data base n s).ip = s.ip + n ∧
      (index_skipped in_data base n s).op = s.op ∧
      (index_skipped in_data base n s).lit = s.lit ∧
      (index_skipped in_data base n s).out = s.out ∧
      (index_skipped in_data base n s).wrs = s.wrs ∧
      (index_skipped in_data base n s).refs = s.refs := by
  intro n
  induction n with
  | zero => intro s; exact ⟨rfl, rfl, rfl, rfl, rfl, rfl⟩
  | succ n ih =>
    intro s
    simp only [index_skipped]
    obtain ⟨h1, h2, h3, h4, h5, h6⟩ := ih
      { (index_update in_data base s).1 with ip := (index_update in_data base s).1.ip + 1 }
    refine ⟨?_, ?_, ?_, ?_, ?_, ?_⟩
    · rw [h1]; simp only [index_update]; omega
    · rw [h2]; rfl
    · rw [h3]; rfl
    · rw [h4]; rfl
    · rw [h5]; rfl
    · rw [h6]; rfl

theorem CInv_congr (in_data : Nat → Byte) (in_len : Nat) (s t : CState) (h : CInv in_data in_len s)
    (h1 : t.ip = s.ip) (h2 : t.op = s.op) (h3 : t.lit = s.lit) (h4 : t.out = s.out)
    (h5 : t.refs = s.refs) : CInv in_data in_len t := by
  obtain ⟨a, b, c, d, e, f, g, i⟩ := h
  constructor
  · rw [h1, h3]; exact a
  · rw [h1]; exact b
  · rw [h3]; exact c
  · rw [h2, h3]; exact d
  · rw [h1, h2]; exact e
  · rw [h1, h2, h3, h4]; exact f
  · rw [h1, h2, h3, h4]; exact g
  · rw [h5]; exact i

theorem push_literal_inv (in_data : Nat → Byte) (in_len : Nat) (s : CState)
    (h : CInv in_data in_len s) (hip : s.ip < in_len) :
    CInv in_data in_len (push_literal in_data s) := by
  obtain ⟨a, b, c, d, e, f, g, i⟩ := h
  unfold push_literal close_run add_literal
  simp only [LZF_MAX_LIT_eq]
  split_ifs with c1
  · have hstop : ((s.op : Int) + 1 - ((s.lit + 1 : Nat) : Int) - 1).toNat = s.op - s.lit - 1 := by
      omega
    constructor
    · simp only; omega
    · simp only; omega
    · simp only; omega
    · simp only; omega
    · intro _; simp only; omega
    · simp only [Nat.sub_zero, Nat.add_sub_cancel]
      push_cast at hstop ⊢
      rw [hstop]
      have e1 : s.op - s.lit - 1 + 1 + (s.lit + 1) = s.op + 1 := by omega
      have e2 : s.ip - s.lit + (s.lit + 1) = s.ip + 1 := by omega
      refine Toks_trans _ _ 0 (s.op - s.lit - 1) _ 0 (s.ip - s.lit) _ ?_ ?_
      · refine Toks_congr _ _ _ _ _ _ _ f ?_
        intro j _ hj
        simp only [store]
        rw [if_neg (by omega), if_neg (by omega)]
      · rw [← e1, ← e2]
        refine Toks_literal _ _ _ _ _ (by omega) (by omega) ?_ ?_
        · rw [store_same, u8_val]; omega
        · intro j hj
          by_cases hjl : j = s.lit
          · subst hjl
            simp only [store]
            rw [if_neg (by omega), if_pos (by omega)]
            congr 1
            omega
          · have := g j (by omega)
            simp only [store]
            rw [if_neg (by omega), if_neg (by omega)]
            rw [show s.op - s.lit - 1 + 1 + j = s.op - s.lit + j by omega, this]
    · intro j hj; simp only at hj; omega
    · exact i
  · constructor
    · simp only; omega
    · simp only; omega
    · simp only; omega
    · simp only; omega
    · intro _; simp only; omega
    · simp only
      rw [show s.op + 1 - (s.lit + 1) - 1 = s.op - s.lit - 1 by omega,
        show s.ip + 1 - (s.lit + 1) = s.ip - s.lit by omega]
      refine Toks_congr _ _ _ _ _ _ _ f ?_
      intro j _ hj
      simp only [store]
      rw [if_neg (by omega)]
    · intro j hj
      simp only at hj ⊢
      rw [show s.op + 1 - (s.lit + 1) + j = s.op - s.lit + j by omega,
        show s.ip + 1 - (s.lit + 1) + j = s.ip - s.lit + j by omega]
      by_cases hjl : j = s.lit
      · subst hjl
        simp only [store]
        rw [if_pos (by omega)]
        congr 1
        omega
      · simp only [store]
        rw [if_neg (by omega)]
        exact g j (by omega)
    · exact i

theorem Toks_close_run (in_data : Nat → Byte) (in_len : Nat) (s : CState)
    (h : CInv in_data in_len s) (out2 : Nat → Byte)
    (h1 : ∀ i, i < s.op - s.lit - 1 → out2 i = s.out i)
    (h2 : 1 ≤ s.lit → (out2 (s.op - s.lit - 1)).val = s.lit - 1)
    (h3 : ∀ j, j < s.lit → out2 (s.op - s.lit + j) = s.out (s.op - s.lit + j)) :
    Toks out2 in_data 0 (s.op - (if s.lit = 0 then 1 else 0)) 0 s.ip := by
  obtain ⟨a, b, c, d, e, f, g, i⟩ := h
  have hf : Toks out2 in_data 0 (s.op - s.lit - 1) 0 (s.ip - s.lit) :=
    Toks_congr _ _ _ _ _ _ _ f (fun j _ hj => (h1 j hj).symm)
  by_cases c0 : s.lit = 0
  · rw [if_pos c0]
    rw [c0] at hf
    exact hf
  · rw [if_neg c0, Nat.sub_zero]
    have e1 : s.op - s.lit - 1 + 1 + s.lit = s.op := by omega
    have e2 : s.ip - s.lit + s.lit = s.ip := by omega
    have hl := Toks_literal out2 in_data (s.op - s.lit - 1) (s.ip - s.lit) s.lit (by omega)
      (by omega) (h2 (by omega)) (by
        intro j hj
        rw [show s.op - s.lit - 1 + 1 + j = s.op - s.lit + j by omega, h3 j hj]
        exact g j hj)
    rw [e1, e2] at hl
    exact Toks_trans _ _ 0 (s.op - s.lit - 1) _ 0 (s.ip - s.lit) _ hf hl

theorem put_backref_fields (s : CState) (l : Nat) (p : Int) :
    (put_backref s l p).ip = s.ip + 1 + (l - 2 + 1) ∧ (put_backref s l p).lit = 0 ∧
    (put_backref s l p).refs = (s.ip, p, l) :: s.refs ∧
    (put_backref s l p).op =
      s.op - (if s.lit = 0 then 1 else 0) + (if l - 2 < 7 then 2 else 3) + 1 ∧
    (put_backref s l p).out =
      (if l - 2 < 7 then
        store (store (store s.out ((s.op : Int) - s.lit - 1).toNat (u8 ((s.lit : Int) - 1)))
          (s.op - (if s.lit = 0 then 1 else 0))
          (u8 ((((s.ip : Int) - p - 1) >>> (8 : Nat)) + (((l - 2) <<< 5 : Nat) : Int))))
          (s.op - (if s.lit = 0 then 1 else 0) + 1) (u8 ((s.ip : Int) - p - 1))
      else
        store (store (store (store s.out ((s.op : Int) - s.lit - 1).toNat (u8 ((s.lit : Int) - 1)))
          (s.op - (if s.lit = 0 then 1 else 0))
          (u8 ((((s.ip : Int) - p - 1) >>> (8 : Nat)) + ((7 <<< 5 : Nat) : Int))))
          (s.op - (if s.lit = 0 then 1 else 0) + 1) (u8 (((l - 2 : Nat) : Int) - 7)))
          (s.op - (if s.lit = 0 then 1 else 0) + 2) (u8 ((s.ip : Int) - p - 1))) ∧
    (put_backref s l p).first = s.first ∧ (put_backref s l p).prev = s.prev ∧
    (put_backref s l p).rds = s.rds := by
  by_cases c1 : l - 2 < 7
  · refine ⟨?_, ?_, ?_, ?_, ?_, ?_, ?_, ?_⟩ <;> simp only [put_backref, if_pos c1]
  · refine ⟨?_, ?_, ?_, ?_, ?_, ?_, ?_, ?_⟩ <;> simp only [put_backref, if_neg c1]

theorem put_backref_inv (in_data : Nat → Byte) (in_len : Nat) (s : CState)
    (h : CInv in_data in_len s) (l : Nat) (p : Int)
    (hr : RefOk in_data in_len (s.ip, p, l)) :
    CInv in_data in_len (put_backref s l p) ∧ (put_backref s l p).ip = s.ip + l := by
  have hclose := Toks_close_run in_data in_len s h
  obtain ⟨hip, hlit, hrefs, hop, hout, _, _, _⟩ := put_backref_fields s l p
  obtain ⟨a, b, c, d, e, f, g, i⟩ := h
  have hr0 := hr
  obtain ⟨r1, r2, r3, r4, r5, r6, r7⟩ := hr
  simp only at r1 r2 r3 r4 r5 r6 r7
  obtain ⟨o, ho⟩ : ∃ o : Nat, (s.ip : Int) - p - 1 = (o : Int) :=
    ⟨((s.ip : Int) - p - 1).toNat, by omega⟩
  have hrep : ∀ j, j < l → in_data (s.ip + j) = in_data (s.ip + j - (o + 1)) := by
    intro j hj
    have := r7 j hj
    unfold load at this
    rw [show ((s.ip : Int) + (j : Int)).toNat = s.ip + j by omega,
      show (p + (j : Int)).toNat = s.ip + j - (o + 1) by omega] at this
    exact this.symm
  have hstop : ((s.op : Int) - s.lit - 1).toNat = s.op - s.lit - 1 := by omega
  generalize hop1 : s.op - (if s.lit = 0 then 1 else 0) = op1 at hop hout hclose
  have hop1' : (s.lit = 0 ∧ op1 = s.op - 1) ∨ (1 ≤ s.lit ∧ op1 = s.op) := by
    rw [← hop1]; split_ifs <;> omega
  refine ⟨?_, by rw [hip]; omega⟩
  rw [hstop] at hout
  by_cases c1 : l - 2 < 7
  · rw [if_pos c1] at hop hout
    constructor
    · rw [hlit]; omega
    · rw [hip]; omega
    · rw [hlit]; omega
    · rw [hlit, hop]; omega
    · intro _; rw [hop]; omega
    · rw [hlit, hip, hop, hout]
      have hc := hclose (store (store (store s.out (s.op - s.lit - 1) (u8 ((s.lit : Int) - 1)))
          op1 (u8 ((((s.ip : Int) - p - 1) >>> (8 : Nat)) + (((l - 2) <<< 5 : Nat) : Int))))
          (op1 + 1) (u8 ((s.ip : Int) - p - 1))) (by
            intro j hj
            rw [store_other _ _ _ _ (by omega), store_other _ _ _ _ (by omega), store_other _ _ _ _ (by omega)]) (by
            intro hl1
            rw [store_other _ _ _ _ (by omega), store_other _ _ _ _ (by omega), store_same, u8_val]
            omega) (by
            intro j hj
            rw [store_other _ _ _ _ (by omega), store_other _ _ _ _ (by omega), store_other _ _ _ _ (by omega)])
      have ht := Toks_short (store (store (store s.out (s.op - s.lit - 1) (u8 ((s.lit : Int) - 1)))
          op1 (u8 ((((s.ip : Int) - p - 1) >>> (8 : Nat)) + (((l - 2) <<< 5 : Nat) : Int))))
          (op1 + 1) (u8 ((s.ip : Int) - p - 1))) in_data op1 s.ip l o (by omega) (by omega)
          (by omega) (by
            rw [store_other _ _ _ _ (by omega), store_same, u8_ctrl _ o _ ho (by omega) (by omega)]) (by
            rw [store_same, u8_low _ o ho]) (by omega) hrep
      have := Toks_trans _ _ _ _ _ _ _ _ hc ht
      rw [show op1 + 2 + 1 - 0 - 1 = op1 + 2 by omega,
        show s.ip + 1 + (l - 2 + 1) - 0 = s.ip + l by omega]
      exact this
    · intro j hj; rw [hlit] at hj; omega
    · rw [hrefs]
      intro x hx
      rcases List.mem_cons.mp hx with rfl | hx
      · exact hr0
      · exact i x hx
  · rw [if_neg c1] at hop hout
    constructor
    · rw [hlit]; omega
    · rw [hip]; omega
    · rw [hlit]; omega
    · rw [hlit, hop]; omega
    · intro _; rw [hop]; omega
    · rw [hlit, hip, hop, hout]
      have hc := hclose (store (store (store (store s.out (s.op - s.lit - 1)
          (u8 ((s.lit : Int) - 1))) op1
          (u8 ((((s.ip : Int) - p - 1) >>> (8 : Nat)) + ((7 <<< 5 : Nat) : Int))))
          (op1 + 1) (u8 (((l - 2 : Nat) : Int) - 7)))
          (op1 + 2) (u8 ((s.ip : Int) - p - 1))) (by
            intro j hj
            rw [store_other _ _ _ _ (by omega), store_other _ _ _ _ (by omega), store_other _ _ _ _ (by omega), store_other _ _ _ _ (by omega)]) (by
            intro hl1
            rw [store_other _ _ _ _ (by omega), store_other _ _ _ _ (by omega), store_other _ _ _ _ (by omega), store_same, u8_val]
            omega) (by
            intro j hj
            rw [store_other _ _ _ _ (by omega), store_other _ _ _ _ (by omega), store_other _ _ _ _ (by omega), store_other _ _ _ _ (by omega)])
      have ht := Toks_long (store (store (store (store s.out (s.op - s.lit - 1)
          (u8 ((s.lit : Int) - 1))) op1
          (u8 ((((s.ip : Int) - p - 1) >>> (8 : Nat)) + ((7 <<< 5 : Nat) : Int))))
          (op1 + 1) (u8 (((l - 2 : Nat) : Int) - 7)))
          (op1 + 2) (u8 ((s.ip : Int) - p - 1))) in_data op1 s.ip l o (by omega) (by omega)
          (by omega) (by
            rw [store_other _ _ _ _ (by omega), store_other _ _ _ _ (by omega), store_same,
              u8_ctrl _ o 7 ho (by omega) (by omega)]) (by
            rw [store_other _ _ _ _ (by omega), store_same, u8_val]
            omega) (by
            rw [store_same, u8_low _ o ho]) (by omega) hrep
      have := Toks_trans _ _ _ _ _ _ _ _ hc ht
      rw [show op1 + 3 + 1 - 0 - 1 = op1 + 3 by omega,
        show s.ip + 1 + (l - 2 + 1) - 0 = s.ip + l by omega]
      exact this
    · intro j hj; rw [hlit] at hj; omega
    · rw [hrefs]
      intro x hx
      rcases List.mem_cons.mp hx with rfl | hx
      · exact hr0
      · exact i x hx

theorem push_literal_fields (in_data : Nat → Byte) (s : CState) :
    (push_literal in_data s).ip = s.ip + 1 ∧ (push_literal in_data s).refs = s.refs ∧
    (push_literal in_data s).first = s.first ∧ (push_literal in_data s).prev = s.prev ∧
    s.op + 1 ≤ (push_literal in_data s).op ∧ (push_literal in_data s).op ≤ s.op + 2 := by
  unfold push_literal close_run add_literal
  simp only
  split_ifs
  · exact ⟨rfl, rfl, rfl, rfl, by simp only; omega, by simp only; omega⟩
  · exact ⟨rfl, rfl, rfl, rfl, by simp only; omega, by simp only; omega⟩

theorem put_backref_op (s : CState) (l : Nat) (p : Int) (h : s.lit + 1 ≤ s.op) :
    s.op + 2 ≤ (put_backref s l p).op ∧ (put_backref s l p).op ≤ s.op + 4 := by
  rw [(put_backref_fields s l p).2.2.2.1]
  split_ifs <;> omega

theorem emit_match_inv (in_data : Nat → Byte) (in_len out_len base : Nat) (s : CState)
    (h : CInv in_data in_len s) (l : Nat) (p : Int)
    (hr : RefOk in_data in_len (s.ip, p, l)) :
    (emit_match in_data in_len out_len base s l p).Holds
      (StepOk in_data in_len s.ip s.op) (StepOk in_data in_len s.ip s.op)
      (FailOk in_data in_len out_len s.op) := by
  obtain ⟨hinv, hip⟩ := put_backref_inv in_data in_len s h l p hr
  obtain ⟨ho1, ho2⟩ := put_backref_op s l p h.op_ge
  have hl3 : 3 ≤ l := hr.2.2.2.1
  have hstop : StepOk in_data in_len s.ip s.op (put_backref s l p) :=
    ⟨hinv, by omega, by omega, by omega⟩
  have hnext : StepOk in_data in_len s.ip s.op (index_skipped in_data base (l - 2 + 1)
        { put_backref s l p with ip := (put_backref s l p).ip - (l - 2 + 1) }) := by
    obtain ⟨f1, f2, f3, f4, _, f6⟩ := index_skipped_fields in_data base (l - 2 + 1)
      { put_backref s l p with ip := (put_backref s l p).ip - (l - 2 + 1) }
    simp only at f1 f2 f3 f4 f6
    refine ⟨CInv_congr in_data in_len _ _ hinv ?_ f2 f3 f4 f6, ?_, ?_, ?_⟩
    · rw [f1, hip]; omega
    · rw [f1, hip]; omega
    · rw [f2]; omega
    · rw [f1, f2, hip]; omega
  unfold emit_match
  simp only
  by_cases c0 : s.op + 3 + 1 ≥ out_len ∧ s.op - (if s.lit = 0 then 1 else 0) + 3 + 1 ≥ out_len
  · rw [if_pos c0]
    exact ⟨h.refs_ok, by omega⟩
  · rw [if_neg c0]
    split_ifs
    · exact hstop
    · exact hnext

theorem emit_literal_inv (in_data : Nat → Byte) (in_len out_len : Nat) (s : CState)
    (h : CInv in_data in_len s) (hip : s.ip < in_len) :
    (emit_literal in_data out_len s).Holds
      (StepOk in_data in_len s.ip s.op) (StepOk in_data in_len s.ip s.op)
      (FailOk in_data in_len out_len s.op) := by
  unfold emit_literal
  split_ifs with c1
  · exact ⟨h.refs_ok, by omega⟩
  · obtain ⟨f1, _, _, _, f5, f6⟩ := push_literal_fields in_data s
    exact ⟨push_literal_inv in_data in_len s h hip, by omega, by omega, by omega⟩

theorem RefOk_mk (in_data : Nat → Byte) (in_len i : Nat) (p : Int) (l : Nat) (h1 : 0 ≤ p)
    (h2 : 1 ≤ (i : Int) - p) (h3 : (i : Int) - p ≤ 8192) (h4 : 3 ≤ l) (h5 : l ≤ 264)
    (h6 : i + l ≤ in_len)
    (h7 : ∀ k, k < l → load in_data (p + (k : Int)) = load in_data ((i : Int) + (k : Int))) :
    RefOk in_data in_len (i, p, l) := ⟨h1, h2, h3, h4, h5, h6, h7⟩

theorem compress_step_inv (in_data : Nat → Byte) (in_len out_len base : Nat) (s : CState)
    (h : CInv in_data in_len s) (hlt : (s.ip : Int) < (in_len : Int) - 2)
    (c : Ctl CState) (hc : compress_step in_data in_len out_len base s = some c) :
    c.Holds (StepOk in_data in_len s.ip s.op) (StepOk in_data in_len s.ip s.op)
      (FailOk in_data in_len out_len s.op) := by
  unfold compress_step at hc
  simp only [LZF_MAX_OFF_eq, LZF_MAX_REF_eq] at hc
  generalize hm : (if in_len - s.ip < 264 then in_len - s.ip else 264) = maxlen at hc
  generalize hb : (if s.ip < 8192 then (0 : Int) else (s.ip : Int) - ((8192 : Nat) : Int)) = b at hc
  have hm3 : 3 ≤ maxlen ∧ maxlen ≤ 264 ∧ maxlen ≤ in_len - s.ip := by
    rw [← hm]; split_ifs <;> omega
  have hb0 : 0 ≤ b ∧ (s.ip : Int) - 8192 ≤ b := by
    rw [← hb]; split_ifs <;> omega
  have hg0 : GoodMatch in_data s.ip b maxlen
      { l := 0, p := 0, brk := false, rds := (index_update in_data base s).1.rds } := Or.inl rfl
  split at hc
  · simp at hc
  · rename_i bst hfound
    have hg : GoodMatch in_data s.ip b maxlen bst := by
      split_ifs at hfound with c1
      · exact walk_good in_data base _ s.ip b maxlen hb0.1 hm3.1 _ _ _ bst hg0 c1 hfound
      · simp only [Option.some.injEq] at hfound
        rw [← hfound]; exact hg0
    have hinv2 : CInv in_data in_len { (index_update in_data base s).1 with rds := bst.rds } :=
      CInv_congr in_data in_len s _ h rfl rfl rfl rfl rfl
    split_ifs at hc with c2
    · simp only [Option.some.injEq] at hc
      rw [← hc]
      rcases hg with hg | ⟨g1, g2, g3, g4, g5⟩
      · exact absurd hg c2
      · exact emit_match_inv in_data in_len out_len base _ hinv2 bst.l bst.p
          (RefOk_mk in_data in_len s.ip bst.p bst.l (by omega) (by omega) (by omega) g3
            (by omega) (by omega) g5)
    · simp only [Option.some.injEq] at hc
      rw [← hc]
      exact emit_literal_inv in_data in_len out_len _ hinv2 (by simp only [index_update]; omega)

theorem copy_tail_inv (in_data : Nat → Byte) (in_len : Nat) :
    ∀ (n : Nat) (s : CState), CInv in_data in_len s → s.ip + n ≤ in_len →
      CInv in_data in_len (copy_tail in_data n s) ∧ (copy_tail in_data n s).ip = s.ip + n := by
  intro n
  induction n with
  | zero => intro s h _; exact ⟨h, rfl⟩
  | succ n ih =>
    intro s h hn
    simp only [copy_tail]
    have h1 := push_literal_inv in_data in_len s h (by omega)
    have h2 := (push_literal_fields in_data s).1
    obtain ⟨h3, h4⟩ := ih (push_literal in_data s) h1 (by omega)
    exact ⟨h3, by rw [h4, h2]; omega⟩

theorem finish_inv (in_data : Nat → Byte) (in_len out_len : Nat) (s : CState)
    (h : CInv in_data in_len s) :
    (∀ e ∈ (finish in_data in_len out_len s).st.refs, RefOk in_data in_len e) ∧
    ((finish in_data in_len out_len s).ret ≠ 0 →
      Toks (finish in_data in_len out_len s).st.out in_data 0
        (finish in_data in_len out_len s).ret 0 in_len) := by
  unfold finish
  split_ifs with c1
  · exact ⟨h.refs_ok, fun h0 => absurd rfl h0⟩
  · obtain ⟨h1, h2⟩ := copy_tail_inv in_data in_len (in_len - s.ip) s h (by have := h.ip_le; omega)
    have hip : (copy_tail in_data (in_len - s.ip) s).ip = in_len := by
      rw [h2]; have := h.ip_le; omega
    generalize copy_tail in_data (in_len - s.ip) s = t at h1 hip
    have hclose := Toks_close_run in_data in_len t h1
    obtain ⟨a, b, c, d, e, f, g, i⟩ := h1
    have hstop : ((t.op : Int) - t.lit - 1).toNat = t.op - t.lit - 1 := by omega
    simp only
    refine ⟨i, fun _ => ?_⟩
    · rw [hstop]
      have := hclose (store t.out (t.op - t.lit - 1) (u8 ((t.lit : Int) - 1))) (by
        intro j hj
        rw [store_other _ _ _ _ (by omega)]) (by
        intro hl
        rw [store_same, u8_val]; omega) (by
        intro j hj
        rw [store_other _ _ _ _ (by omega)])
      rw [hip] at this
      exact this

theorem compress_loop_inv (in_data : Nat → Byte) (in_len out_len base : Nat) :
    ∀ (fuel : Nat) (s : CState) (r : Ret CState), CInv in_data in_len s →
      compress_loop in_data in_len out_len base fuel s = some r →
      (∀ e ∈ r.st.refs, RefOk in_data in_len e) ∧
      (r.ret ≠ 0 → Toks r.st.out in_data 0 r.ret 0 in_len) := by
  intro fuel
  induction fuel with
  | zero => intro s r _ h; simp [compress_loop] at h
  | succ fuel ih =>
    intro s r hinv h
    unfold compress_loop at h
    split_ifs at h with c1
    · cases hc : compress_step in_data in_len out_len base s with
      | none => rw [hc] at h; simp at h
      | some c =>
        have hstep := compress_step_inv in_data in_len out_len base s hinv c1 c hc
        rw [hc] at h
        cases c with
        | ret0 s1 =>
          simp only [Option.some.injEq] at h
          rw [← h]
          exact ⟨hstep.1, fun h0 => absurd rfl h0⟩
        | stop s1 =>
          simp only [Option.some.injEq] at h
          rw [← h]
          exact finish_inv in_data in_len out_len s1 hstep.1
        | next s1 =>
          simp only at h
          exact ih s1 r hstep.1 h
    · simp only [Option.some.injEq] at h
      rw [← h]
      exact finish_inv in_data in_len out_len s hinv

theorem add_literal_first (in_data : Nat → Byte) (s : CState) (h : s.lit = 0) :
    add_literal in_data s = push_literal in_data s := by
  unfold push_literal close_run
  rw [if_neg]
  simp only [add_literal, h, LZF_MAX_LIT_eq]
  omega

theorem lzf_compress_inv (in_data : Nat → Byte) (in_len : Nat) (out_data : Nat → Byte)
    (out_len base : Nat) (first : Nat → Int) (prev : Nat → Nat) (r : Ret CState)
    (h : lzf_compress in_data in_len out_data out_len base first prev = some r) :
    (∀ e ∈ r.st.refs, RefOk in_data in_len e) ∧
    (r.ret ≠ 0 → Toks r.st.out in_data 0 r.ret 0 in_len) := by
  unfold lzf_compress at h
  simp only at h
  split_ifs at h with c1
  · simp only [Option.some.injEq] at h
    rw [← h]
    exact ⟨fun e he => by simp at he, fun h0 => absurd rfl h0⟩
  · have hn : 0 < in_len := by omega
    rw [add_literal_first in_data _ rfl] at h
    refine compress_loop_inv in_data in_len out_len base in_len _ r ?_ h
    refine push_literal_inv in_data in_len _ ?_ hn
    constructor
    · exact Nat.le_refl _
    · exact Nat.zero_le _
    · simp only; omega
    · simp only; omega
    · intro h0; simp only at h0; omega
    · exact Toks.done 0 0
    · intro j hj; simp only at hj; omega
    · intro e he; simp at he

theorem mem_bytes (m : Nat → Byte) (n i : Nat) (h : i < n) : mem (bytes m n) i = m i := by
  unfold mem bytes
  simp [List.getD_eq_getElem?_getD, h]

/-- C1. Round trip: whenever `lzf_compress` returns `n ≠ 0` for a non-empty input (for any
output capacity, any initial buffer content, any address and any initial table contents),
`lzf_decompress` applied to the first `n` bytes that `lzf_compress` wrote, with any output
capacity `c ≥ in_len` (in particular `c = in_len`), returns `in_len`, and the first `in_len`
bytes it wrote are the input. -/
theorem lzf_roundtrip (in_data : Nat → Byte) (in_len : Nat) (out_data : Nat → Byte)
    (out_len base : Nat) (first : Nat → Int) (prev : Nat → Nat) (n : Nat)
    (h : (lzf_compress in_data in_len out_data out_len base first prev).map Ret.ret = some n)
    (hn : n ≠ 0) (dst : Nat → Byte) (c : Nat) (hc : in_len ≤ c) :
    ∃ r d, lzf_compress in_data in_len out_data out_len base first prev = some r ∧
      r.ret = n ∧ lzf_decompress (mem (bytes r.st.out n)) n dst c = some d ∧
      d.ret = in_len ∧ bytes d.st.out in_len = bytes in_data in_len := by
  cases hr : lzf_compress in_data in_len out_data out_len base first prev with
  | none => rw [hr] at h; simp at h
  | some r =>
    rw [hr] at h
    simp only [Option.map_some', Option.some.injEq] at h
    subst h
    have htoks := (lzf_compress_inv in_data in_len out_data out_len base first prev r hr).2 hn
    have htoks1 : Toks (mem (bytes r.st.out r.ret)) in_data 0 r.ret 0 in_len :=
      Toks_congr _ _ _ _ _ _ _ htoks (fun i _ hi => (mem_bytes _ _ _ hi).symm)
    obtain ⟨d, hd1, hd2, hd3⟩ := decompress_loop_Toks (mem (bytes r.st.out r.ret)) in_data c
      0 r.ret 0 in_len htoks1 (r.ret + 1)
      { ip := 0, op := 0, out := dst, rds := [], wrs := [], srcs := [] } rfl rfl (by omega) hc
      (fun i hi => absurd hi (Nat.not_lt_zero i)) (by omega)
    exact ⟨r, d, rfl, rfl, hd1, hd2, bytes_congr _ _ _ hd3⟩

/-! ### The capacity tests of the encoder -/

theorem copy_tail_op (in_data : Nat → Byte) :
    ∀ (n : Nat) (s : CState), s.op ≤ (copy_tail in_data n s).op := by
  intro n
  induction n with
  | zero => intro s; exact Nat.le_refl _
  | succ n ih =>
    intro s
    simp only [copy_tail]
    have h1 := ih (push_literal in_data s)
    have h2 := (push_literal_fields in_data s).2.2.2.2.1
    omega

theorem emit_literal_cap (in_data : Nat → Byte) (c c1 : Nat) (s : CState)
    (hf : ¬(emit_literal in_data c s).failed)
    (hc : c ≤ c1 ∨ (emit_literal in_data c s).st.op + 2 ≤ c1) :
    emit_literal in_data c1 s = emit_literal in_data c s ∧
      s.op ≤ (emit_literal in_data c s).st.op := by
  have h5 := (push_literal_fields in_data s).2.2.2.2.1
  unfold emit_literal at hf hc ⊢
  by_cases c0 : s.op ≥ c
  · rw [if_pos c0] at hf
    exact absurd trivial hf
  · rw [if_neg c0] at hc ⊢
    simp only [Ctl.st] at hc ⊢
    rw [if_neg (by omega)]
    exact ⟨rfl, by omega⟩

theorem emit_match_cap (in_data : Nat → Byte) (in_len c c1 base : Nat) (s : CState)
    (l : Nat) (p : Int) (hf : ¬(emit_match in_data in_len c base s l p).failed)
    (hc : c ≤ c1 ∨ (emit_match in_data in_len c base s l p).st.op + 2 ≤ c1) :
    emit_match in_data in_len c1 base s l p = emit_match in_data in_len c base s l p ∧
      s.op ≤ (emit_match in_data in_len c base s l p).st.op := by
  have hop := (put_backref_fields s l p).2.2.2.1
  have hsk := (index_skipped_fields in_data base (l - 2 + 1)
      { put_backref s l p with ip := (put_backref s l p).ip - (l - 2 + 1) }).2.1
  simp only at hsk
  have htsz : 2 ≤ (if l - 2 < 7 then 2 else 3) := by split_ifs <;> omega
  unfold emit_match at hf hc ⊢
  simp only at hf hc ⊢
  by_cases c0 : s.op + 3 + 1 ≥ c ∧ s.op - (if s.lit = 0 then 1 else 0) + 3 + 1 ≥ c
  · rw [if_pos c0] at hf
    exact absurd trivial hf
  · rw [if_neg c0] at hc ⊢
    have hnl : (if s.lit = 0 then 1 else 0) ≤ 1 := by split_ifs <;> omega
    by_cases c2 : ((put_backref s l p).ip : Int) ≥ (in_len : Int) - 2
    · rw [if_pos c2] at hc ⊢
      simp only [Ctl.st] at hc ⊢
      rw [if_neg (by omega)]
      exact ⟨rfl, by omega⟩
    · rw [if_neg c2] at hc ⊢
      simp only [Ctl.st] at hc ⊢
      rw [hsk] at hc ⊢
      rw [if_neg (by omega)]
      exact ⟨rfl, by omega⟩

theorem compress_step_cap (in_data : Nat → Byte) (in_len c c1 base : Nat) (s : CState)
    (ctl : Ctl CState) (h : compress_step in_data in_len c base s = some ctl)
    (hf : ¬ctl.failed) (hc : c ≤ c1 ∨ ctl.st.op + 2 ≤ c1) :
    compress_step in_data in_len c1 base s = some ctl ∧ s.op ≤ ctl.st.op := by
  unfold compress_step at h ⊢
  simp only at h ⊢
  split at h
  · simp at h
  · split_ifs at h ⊢ with c2
    · simp only [Option.some.injEq] at h
      subst h
      obtain ⟨e1, e2⟩ := emit_match_cap in_data in_len c c1 base _ _ _ hf hc
      exact ⟨by rw [e1], e2⟩
    · simp only [Option.some.injEq] at h
      subst h
      obtain ⟨e1, e2⟩ := emit_literal_cap in_data c c1 _ hf hc
      exact ⟨by rw [e1], e2⟩

theorem finish_cap (in_data : Nat → Byte) (in_len c c1 : Nat) (s : CState)
    (hr : (finish in_data in_len c s).ret ≠ 0)
    (hc : c ≤ c1 ∨ (finish in_data in_len c s).ret + 4 ≤ c1) :
    finish in_data in_len c1 s = finish in_data in_len c s ∧
      s.op ≤ (finish in_data in_len c s).ret + 1 := by
  have h1 := copy_tail_op in_data (in_len - s.ip) s
  unfold finish at hr hc ⊢
  by_cases c0 : s.op + 3 > c
  · rw [if_pos c0] at hr
    exact absurd rfl hr
  · rw [if_neg c0] at hr hc ⊢
    simp only at hr hc ⊢
    have hnl : (if (copy_tail in_data (in_len - s.ip) s).lit = 0 then 1 else 0) ≤ 1 := by
      split_ifs <;> omega
    rw [if_neg (by omega)]
    exact ⟨rfl, by omega⟩

theorem compress_loop_cap (in_data : Nat → Byte) (in_len c base : Nat) :
    ∀ (fuel : Nat) (s : CState) (r : Ret CState),
      compress_loop in_data in_len c base fuel s = some r → r.ret ≠ 0 →
      s.op ≤ r.ret + 1 ∧
      ∀ c1, c ≤ c1 ∨ r.ret + 4 ≤ c1 → compress_loop in_data in_len c1 base fuel s = some r := by
  intro fuel
  induction fuel with
  | zero => intro s r h _; simp [compress_loop] at h
  | succ fuel ih =>
    intro s r h hr
    unfold compress_loop at h
    split_ifs at h with c0
    · cases hs : compress_step in_data in_len c base s with
      | none => rw [hs] at h; simp at h
      | some ctl =>
        rw [hs] at h
        cases ctl with
        | ret0 s1 =>
          simp only [Option.some.injEq] at h
          rw [← h] at hr
          exact absurd rfl hr
        | stop s1 =>
          simp only [Option.some.injEq] at h
          subst h
          have hle := (compress_step_cap in_data in_len c c base s _ hs (fun x => x)
            (Or.inl (Nat.le_refl c))).2
          simp only [Ctl.st] at hle
          have hfin := fun c1 hc1 => finish_cap in_data in_len c c1 s1 hr hc1
          have hop := (hfin c (Or.inl (Nat.le_refl c))).2
          refine ⟨by omega, fun c1 hc1 => ?_⟩
          unfold compress_loop
          rw [if_pos c0]
          rw [(compress_step_cap in_data in_len c c1 base s _ hs (fun x => x) (by
            simp only [Ctl.st]; omega)).1]
          simp only
          rw [(hfin c1 hc1).1]
        | next s1 =>
          simp only at h
          have hle := (compress_step_cap in_data in_len c c base s _ hs (fun x => x)
            (Or.inl (Nat.le_refl c))).2
          simp only [Ctl.st] at hle
          obtain ⟨hop, hrec⟩ := ih s1 r h hr
          refine ⟨by omega, fun c1 hc1 => ?_⟩
          unfold compress_loop
          rw [if_pos c0]
          rw [(compress_step_cap in_data in_len c c1 base s _ hs (fun x => x) (by
            simp only [Ctl.st]; omega)).1]
          simp only
          exact hrec c1 hc1
    · simp only [Option.some.injEq] at h
      subst h
      have hfin := fun c1 hc1 => finish_cap in_data in_len c c1 s hr hc1
      refine ⟨(hfin c (Or.inl (Nat.le_refl c))).2, fun c1 hc1 => ?_⟩
      unfold compress_loop
      rw [if_neg c0, (hfin c1 hc1).1]

theorem lzf_compress_cap (in_data : Nat → Byte) (in_len : Nat) (out_data : Nat → Byte)
    (c base : Nat) (first : Nat → Int) (prev : Nat → Nat) (r : Ret CState)
    (h : lzf_compress in_data in_len out_data c base first prev = some r) (hr : r.ret ≠ 0)
    (c1 : Nat) (hc : c ≤ c1 ∨ r.ret + 4 ≤ c1) :
    lzf_compress in_data in_len out_data c1 base first prev = some r := by
  unfold lzf_compress at h ⊢
  simp only at h ⊢
  split_ifs at h with c0
  · simp only [Option.some.injEq] at h
    rw [← h] at hr
    exact absurd rfl hr
  · rw [if_neg (by omega)]
    exact (compress_loop_cap in_data in_len c base in_len _ r h hr).2 c1 hc

/-! ### Termination and success of the encoder -/

theorem compress_step_total (in_data : Nat → Byte) (in_len c base : Nat) (s : CState)
    (hbase : 0 < base) : ∃ ctl, compress_step in_data in_len c base s = some ctl := by
  unfold compress_step
  simp only [LZF_MAX_OFF_eq, LZF_MAX_REF_eq]
  generalize hb : (if s.ip < 8192 then (0 : Int) else (s.ip : Int) - ((8192 : Nat) : Int)) = b
  have hb0 : 0 ≤ b ∧ (s.ip : Int) - 8192 ≤ b := by
    rw [← hb]; split_ifs <;> omega
  generalize (if in_len - s.ip < 264 then in_len - s.ip else 264) = maxlen
  have hfound : ∃ bst, (if (index_update in_data base s).2 < (s.ip : Int) then
      walk in_data base (index_update in_data base s).1.prev s.ip b maxlen (8192 + 1)
        (index_update in_data base s).2
        { l := 0, p := 0, brk := false, rds := (index_update in_data base s).1.rds }
      else some { l := 0, p := 0, brk := false, rds := (index_update in_data base s).1.rds })
      = some bst := by
    by_cases c1 : (index_update in_data base s).2 < (s.ip : Int)
    · rw [if_pos c1]
      exact walk_total in_data base _ s.ip b _ hb0.1 hbase (8192 + 1) _ _ (by omega)
        (by push_cast; omega)
    · rw [if_neg c1]
      exact ⟨_, rfl⟩
  obtain ⟨bst, hbst⟩ := hfound
  rw [hbst]
  simp only
  split_ifs
  · exact ⟨_, rfl⟩
  · exact ⟨_, rfl⟩

theorem finish_success (in_data : Nat → Byte) (in_len c : Nat) (s : CState)
    (h : CInv in_data in_len s) (hn : 0 < in_len) (hc : s.op + 3 ≤ c) :
    (finish in_data in_len c s).ret ≠ 0 := by
  obtain ⟨h1, h2⟩ := copy_tail_inv in_data in_len (in_len - s.ip) s h
    (by have := h.ip_le; omega)
  have hip : (copy_tail in_data (in_len - s.ip) s).ip = in_len := by
    rw [h2]; have := h.ip_le; omega
  have h3 := h1.op_two (by omega)
  unfold finish
  rw [if_neg (by omega)]
  simp only
  split_ifs <;> omega

theorem compress_loop_total (in_data : Nat → Byte) (in_len c base : Nat) (hn : 0 < in_len)
    (hbase : 0 < base) :
    ∀ (fuel : Nat) (s : CState), CInv in_data in_len s → 1 ≤ fuel →
      in_len ≤ s.ip + fuel + 1 → (2 * in_len + 4 ≤ c → s.op ≤ 2 * s.ip + 1) →
      ∃ r, compress_loop in_data in_len c base fuel s = some r ∧
        (2 * in_len + 4 ≤ c → r.ret ≠ 0) := by
  intro fuel
  induction fuel with
  | zero => intro s _ h; omega
  | succ fuel ih =>
    intro s hinv _ hf hop
    unfold compress_loop
    split_ifs with c0
    · obtain ⟨ctl, hs⟩ := compress_step_total in_data in_len c base s hbase
      have hstep := compress_step_inv in_data in_len c base s hinv c0 ctl hs
      rw [hs]
      cases ctl with
      | ret0 s1 =>
        refine ⟨_, rfl, fun hbig => ?_⟩
        have := hstep.2
        have := hop hbig
        omega
      | stop s1 =>
        obtain ⟨h1, h2, h3, h4⟩ := hstep
        refine ⟨_, rfl, fun hbig => ?_⟩
        have := hop hbig
        have := h1.ip_le
        exact finish_success in_data in_len c s1 h1 hn (by omega)
      | next s1 =>
        obtain ⟨h1, h2, h3, h4⟩ := hstep
        simp only
        exact ih s1 h1 (by omega) (by omega) (fun hbig => by have := hop hbig; omega)
    · refine ⟨_, rfl, fun hbig => ?_⟩
      have := hop hbig
      have := hinv.ip_le
      exact finish_success in_data in_len c s hinv hn (by omega)

theorem lzf_compress_total (in_data : Nat → Byte) (in_len : Nat) (out_data : Nat → Byte)
    (c base : Nat) (first : Nat → Int) (prev : Nat → Nat) (hn : 0 < in_len)
    (hbase : 0 < base) :
    ∃ r, lzf_compress in_data in_len out_data c base first prev = some r ∧
      (2 * in_len + 4 ≤ c → r.ret ≠ 0) := by
  unfold lzf_compress
  simp only
  split_ifs with c0
  · exact ⟨_, rfl, fun hbig => by omega⟩
  · rw [add_literal_first in_data _ rfl]
    have hinv : CInv in_data in_len (push_literal in_data
        { ip := 0, op := 0 + 1, lit := 0, out := out_data, first := first, prev := prev,
          rds := [], wrs := [], refs := [] }) := by
      refine push_literal_inv in_data in_len _ ?_ hn
      constructor
      · exact Nat.le_refl _
      · exact Nat.zero_le _
      · simp only; omega
      · simp only; omega
      · intro h0; simp only at h0; omega
      · exact Toks.done 0 0
      · intro j hj; simp only at hj; omega
      · intro e he; simp at he
    obtain ⟨f1, _, _, _, f5, f6⟩ := push_literal_fields in_data
        { ip := 0, op := 0 + 1, lit := 0, out := out_data, first := first, prev := prev,
          rds := [], wrs := [], refs := [] }
    simp only at f1 f5 f6
    exact compress_loop_total in_data in_len c base hn hbase in_len
      (push_literal in_data
        { ip := 0, op := 0 + 1, lit := 0, out := out_data, first := first, prev := prev,
          rds := [], wrs := [], refs := [] }) hinv (by omega)
      (by rw [f1]; omega) (fun _ => by rw [f1]; omega)

/-! ### The claims about `lzf_compress` -/

theorem lzf_roundtrip_witness :
    (lzf_compress (mem [97, 97, 97, 97, 97]) 5 (mem []) 16 4096 (fun _ => -4096)
      (fun _ => 0)).map Ret.ret = some 5 ∧ 5 ≠ 0 ∧ 5 ≤ 5 ∧
    ∃ r d, lzf_compress (mem [97, 97, 97, 97, 97]) 5 (mem []) 16 4096 (fun _ => -4096)
        (fun _ => 0) = some r ∧
      r.ret = 5 ∧ lzf_decompress (mem (bytes r.st.out 5)) 5 (mem []) 5 = some d ∧
      d.ret = 5 ∧ bytes d.st.out 5 = bytes (mem [97, 97, 97, 97, 97]) 5 :=
  ⟨by decide, by decide, by decide,
    lzf_roundtrip (mem [97, 97, 97, 97, 97]) 5 (mem []) 16 4096 (fun _ => -4096) (fun _ => 0) 5
      (by decide) (by decide) (mem []) 5 (by decide)⟩

/-- C3 (evaluation at the failing input). With a one-byte input and `out_len = 1`,
`lzf_compress` returns 0 after having written the output position 1, which is not below
`out_len`: the first literal byte is stored at line 67 without a capacity test. -/
theorem lzf_compress_writes_past_capacity :
    (lzf_compress (mem [97]) 1 (mem []) 1 4096 (fun _ => -4096) (fun _ => 0)).map
      (fun r => (r.ret, r.st.wrs)) = some (0, [1]) := by
  decide

/-- C4 (evaluation at the failing input). On the five-byte input `aaaaa` (`in_len = 5`) the
match found at position 2 reaches the end of the input, and `lzf_compress` reads the input
position 5, which is not below `in_len`: line 84 compares `p[len] == ip[len]` before it
tests `len < maxlen`. -/
theorem lzf_compress_reads_past_input :
    (lzf_compress (mem [97, 97, 97, 97, 97]) 5 (mem []) 16 4096 (fun _ => -4096)
      (fun _ => 0)).map (fun r => (r.ret, decide ((5 : Int) ∈ r.st.rds))) = some (5, true) := by
  decide

/-- C8 (counterexample). The one-byte input `a` encodes to 2 bytes under the capacity 16,
but `lzf_compress` returns 0 under the capacity 2: a return of 0 also happens when the
capacity is not smaller than the encoded length. -/
theorem lzf_compress_exact_capacity_fails :
    (lzf_compress (mem [97]) 1 (mem []) 16 4096 (fun _ => -4096) (fun _ => 0)).map
      Ret.ret = some 2 ∧
    (lzf_compress (mem [97]) 1 (mem []) 2 4096 (fun _ => -4096) (fun _ => 0)).map
      Ret.ret = some 0 := by
  decide

/-- C8 (amended). The encoder fails only when the output does not fit with a margin of four
bytes: if `lzf_compress` returns `n ≠ 0` under some capacity `c`, then under every capacity
`c1 ≥ n + 4` it returns the same result, so it returns `n` and writes the same `n` bytes. -/
theorem lzf_compress_capacity_margin (in_data : Nat → Byte) (in_len : Nat)
    (out_data : Nat → Byte) (c base : Nat) (first : Nat → Int) (prev : Nat → Nat) (n : Nat)
    (h : (lzf_compress in_data in_len out_data c base first prev).map Ret.ret = some n)
    (hn : n ≠ 0) (c1 : Nat) (hc1 : n + 4 ≤ c1) :
    ∃ r, lzf_compress in_data in_len out_data c base first prev = some r ∧
      lzf_compress in_data in_len out_data c1 base first prev = some r ∧ r.ret = n := by
  cases hr : lzf_compress in_data in_len out_data c base first prev with
  | none => rw [hr] at h; simp at h
  | some r =>
    rw [hr] at h
    simp only [Option.map_some', Option.some.injEq] at h
    subst h
    exact ⟨r, rfl, lzf_compress_cap in_data in_len out_data c base first prev r hr hn c1
      (Or.inr hc1), rfl⟩

theorem lzf_compress_capacity_margin_witness :
    (lzf_compress (mem [97, 97, 97, 97, 97]) 5 (mem []) 16 4096 (fun _ => -4096)
      (fun _ => 0)).map Ret.ret = some 5 ∧ 5 ≠ 0 ∧ 5 + 4 ≤ 9 ∧
    ∃ r, lzf_compress (mem [97, 97, 97, 97, 97]) 5 (mem []) 16 4096 (fun _ => -4096)
        (fun _ => 0) = some r ∧
      lzf_compress (mem [97, 97, 97, 97, 97]) 5 (mem []) 9 4096 (fun _ => -4096)
        (fun _ => 0) = some r ∧ r.ret = 5 :=
  ⟨by decide, by decide, by decide,
    lzf_compress_capacity_margin (mem [97, 97, 97, 97, 97]) 5 (mem []) 16 4096
      (fun _ => -4096) (fun _ => 0) 5 (by decide) (by decide) 9 (by decide)⟩

/-- C9. Capacity threshold: for every non-empty input (at a non-null address, with any
initial buffer and table contents) there are a minimum capacity `m ≥ 1`, a length `n ≠ 0`
and bytes `bs` such that `lzf_compress` returns 0 for every capacity below `m`, and for
every capacity `c ≥ m` returns `n` with `bs` as the first `n` output bytes. -/
theorem lzf_compress_capacity_threshold (in_data : Nat → Byte) (in_len : Nat)
    (out_data : Nat → Byte) (base : Nat) (first : Nat → Int) (prev : Nat → Nat)
    (hn : 0 < in_len) (hbase : 0 < base) :
    ∃ m n bs, 1 ≤ m ∧ n ≠ 0 ∧
      (∀ c, c < m →
        (lzf_compress in_data in_len out_data c base first prev).map Ret.ret = some 0) ∧
      (∀ c, m ≤ c →
        (lzf_compress in_data in_len out_data c base first prev).map
          (fun r => (r.ret, bytes r.st.out n)) = some (n, bs)) := by
  classical
  have hex : ∃ c, ∃ r, lzf_compress in_data in_len out_data c base first prev = some r ∧
      r.ret ≠ 0 := by
    obtain ⟨r, h1, h2⟩ := lzf_compress_total in_data in_len out_data (2 * in_len + 4) base
      first prev hn hbase
    exact ⟨_, r, h1, h2 (Nat.le_refl _)⟩
  obtain ⟨r, hr, hr0⟩ := Nat.find_spec hex
  refine ⟨Nat.find hex, r.ret, bytes r.st.out r.ret, ?_, hr0, ?_, ?_⟩
  · by_contra hm
    have h0 : Nat.find hex = 0 := by omega
    rw [h0] at hr
    unfold lzf_compress at hr
    simp only [or_true, if_true, Option.some.injEq] at hr
    rw [← hr] at hr0
    exact hr0 rfl
  · intro c hc
    obtain ⟨r1, h1, _⟩ := lzf_compress_total in_data in_len out_data c base first prev hn hbase
    rw [h1]
    simp only [Option.map_some', Option.some.injEq]
    by_contra h0
    exact Nat.find_min hex hc ⟨r1, h1, h0⟩
  · intro c hc
    rw [lzf_compress_cap in_data in_len out_data _ base first prev r hr hr0 c (Or.inl hc)]
    rfl

theorem lzf_compress_capacity_threshold_witness :
    0 < 5 ∧ 0 < 4096 ∧ ∃ m n bs, 1 ≤ m ∧ n ≠ 0 ∧
      (∀ c, c < m →
        (lzf_compress (mem [97, 97, 97, 97, 97]) 5 (mem []) c 4096 (fun _ => -4096)
          (fun _ => 0)).map Ret.ret = some 0) ∧
      (∀ c, m ≤ c →
        (lzf_compress (mem [97, 97, 97, 97, 97]) 5 (mem []) c 4096 (fun _ => -4096)
          (fun _ => 0)).map (fun r => (r.ret, bytes r.st.out n)) = some (n, bs)) :=
  ⟨by decide, by decide,
    lzf_compress_capacity_threshold (mem [97, 97, 97, 97, 97]) 5 (mem []) 4096
      (fun _ => -4096) (fun _ => 0) (by decide) (by decide)⟩

/-- C10. Window bound: for every back-reference `(i, p, l)` that `lzf_compress` emits (at
input position `i`, to the candidate position `p`), the distance `d = i - p` satisfies
`1 ≤ d ≤ 8192` and `d ≤ i`, so the encoded offset `d - 1` is non-negative and below `2^13`,
and its high part `(d - 1) >> 8` is below `2^5`: it stays clear of the three length bits of
the control byte. -/
theorem lzf_compress_window_bound (in_data : Nat → Byte) (in_len : Nat)
    (out_data : Nat → Byte) (out_len base : Nat) (first : Nat → Int) (prev : Nat → Nat)
    (e : Nat × Int × Nat)
    (he : e ∈ emitted (lzf_compress in_data in_len out_data out_len base first prev)) :
    1 ≤ (e.1 : Int) - e.2.1 ∧ (e.1 : Int) - e.2.1 ≤ 8192 ∧ (e.1 : Int) - e.2.1 ≤ (e.1 : Int) ∧
      0 ≤ (e.1 : Int) - e.2.1 - 1 ∧ (e.1 : Int) - e.2.1 - 1 < 2 ^ 13 ∧
      ((e.1 : Int) - e.2.1 - 1) >>> (8 : Nat) < 2 ^ 5 := by
  cases hr : lzf_compress in_data in_len out_data out_len base first prev with
  | none => rw [hr] at he; simp [emitted] at he
  | some r =>
    rw [hr] at he
    obtain ⟨r1, r2, r3, _⟩ :=
      (lzf_compress_inv in_data in_len out_data out_len base first prev r hr).1 e he
    rw [Int.shiftRight_eq_div_pow]
    refine ⟨r2, r3, by omega, by omega, by omega, ?_⟩
    norm_num
    omega

theorem lzf_compress_window_bound_witness :
    ((2, 1, 3) : Nat × Int × Nat) ∈ emitted (lzf_compress (mem [97, 97, 97, 97, 97]) 5 (mem [])
      16 4096 (fun _ => -4096) (fun _ => 0)) ∧
    (1 ≤ ((2 : Nat) : Int) - 1 ∧ ((2 : Nat) : Int) - 1 ≤ 8192 ∧
      ((2 : Nat) : Int) - 1 ≤ ((2 : Nat) : Int) ∧
      0 ≤ ((2 : Nat) : Int) - 1 - 1 ∧ ((2 : Nat) : Int) - 1 - 1 < 2 ^ 13 ∧
      (((2 : Nat) : Int) - 1 - 1) >>> (8 : Nat) < 2 ^ 5) :=
  ⟨by decide,
    lzf_compress_window_bound (mem [97, 97, 97, 97, 97]) 5 (mem []) 16 4096 (fun _ => -4096)
      (fun _ => 0) (2, 1, 3) (by decide)⟩

/-! ### Degenerate calls -/

/-- C15. Degenerate calls fail: whenever `in_len = 0` or `out_len = 0`, for every buffer
content, address and table content, `lzf_compress` returns 0, and it has read no input byte
and written no output byte. -/
theorem lzf_compress_degenerate (in_data : Nat → Byte) (in_len : Nat) (out_data : Nat → Byte)
    (out_len base : Nat) (first : Nat → Int) (prev : Nat → Nat)
    (h : in_len = 0 ∨ out_len = 0) :
    (lzf_compress in_data in_len out_data out_len base first prev).map
      (fun r => (r.ret, r.st.rds, r.st.wrs)) = some (0, [], []) := by
  unfold lzf_compress
  simp only
  rw [if_pos h]
  rfl

theorem lzf_compress_degenerate_witness :
    ((3 : Nat) = 0 ∨ (0 : Nat) = 0) ∧
    (lzf_compress (mem [1, 2, 3]) 3 (mem []) 0 4096 (fun _ => -4096) (fun _ => 0)).map
      (fun r => (r.ret, r.st.rds, r.st.wrs)) = some (0, [], []) :=
  ⟨by decide,
    lzf_compress_degenerate (mem [1, 2, 3]) 3 (mem []) 0 4096 (fun _ => -4096) (fun _ => 0)
      (by decide)⟩

/-- C20 (evaluation at the failing input). With `in_len = 0`, for every memory content and
every output capacity, `lzf_decompress` returns 0 and writes nothing, but it has read the
input position 0: the body of the `do ... while` loop loads the control byte (line 157)
before any test of `ip < in_end`. -/
theorem lzf_decompress_empty_reads (in_data out_data : Nat → Byte) (out_len : Nat) :
    (lzf_decompress in_data 0 out_data out_len).map
      (fun r => (r.ret, r.st.rds, r.st.wrs)) = some (0, [0], []) := by
  unfold lzf_decompress decompress_loop decode_token
  simp only [show (1 <<< 5 : Nat) = 32 from rfl]
  by_cases c1 : (in_data 0).val < 32
  · rw [if_pos c1]
    by_cases c2 : 0 + ((in_data 0).val + 1) > out_len
    · rw [if_pos c2]; rfl
    · rw [if_neg c2, if_pos (by omega)]; rfl
  · rw [if_neg c1, if_pos (by omega)]; rfl

/-! ### Independence of the initial table contents -/

/-- C19. Correctness does not depend on the initial contents of the tables: for every
initial content of `first` and of `prev` (and every address of the input), whenever
`lzf_compress` returns `n ≠ 0`, the `n` output bytes decode with `lzf_decompress` under
every capacity `c ≥ in_len` to exactly the input; and every back-reference that was emitted
points to a candidate inside the input, at a distance between 1 and 8192, whose bytes equal
the bytes at the position of the match over the whole length. -/
theorem lzf_roundtrip_any_tables (in_data : Nat → Byte) (in_len : Nat)
    (out_data : Nat → Byte) (out_len base : Nat) (first : Nat → Int) (prev : Nat → Nat)
    (n : Nat)
    (h : (lzf_compress in_data in_len out_data out_len base first prev).map Ret.ret = some n)
    (hn : n ≠ 0) (dst : Nat → Byte) (c : Nat) (hc : in_len ≤ c) :
    (∃ r d, lzf_compress in_data in_len out_data out_len base first prev = some r ∧
      r.ret = n ∧ lzf_decompress (mem (bytes r.st.out n)) n dst c = some d ∧
      d.ret = in_len ∧ bytes d.st.out in_len = bytes in_data in_len) ∧
    ∀ e ∈ emitted (lzf_compress in_data in_len out_data out_len base first prev),
      0 ≤ e.2.1 ∧ 1 ≤ (e.1 : Int) - e.2.1 ∧ (e.1 : Int) - e.2.1 ≤ 8192 ∧
      e.1 + e.2.2 ≤ in_len ∧
      ∀ k, k < e.2.2 →
        load in_data (e.2.1 + (k : Int)) = load in_data ((e.1 : Int) + (k : Int)) := by
  cases hr : lzf_compress in_data in_len out_data out_len base first prev with
  | none => rw [hr] at h; simp at h
  | some r =>
    rw [hr] at h
    simp only [Option.map_some', Option.some.injEq] at h
    subst h
    obtain ⟨hrefs, htoks⟩ :=
      lzf_compress_inv in_data in_len out_data out_len base first prev r hr
    have htoks1 : Toks (mem (bytes r.st.out r.ret)) in_data 0 r.ret 0 in_len :=
      Toks_congr _ _ _ _ _ _ _ (htoks hn) (fun i _ hi => (mem_bytes _ _ _ hi).symm)
    obtain ⟨d, hd1, hd2, hd3⟩ := decompress_loop_Toks (mem (bytes r.st.out r.ret)) in_data c
      0 r.ret 0 in_len htoks1 (r.ret + 1)
      { ip := 0, op := 0, out := dst, rds := [], wrs := [], srcs := [] } rfl rfl (by omega) hc
      (fun i hi => absurd hi (Nat.not_lt_zero i)) (by omega)
    refine ⟨⟨r, d, rfl, rfl, hd1, hd2, bytes_congr _ _ _ hd3⟩, ?_⟩
    intro e he
    obtain ⟨r1, r2, r3, _, _, r6, r7⟩ := hrefs e he
    exact ⟨r1, r2, r3, r6, r7⟩

theorem lzf_roundtrip_any_tables_witness :
    (lzf_compress (mem [97, 97, 97, 97, 97]) 5 (mem []) 16 7 (fun _ => 0)
      (fun _ => 1)).map Ret.ret = some 4 ∧ 4 ≠ 0 ∧ 5 ≤ 5 ∧
    ((∃ r d, lzf_compress (mem [97, 97, 97, 97, 97]) 5 (mem []) 16 7 (fun _ => 0)
        (fun _ => 1) = some r ∧
      r.ret = 4 ∧ lzf_decompress (mem (bytes r.st.out 4)) 4 (mem []) 5 = some d ∧
      d.ret = 5 ∧ bytes d.st.out 5 = bytes (mem [97, 97, 97, 97, 97]) 5) ∧
    ∀ e ∈ emitted (lzf_compress (mem [97, 97, 97, 97, 97]) 5 (mem []) 16 7 (fun _ => 0)
        (fun _ => 1)),
      0 ≤ e.2.1 ∧ 1 ≤ (e.1 : Int) - e.2.1 ∧ (e.1 : Int) - e.2.1 ≤ 8192 ∧
      e.1 + e.2.2 ≤ 5 ∧
      ∀ k, k < e.2.2 →
        load (mem [97, 97, 97, 97, 97]) (e.2.1 + (k : Int)) =
          load (mem [97, 97, 97, 97, 97]) ((e.1 : Int) + (k : Int))) :=
  ⟨by decide, by decide, by decide,
    lzf_roundtrip_any_tables (mem [97, 97, 97, 97, 97]) 5 (mem []) 16 7 (fun _ => 0)
      (fun _ => 1) 4 (by decide) (by decide) (mem []) 5 (by decide)⟩

/-! ### The overlapping copy of the decoder -/

theorem copy_backref_overlap :
    ∀ (n : Nat) (ref : Int) (s : DState), 0 ≤ ref → ref < (s.op : Int) →
      (∀ i, i < s.op → (copy_backref n ref s).out i = s.out i) ∧
      ∀ j, j < n → (copy_backref n ref s).out (s.op + j) =
        (copy_backref n ref s).out (ref + (j : Int)).toNat := by
  intro n
  induction n with
  | zero => intro ref s _ _; exact ⟨fun _ _ => rfl, fun j hj => absurd hj (Nat.not_lt_zero j)⟩
  | succ n ih =>
    intro ref s h0 h1
    simp only [copy_backref]
    obtain ⟨ha, hb⟩ := ih (ref + 1)
      { s with op := s.op + 1, out := store s.out s.op (s.out ref.toNat),
               wrs := s.op :: s.wrs, srcs := (ref, s.op) :: s.srcs }
      (by omega) (by simp only; omega)
    simp only at ha hb
    refine ⟨?_, ?_⟩
    · intro i hi
      rw [ha i (by omega), store_other _ _ _ _ (by omega)]
    · intro j hj
      cases j with
      | zero =>
        simp only [Nat.add_zero, Nat.cast_zero, Int.add_zero]
        rw [ha s.op (by omega), store_same, ha ref.toNat (by omega),
          store_other _ _ _ _ (by omega)]
      | succ j =>
        have := hb j (by omega)
        rw [show s.op + (j + 1) = s.op + 1 + j by omega,
          show ref + ((j + 1 : Nat) : Int) = ref + 1 + (j : Int) by push_cast; omega]
        exact this

theorem decode_token_backref (in_data : Nat → Byte) (in_len out_len : Nat) (s : DState)
    (hctrl : 32 ≤ (in_data s.ip).val) (hin : s.ip + tok_size in_data s.ip ≤ in_len)
    (hd : tok_dist in_data s.ip ≤ s.op) (hout : s.op + tok_len in_data s.ip ≤ out_len) :
    ∃ s1, decode_token in_data in_len out_len s = .next s1 ∧
      s1.ip = s.ip + tok_size in_data s.ip ∧ s1.op = s.op + tok_len in_data s.ip ∧
      (∀ i, i < s.op → s1.out i = s.out i) ∧
      ∀ j, j < tok_len in_data s.ip →
        s1.out (s.op + j) = s1.out (s.op + j - tok_dist in_data s.ip) := by
  unfold tok_dist at hd ⊢
  unfold tok_size at hin hd ⊢
  unfold tok_len at hout ⊢
  unfold decode_token decode_backref
  simp only [show (1 <<< 5 : Nat) = 32 from rfl]
  have hc1 : ¬(in_data s.ip).val < 32 := by omega
  simp only [if_neg hc1] at hin hout hd ⊢
  by_cases c2 : (in_data s.ip).val >>> 5 = 7
  · simp only [c2, reduceIte] at hin hout hd ⊢
    simp only [show s.ip + 3 - 1 = s.ip + 1 + 1 from rfl] at hd ⊢
    rw [if_neg (by omega), if_neg (by omega), if_neg (by omega), if_neg (by omega)]
    refine ⟨_, rfl, ?_, ?_, ?_, ?_⟩
    · rw [copy_backref_ip]
    · rw [copy_backref_op]
    · intro i hi
      refine (copy_backref_overlap _ _ _ ?_ ?_).1 i hi
      · omega
      · simp only; omega
    · intro j hj
      have := (copy_backref_overlap (7 + (in_data (s.ip + 1)).val + 2)
        ((s.op : Int) - ((((in_data s.ip).val &&& 31) <<< 8 : Nat) : Int) - 1 -
          ((in_data (s.ip + 1 + 1)).val : Int))
        { ip := s.ip + 1 + 1 + 1, op := s.op, out := s.out,
          rds := (s.ip + 1 + 1) :: (s.ip + 1) :: s.ip :: s.rds, wrs := s.wrs, srcs := s.srcs }
        (by omega) (by simp only; omega)).2 j hj
      simp only at this
      rw [this]
      congr 1
      omega
  · simp only [if_neg c2] at hin hout hd ⊢
    simp only [show s.ip + 2 - 1 = s.ip + 1 from rfl] at hd ⊢
    rw [if_neg (by omega), if_neg (by omega), if_neg (by omega)]
    refine ⟨_, rfl, ?_, ?_, ?_, ?_⟩
    · rw [copy_backref_ip]
    · rw [copy_backref_op]
    · intro i hi
      refine (copy_backref_overlap _ _ _ ?_ ?_).1 i hi
      · omega
      · simp only; omega
    · intro j hj
      have := (copy_backref_overlap ((in_data s.ip).val >>> 5 + 2)
        ((s.op : Int) - ((((in_data s.ip).val &&& 31) <<< 8 : Nat) : Int) - 1 -
          ((in_data (s.ip + 1)).val : Int))
        { ip := s.ip + 1 + 1, op := s.op, out := s.out,
          rds := (s.ip + 1) :: s.ip :: s.rds, wrs := s.wrs, srcs := s.srcs }
        (by omega) (by simp only; omega)).2 j hj
      simp only at this
      rw [this]
      congr 1
      omega

/-! ### Extending the input of the decoder by one token -/

theorem decode_token_extend (in_data : Nat → Byte) (a a1 c : Nat) (s s1 : DState)
    (h : decode_token in_data a c s = .next s1) (ha : a ≤ a1) :
    decode_token in_data a1 c s = .next s1 ∧ s1.ip ≤ a := by
  have hadv := decode_token_advance in_data a c s
  rw [h] at hadv
  have hip := hadv.1
  unfold tok_size at hip
  unfold decode_token at h ⊢
  simp only [show (1 <<< 5 : Nat) = 32 from rfl] at h ⊢
  by_cases c1 : (in_data s.ip).val < 32
  · simp only [if_pos c1] at h hip ⊢
    by_cases h1 : s.op + ((in_data s.ip).val + 1) > c
    · rw [if_pos h1] at h; cases h
    · rw [if_neg h1] at h ⊢
      by_cases h2 : s.ip + 1 + ((in_data s.ip).val + 1) > a
      · rw [if_pos h2] at h; cases h
      · rw [if_neg h2] at h
        rw [if_neg (by omega)]
        exact ⟨h, by omega⟩
  · simp only [if_neg c1] at h hip ⊢
    by_cases h1 : s.ip + 1 ≥ a
    · rw [if_pos h1] at h; cases h
    · rw [if_neg h1] at h
      rw [if_neg (by omega)]
      by_cases c2 : (in_data s.ip).val >>> 5 = 7
      · simp only [if_pos c2] at h hip ⊢
        by_cases h2 : s.ip + 1 + 1 ≥ a
        · rw [if_pos h2] at h; cases h
        · rw [if_neg h2] at h
          rw [if_neg (by omega)]
          exact ⟨h, by omega⟩
      · simp only [if_neg c2] at h hip ⊢
        exact ⟨h, by omega⟩

theorem decompress_loop_extend (in_data : Nat → Byte) (a a1 c : Nat) (ha : a < a1) :
    ∀ (fuel : Nat) (s : DState) (r : Ret DState),
      decompress_loop in_data a c fuel s = some r → r.ret ≠ 0 →
      r.st.ip = a ∧ r.st.op = r.ret ∧
      ∃ m, ∀ F, decompress_loop in_data a1 c (fuel + F) s =
        decompress_loop in_data a1 c (m + F) r.st := by
  intro fuel
  induction fuel with
  | zero => intro s r h _; simp [decompress_loop] at h
  | succ fuel ih =>
    intro s r h hr
    unfold decompress_loop at h
    cases hc : decode_token in_data a c s with
    | ret0 s1 =>
      rw [hc] at h
      simp only [Option.some.injEq] at h
      rw [← h] at hr
      exact absurd rfl hr
    | stop s1 =>
      rw [hc] at h
      simp only [Option.some.injEq] at h
      rw [← h] at hr
      exact absurd rfl hr
    | next s1 =>
      rw [hc] at h
      simp only at h
      obtain ⟨hx, hle⟩ := decode_token_extend in_data a a1 c s s1 hc (by omega)
      by_cases c1 : s1.ip < a
      · rw [if_pos c1] at h
        obtain ⟨i1, i2, m, hm⟩ := ih s1 r h hr
        refine ⟨i1, i2, m, ?_⟩
        intro F
        rw [show fuel + 1 + F = (fuel + F) + 1 by omega]
        conv_lhs => unfold decompress_loop
        rw [hx]
        simp only
        rw [if_pos (by omega)]
        exact hm F
      · rw [if_neg c1] at h
        simp only [Option.some.injEq] at h
        subst h
        refine ⟨by simp only; omega, rfl, fuel, ?_⟩
        intro F
        rw [show fuel + 1 + F = (fuel + F) + 1 by omega]
        conv_lhs => unfold decompress_loop
        rw [hx]
        simp only
        rw [if_pos (by omega)]

theorem tok_len_backref (in_data : Nat → Byte) (a : Nat) (h : 32 ≤ (in_data a).val) :
    3 ≤ tok_len in_data a ∧ tok_len in_data a ≤ 264 := by
  unfold tok_len
  have h1 := (in_data a).isLt
  have h2 := (in_data (a + 1)).isLt
  rw [if_neg (by omega)]
  have h3 : (in_data a).val >>> 5 = (in_data a).val / 32 := Nat.shiftRight_eq_div_pow _ 5
  split_ifs <;> omega

theorem Toks_literal_then_overlap (src : Nat → Byte) (x : Byte) (h0 : (src 0).val = 0)
    (h1 : src 1 = x) (h2 : (src 2).val = 96) (h3 : (src 3).val = 0) :
    Toks src (fun _ => x) 0 4 0 6 := by
  have e1 : tok_size src 0 = 2 := by unfold tok_size; rw [h0]; simp
  have e2 : tok_len src 0 = 1 := by unfold tok_len; rw [h0]; simp
  have e3 : tok_size src 2 = 2 := by unfold tok_size; rw [h2]; simp
  have e4 : tok_len src 2 = 5 := by unfold tok_len; rw [h2]; simp
  have e5 : tok_dist src 2 = 1 := by unfold tok_dist; rw [e3, h2, h3]; rfl
  refine Toks.token 0 4 0 6 ?_ ?_
  · unfold TokOk
    rw [if_pos (by omega), e2]
    intro j hj
    have : j = 0 := by omega
    subst this
    exact h1
  · rw [e1, e2]
    refine Toks.token 2 4 1 6 ?_ ?_
    · unfold TokOk
      rw [if_neg (by omega)]
      exact ⟨by omega, fun _ _ => rfl⟩
    · rw [e3, e4]
      exact Toks.done 4 6

/-- C13. Overlapping copy of the decoder. If `lzf_decompress` on the first `a` input bytes
returns `k ≥ 1`, the position `a` holds a back-reference token of distance `d ≤ k` and length
`l`, and the capacity is at least `k + l`, then `lzf_decompress` on the input extended by
this token returns `k + l`, with `3 ≤ l ≤ 264`; it leaves the first `k` output bytes as the
shorter run produced them, and `output[k + j] = output[k + j - d]` for every `j < l`, whether
or not `d < l`. In particular, for every byte `x`, every initial output content and every
capacity of at least 6, the stream `[0x00, x, 0x60, 0x00]` decodes to six bytes equal to
`x`. -/
theorem lzf_decompress_overlapping_copy (in_data : Nat → Byte) (a : Nat)
    (out_data : Nat → Byte) (c k : Nat)
    (hrun : (lzf_decompress in_data a out_data c).map Ret.ret = some k) (hk : 1 ≤ k)
    (hctrl : 32 ≤ (in_data a).val) (hd : tok_dist in_data a ≤ k)
    (hcap : k + tok_len in_data a ≤ c) :
    (∃ r0 r, lzf_decompress in_data a out_data c = some r0 ∧
      lzf_decompress in_data (a + tok_size in_data a) out_data c = some r ∧
      r.ret = k + tok_len in_data a ∧ 3 ≤ tok_len in_data a ∧ tok_len in_data a ≤ 264 ∧
      (∀ i, i < k → r.st.out i = r0.st.out i) ∧
      ∀ j, j < tok_len in_data a →
        r.st.out (k + j) = r.st.out (k + j - tok_dist in_data a)) ∧
    ∀ (x : Byte) (dst : Nat → Byte) (c1 : Nat), 6 ≤ c1 →
      (lzf_decompress (mem [0, x, 0x60, 0]) 4 dst c1).map
        (fun r => (r.ret, bytes r.st.out 6)) = some (6, List.replicate 6 x) := by
  constructor
  · cases hr0 : lzf_decompress in_data a out_data c with
    | none => rw [hr0] at hrun; simp at hrun
    | some r0 =>
      rw [hr0] at hrun
      simp only [Option.map_some', Option.some.injEq] at hrun
      unfold lzf_decompress at hr0 ⊢
      have hsz := tok_size_pos in_data a
      obtain ⟨i1, i2, m, hm⟩ := decompress_loop_extend in_data a (a + tok_size in_data a) c
        (by omega) _ _ r0 hr0 (by omega)
      have hm1 := hm (tok_size in_data a)
      rw [show a + 1 + tok_size in_data a = a + tok_size in_data a + 1 by omega] at hm1
      rw [hm1, show m + tok_size in_data a = (m + tok_size in_data a - 1) + 1 by omega]
      unfold decompress_loop
      obtain ⟨s1, h1, h2, h3, h4, h5⟩ := decode_token_backref in_data
        (a + tok_size in_data a) c r0.st (by rw [i1]; exact hctrl) (by rw [i1])
        (by rw [i1, i2, hrun]; exact hd) (by rw [i1, i2, hrun]; exact hcap)
      rw [i1] at h2 h3 h5
      rw [i2, hrun] at h3 h4 h5
      rw [h1]
      simp only
      rw [if_neg (by omega)]
      exact ⟨r0, _, rfl, rfl, h3, (tok_len_backref in_data a hctrl).1,
        (tok_len_backref in_data a hctrl).2, h4, h5⟩
  · intro x dst c1 hc1
    obtain ⟨r, g1, g2, g3⟩ := decompress_loop_Toks (mem [0, x, 0x60, 0]) (fun _ => x) c1
      0 4 0 6 (Toks_literal_then_overlap _ x rfl rfl rfl rfl) (4 + 1)
      { ip := 0, op := 0, out := dst, rds := [], wrs := [], srcs := [] } rfl rfl (by omega)
      hc1 (fun i hi => absurd hi (Nat.not_lt_zero i)) (by omega)
    unfold lzf_decompress
    rw [g1]
    simp only [Option.map_some', Option.some.injEq, Prod.mk.injEq]
    refine ⟨g2, ?_⟩
    have : List.replicate 6 x = bytes (fun _ => x) 6 := rfl
    rw [this]
    exact bytes_congr _ _ _ g3

theorem lzf_decompress_overlapping_copy_witness :
    (lzf_decompress (mem [1, 97, 98, 0xE0, 1, 1]) 3 (mem []) 12).map Ret.ret = some 2 ∧
    1 ≤ 2 ∧ 32 ≤ ((mem [1, 97, 98, 0xE0, 1, 1]) 3).val ∧
    tok_dist (mem [1, 97, 98, 0xE0, 1, 1]) 3 ≤ 2 ∧
    2 + tok_len (mem [1, 97, 98, 0xE0, 1, 1]) 3 ≤ 12 ∧
    ((∃ r0 r, lzf_decompress (mem [1, 97, 98, 0xE0, 1, 1]) 3 (mem []) 12 = some r0 ∧
      lzf_decompress (mem [1, 97, 98, 0xE0, 1, 1])
        (3 + tok_size (mem [1, 97, 98, 0xE0, 1, 1]) 3) (mem []) 12 = some r ∧
      r.ret = 2 + tok_len (mem [1, 97, 98, 0xE0, 1, 1]) 3 ∧
      3 ≤ tok_len (mem [1, 97, 98, 0xE0, 1, 1]) 3 ∧
      tok_len (mem [1, 97, 98, 0xE0, 1, 1]) 3 ≤ 264 ∧
      (∀ i, i < 2 → r.st.out i = r0.st.out i) ∧
      ∀ j, j < tok_len (mem [1, 97, 98, 0xE0, 1, 1]) 3 →
        r.st.out (2 + j) = r.st.out (2 + j - tok_dist (mem [1, 97, 98, 0xE0, 1, 1]) 3)) ∧
    ∀ (x : Byte) (dst : Nat → Byte) (c1 : Nat), 6 ≤ c1 →
      (lzf_decompress (mem [0, x, 0x60, 0]) 4 dst c1).map
        (fun r => (r.ret, bytes r.st.out 6)) = some (6, List.replicate 6 x)) :=
  ⟨by decide, by decide, by decide, by decide, by decide,
    lzf_decompress_overlapping_copy (mem [1, 97, 98, 0xE0, 1, 1]) 3 (mem []) 12 2
      (by decide) (by decide) (by decide) (by decide) (by decide)⟩

/-! ### A proof rule for the main loop of the encoder -/

theorem compress_loop_rule (in_data : Nat → Byte) (in_len out_len base : Nat)
    (I : CState → Prop) (Q : Ret CState → Prop)
    (hstep : ∀ s c, CInv in_data in_len s → I s → (s.ip : Int) < (in_len : Int) - 2 →
      compress_step in_data in_len out_len base s = some c →
      c.Holds I I (fun s1 => Q ⟨0, s1⟩))
    (hfin : ∀ s, CInv in_data in_len s → I s → Q (finish in_data in_len out_len s)) :
    ∀ (fuel : Nat) (s : CState) (r : Ret CState), CInv in_data in_len s → I s →
      compress_loop in_data in_len out_len base fuel s = some r → Q r := by
  intro fuel
  induction fuel with
  | zero => intro s r _ _ h; simp [compress_loop] at h
  | succ fuel ih =>
    intro s r hinv hI h
    unfold compress_loop at h
    split_ifs at h with c1
    · cases hc : compress_step in_data in_len out_len base s with
      | none => rw [hc] at h; simp at h
      | some c =>
        have hstep1 := compress_step_inv in_data in_len out_len base s hinv c1 c hc
        have hstep2 := hstep s c hinv hI c1 hc
        rw [hc] at h
        cases c with
        | ret0 s1 =>
          simp only [Option.some.injEq] at h
          rw [← h]
          exact hstep2
        | stop s1 =>
          simp only [Option.some.injEq] at h
          rw [← h]
          exact hfin s1 hstep1.1 hstep2
        | next s1 =>
          simp only at h
          exact ih s1 r hstep1.1 hstep2 h
    · simp only [Option.some.injEq] at h
      rw [← h]
      exact hfin s hinv hI

theorem CInv_init (in_data : Nat → Byte) (in_len : Nat) (hn : 0 < in_len) (s0 : CState)
    (h1 : s0.ip = 0) (h2 : s0.op = 1) (h3 : s0.lit = 0) (h4 : s0.refs = []) :
    CInv in_data in_len (add_literal in_data s0) := by
  rw [add_literal_first in_data _ h3]
  refine push_literal_inv in_data in_len _ ?_ (by omega)
  constructor
  · omega
  · omega
  · omega
  · omega
  · intro h0; omega
  · rw [h1, h2, h3]; exact Toks.done 0 0
  · intro j hj; omega
  · intro e he; rw [h4] at he; simp at he

theorem lzf_compress_rule (in_data : Nat → Byte) (in_len : Nat) (out_data : Nat → Byte)
    (out_len base : Nat) (first : Nat → Int) (prev : Nat → Nat)
    (I : CState → Prop) (Q : Ret CState → Prop)
    (hinit : ∀ s0 : CState, s0.ip = 0 → s0.op = 1 → s0.lit = 0 → s0.refs = [] →
      s0.out = out_data → s0.first = first → s0.prev = prev → I (add_literal in_data s0))
    (hstep : ∀ s c, CInv in_data in_len s → I s → (s.ip : Int) < (in_len : Int) - 2 →
      compress_step in_data in_len out_len base s = some c →
      c.Holds I I (fun s1 => Q ⟨0, s1⟩))
    (hfin : ∀ s, CInv in_data in_len s → I s → Q (finish in_data in_len out_len s))
    (r : Ret CState)
    (h : lzf_compress in_data in_len out_data out_len base first prev = some r)
    (h0 : in_len ≠ 0 ∧ out_len ≠ 0) : Q r := by
  unfold lzf_compress at h
  simp only at h
  rw [if_neg (by omega)] at h
  exact compress_loop_rule in_data in_len out_len base I Q hstep hfin in_len _ r
    (CInv_init in_data in_len (by omega) _ rfl rfl rfl rfl)
    (hinit _ rfl rfl rfl rfl rfl rfl rfl) h

/-! ### The shape of one iteration -/

theorem extend_match_max (in_data : Nat → Byte) (p : Int) (ip maxlen : Nat) :
    ∀ (fuel len : Nat) (rds : List Int), fuel + len = maxlen →
      (extend_match in_data p ip maxlen fuel len rds).1 = maxlen ∨
      load in_data (p + ((extend_match in_data p ip maxlen fuel len rds).1 : Int)) ≠
        load in_data ((ip : Int) + ((extend_match in_data p ip maxlen fuel len rds).1 : Int)) := by
  intro fuel
  induction fuel with
  | zero => intro len rds h; left; simp only [extend_match]; omega
  | succ fuel ih =>
    intro len rds h
    unfold extend_match
    simp only
    split_ifs with c
    · exact ih (len + 1) _ (by omega)
    · right
      intro heq
      exact c ⟨heq, by omega⟩

theorem candidate_max (in_data : Nat → Byte) (ip maxlen : Nat) (p : Int) (bst : Best)
    (hb : MaxMatch in_data ip maxlen bst) (hm : 3 ≤ maxlen) :
    MaxMatch in_data ip maxlen (candidate in_data ip maxlen p bst) := by
  unfold candidate
  simp only
  split_ifs with c1 c2 c3 c4 c5
  · right
    exact extend_match_max in_data p ip maxlen (maxlen - 3) 3 _ (by omega)
  · exact hb
  · exact hb
  · exact hb
  · exact hb
  · exact hb

theorem walk_max (in_data : Nat → Byte) (base : Nat) (prev : Nat → Nat) (ip : Nat) (b : Int)
    (maxlen : Nat) (hm : 3 ≤ maxlen) :
    ∀ (fuel : Nat) (p : Int) (bst r : Best), MaxMatch in_data ip maxlen bst →
      walk in_data base prev ip b maxlen fuel p bst = some r →
      MaxMatch in_data ip maxlen r := by
  intro fuel
  induction fuel with
  | zero => intro p bst r _ h; simp [walk] at h
  | succ fuel ih =>
    intro p bst r hg h
    unfold walk at h
    simp only at h
    split_ifs at h with c1 c2 c3
    · simp only [Option.some.injEq] at h
      rw [← h]
      exact candidate_max in_data ip maxlen p bst hg hm
    · exact ih _ _ r (candidate_max in_data ip maxlen p bst hg hm) h
    · exact ih _ _ r (candidate_max in_data ip maxlen p bst hg hm) h
    · simp only [Option.some.injEq] at h
      rw [← h]
      exact hg

theorem compress_step_shape (in_data : Nat → Byte) (in_len out_len base : Nat) (s : CState)
    (hlt : (s.ip : Int) < (in_len : Int) - 2)
    (c : Ctl CState) (hc : compress_step in_data in_len out_len base s = some c) :
    ∃ s1 : CState, s1.ip = s.ip ∧ s1.op = s.op ∧ s1.lit = s.lit ∧ s1.out = s.out ∧
      s1.refs = s.refs ∧ s1.wrs = s.wrs ∧
      s1.first = store s.first (HASH in_data s.ip) (s.ip : Int) ∧
      s1.prev = store s.prev (slot base s.ip)
        (u16 ((s.ip : Int) - s.first (HASH in_data s.ip))) ∧
      StepShape in_data in_len out_len base s s1 c := by
  unfold compress_step at hc
  simp only [LZF_MAX_OFF_eq, LZF_MAX_REF_eq] at hc
  generalize hm : (if in_len - s.ip < 264 then in_len - s.ip else 264) = maxlen at hc
  generalize hb : (if s.ip < 8192 then (0 : Int) else (s.ip : Int) - ((8192 : Nat) : Int)) = b at hc
  have hm3 : 3 ≤ maxlen ∧ maxlen ≤ 264 ∧ maxlen ≤ in_len - s.ip ∧
      maxlen = min 264 (in_len - s.ip) := by
    rw [← hm]; split_ifs <;> omega
  have hb0 : 0 ≤ b ∧ (s.ip : Int) - 8192 ≤ b := by
    rw [← hb]; split_ifs <;> omega
  have hg0 : GoodMatch in_data s.ip b maxlen
      { l := 0, p := 0, brk := false, rds := (index_update in_data base s).1.rds } := Or.inl rfl
  have hx0 : MaxMatch in_data s.ip maxlen
      { l := 0, p := 0, brk := false, rds := (index_update in_data base s).1.rds } := Or.inl rfl
  split at hc
  · simp at hc
  · rename_i bst hfound
    have hg : GoodMatch in_data s.ip b maxlen bst ∧ MaxMatch in_data s.ip maxlen bst := by
      split_ifs at hfound with c1
      · exact ⟨walk_good in_data base _ s.ip b maxlen hb0.1 hm3.1 _ _ _ bst hg0 c1 hfound,
          walk_max in_data base _ s.ip b maxlen hm3.1 _ _ _ bst hx0 hfound⟩
      · simp only [Option.some.injEq] at hfound
        rw [← hfound]; exact ⟨hg0, hx0⟩
    refine ⟨{ (index_update in_data base s).1 with rds := bst.rds },
      rfl, rfl, rfl, rfl, rfl, rfl, rfl, rfl, ?_⟩
    split_ifs at hc with c2
    · simp only [Option.some.injEq] at hc
      rw [← hc]
      right
      obtain ⟨hg1, hg2⟩ := hg
      rcases hg1 with hg1 | ⟨g1, g2, g3, g4, g5⟩
      · exact absurd hg1 c2
      · refine ⟨bst.l, bst.p, RefOk_mk in_data in_len s.ip bst.p bst.l (by omega) (by omega)
          (by omega) g3 (by omega) (by omega) g5, ?_, rfl⟩
        rcases hg2 with h1 | h1 | h1
        · exact absurd h1 c2
        · left; omega
        · right; exact h1
    · simp only [Option.some.injEq] at hc
      rw [← hc]
      left
      rfl

theorem emit_match_shape (in_data : Nat → Byte) (in_len out_len base : Nat) (s : CState)
    (l : Nat) (p : Int) :
    (emit_match in_data in_len out_len base s l p).Holds
      (fun t => t.ip = (put_backref s l p).ip ∧ t.op = (put_backref s l p).op ∧
        t.lit = (put_backref s l p).lit ∧ t.out = (put_backref s l p).out ∧
        t.refs = (put_backref s l p).refs)
      (fun t => t = put_backref s l p)
      (fun t => t = s) := by
  have hip := (put_backref_fields s l p).1
  unfold emit_match
  simp only
  by_cases c0 : s.op + 3 + 1 ≥ out_len ∧ s.op - (if s.lit = 0 then 1 else 0) + 3 + 1 ≥ out_len
  · rw [if_pos c0]
    rfl
  · rw [if_neg c0]
    by_cases c1 : ((put_backref s l p).ip : Int) ≥ (in_len : Int) - 2
    · rw [if_pos c1]
      rfl
    · rw [if_neg c1]
      obtain ⟨f1, f2, f3, f4, _, f6⟩ := index_skipped_fields in_data base (l - 2 + 1)
        { put_backref s l p with ip := (put_backref s l p).ip - (l - 2 + 1) }
      simp only at f1 f2 f3 f4 f6
      exact ⟨by rw [f1, hip]; omega, f2, f3, f4, f6⟩

/-! ### A proof rule for properties of the visible state -/

theorem emit_literal_shape (in_data : Nat → Byte) (out_len : Nat) (s : CState) :
    (emit_literal in_data out_len s).Holds (fun t => t = push_literal in_data s)
      (fun _ => False) (fun t => t = s) := by
  unfold emit_literal
  split_ifs
  · rfl
  · rfl

theorem compress_step_vis (in_data : Nat → Byte) (in_len out_len base : Nat)
    (I : CState → Prop)
    (hcongr : ∀ s t : CState, t.ip = s.ip → t.op = s.op → t.lit = s.lit → t.out = s.out →
      t.refs = s.refs → I s → I t)
    (hlit : ∀ s, CInv in_data in_len s → I s → s.ip < in_len → I (push_literal in_data s))
    (href : ∀ s l p, CInv in_data in_len s → I s → RefOk in_data in_len (s.ip, p, l) →
      (l = min 264 (in_len - s.ip) ∨
        load in_data (p + (l : Int)) ≠ load in_data ((s.ip : Int) + (l : Int))) →
      I (put_backref s l p))
    (s : CState) (c : Ctl CState) (hinv : CInv in_data in_len s) (hI : I s)
    (hlt : (s.ip : Int) < (in_len : Int) - 2)
    (hc : compress_step in_data in_len out_len base s = some c) : c.Holds I I I := by
  obtain ⟨s1, e1, e2, e3, e4, e5, _, _, _, hs⟩ :=
    compress_step_shape in_data in_len out_len base s hlt c hc
  have hinv1 : CInv in_data in_len s1 := CInv_congr in_data in_len s s1 hinv e1 e2 e3 e4 e5
  have hI1 : I s1 := hcongr s s1 e1 e2 e3 e4 e5 hI
  rcases hs with hs | ⟨l, p, hr, hmax, hs⟩
  · rw [hs]
    refine (emit_literal_shape in_data out_len s1).mono ?_ (fun _ h => h.elim) ?_
    · intro t ht
      rw [ht]
      exact hlit s1 hinv1 hI1 (by omega)
    · intro t ht
      rw [ht]
      exact hI1
  · rw [hs]
    rw [← e1] at hr hmax
    have hput := href s1 l p hinv1 hI1 hr hmax
    refine (emit_match_shape in_data in_len out_len base s1 l p).mono ?_ ?_ ?_
    · intro t ht
      exact hcongr _ t ht.1 ht.2.1 ht.2.2.1 ht.2.2.2.1 ht.2.2.2.2 hput
    · intro t ht
      rw [ht]
      exact hput
    · intro t ht
      rw [ht]
      exact hI1

theorem copy_tail_vis (in_data : Nat → Byte) (in_len : Nat) (I : CState → Prop)
    (hlit : ∀ s, CInv in_data in_len s → I s → s.ip < in_len → I (push_literal in_data s)) :
    ∀ (n : Nat) (s : CState), CInv in_data in_len s → I s → s.ip + n ≤ in_len →
      I (copy_tail in_data n s) := by
  intro n
  induction n with
  | zero => intro s _ h _; exact h
  | succ n ih =>
    intro s hinv hI hn
    simp only [copy_tail]
    have h1 := push_literal_inv in_data in_len s hinv (by omega)
    have h2 := (push_literal_fields in_data s).1
    exact ih (push_literal in_data s) h1 (hlit s hinv hI (by omega)) (by omega)

theorem lzf_compress_vis (in_data : Nat → Byte) (in_len : Nat) (out_data : Nat → Byte)
    (out_len base : Nat) (first : Nat → Int) (prev : Nat → Nat)
    (I : CState → Prop) (Q : Ret CState → Prop)
    (hcongr : ∀ s t : CState, t.ip = s.ip → t.op = s.op → t.lit = s.lit → t.out = s.out →
      t.refs = s.refs → I s → I t)
    (hinit : ∀ s0 : CState, s0.ip = 0 → s0.op = 1 → s0.lit = 0 → s0.refs = [] →
      s0.out = out_data → I (add_literal in_data s0))
    (hlit : ∀ s, CInv in_data in_len s → I s → s.ip < in_len → I (push_literal in_data s))
    (href : ∀ s l p, CInv in_data in_len s → I s → RefOk in_data in_len (s.ip, p, l) →
      (l = min 264 (in_len - s.ip) ∨
        load in_data (p + (l : Int)) ≠ load in_data ((s.ip : Int) + (l : Int))) →
      I (put_backref s l p))
    (hfail : ∀ s, I s → Q ⟨0, s⟩)
    (hend : ∀ t, CInv in_data in_len t → I t → t.ip = in_len →
      Q (finish in_data in_len (t.op + 3) t))
    (r : Ret CState)
    (h : lzf_compress in_data in_len out_data out_len base first prev = some r)
    (h0 : in_len ≠ 0 ∧ out_len ≠ 0) : Q r := by
  refine lzf_compress_rule in_data in_len out_data out_len base first prev I Q
    (fun s0 a b c d e _ _ => hinit s0 a b c d e) ?_ ?_ r h h0
  · intro s c hinv hI hlt hc
    exact (compress_step_vis in_data in_len out_len base I hcongr hlit href s c hinv hI hlt
      hc).mono (fun _ h => h) (fun _ h => h) hfail
  · intro s hinv hI
    by_cases c1 : s.op + 3 > out_len
    · unfold finish
      rw [if_pos c1]
      exact hfail s hI
    · obtain ⟨h1, h2⟩ := copy_tail_inv in_data in_len (in_len - s.ip) s hinv
        (by have := hinv.ip_le; omega)
      have h3 := copy_tail_vis in_data in_len I hlit (in_len - s.ip) s hinv hI
        (by have := hinv.ip_le; omega)
      have hip : (copy_tail in_data (in_len - s.ip) s).ip = in_len := by
        rw [h2]; have := hinv.ip_le; omega
      have := hend _ h1 h3 hip
      unfold finish at this ⊢
      rw [if_neg (by omega)] at this
      rw [if_neg c1]
      simp only [hip, Nat.sub_self, copy_tail] at this ⊢
      exact this

/-! ### The expansion bound -/

theorem push_literal_bound (in_data : Nat → Byte) (in_len : Nat) (s : CState)
    (hinv : CInv in_data in_len s) (h : s.op ≤ s.ip + 1 + (s.ip - s.lit) / 32) :
    (push_literal in_data s).op ≤
      (push_literal in_data s).ip + 1 +
        ((push_literal in_data s).ip - (push_literal in_data s).lit) / 32 := by
  have := hinv.lit_le
  unfold push_literal close_run add_literal
  simp only [LZF_MAX_LIT_eq]
  split_ifs with c1
  · simp only; omega
  · simp only; omega

theorem put_backref_bound (in_data : Nat → Byte) (in_len : Nat) (s : CState) (l : Nat)
    (p : Int) (hinv : CInv in_data in_len s) (hl : 3 ≤ l)
    (h : s.op ≤ s.ip + 1 + (s.ip - s.lit) / 32) :
    (put_backref s l p).op ≤
      (put_backref s l p).ip + 1 + ((put_backref s l p).ip - (put_backref s l p).lit) / 32 := by
  obtain ⟨f1, f2, _, f4, _⟩ := put_backref_fields s l p
  have := hinv.lit_le
  rw [f1, f2, f4]
  split_ifs <;> omega

theorem lzf_compress_bound (in_data : Nat → Byte) (in_len : Nat) (out_data : Nat → Byte)
    (out_len base : Nat) (first : Nat → Int) (prev : Nat → Nat) (r : Ret CState)
    (h : lzf_compress in_data in_len out_data out_len base first prev = some r) :
    r.ret ≤ in_len + (in_len + 31) / 32 := by
  by_cases h0 : in_len ≠ 0 ∧ out_len ≠ 0
  · refine lzf_compress_vis in_data in_len out_data out_len base first prev
      (fun s => s.op ≤ s.ip + 1 + (s.ip - s.lit) / 32)
      (fun r => r.ret ≤ in_len + (in_len + 31) / 32) ?_ ?_ ?_ ?_ ?_ ?_ r h h0
    · intro s t e1 e2 e3 _ _ hI
      simp only at hI ⊢
      rw [e1, e2, e3]
      exact hI
    · intro s0 e1 e2 e3 _ _
      simp only [add_literal]
      omega
    · intro s hinv hI _
      exact push_literal_bound in_data in_len s hinv hI
    · intro s l p hinv hI hr _
      exact put_backref_bound in_data in_len s l p hinv hr.2.2.2.1 hI
    · intro s _
      exact Nat.zero_le _
    · intro t hinv hI hip
      have := hinv.lit_le
      simp only at hI
      unfold finish
      rw [if_neg (by omega)]
      simp only [hip, Nat.sub_self, copy_tail]
      rw [hip] at hI this
      split_ifs <;> omega
  · unfold lzf_compress at h
    simp only at h
    rw [if_pos (by omega)] at h
    simp only [Option.some.injEq] at h
    rw [← h]
    exact Nat.zero_le _

/-- C18. A sufficient capacity as a function of the input length alone: for every non-empty
input of length `n` (at a non-null address) and every capacity of at least
`n + ceil(n/32) + 4`, whatever the buffers and the tables hold, `lzf_compress` returns a
length `r ≠ 0` with `r ≤ n + ceil(n/32)`, where `ceil(n/32) = (n + 31) / 32`. -/
theorem lzf_compress_expansion_bound (in_data : Nat → Byte) (in_len : Nat)
    (out_data : Nat → Byte) (out_len base : Nat) (first : Nat → Int) (prev : Nat → Nat)
    (hn : 0 < in_len) (hbase : 0 < base) (hcap : in_len + (in_len + 31) / 32 + 4 ≤ out_len) :
    ∃ r, lzf_compress in_data in_len out_data out_len base first prev = some r ∧
      r.ret ≠ 0 ∧ r.ret ≤ in_len + (in_len + 31) / 32 := by
  obtain ⟨r, hr, hr0⟩ := lzf_compress_total in_data in_len out_data (2 * in_len + 4) base
    first prev hn hbase
  have hb := lzf_compress_bound in_data in_len out_data (2 * in_len + 4) base first prev r hr
  exact ⟨r, lzf_compress_cap in_data in_len out_data (2 * in_len + 4) base first prev r hr
    (hr0 (Nat.le_refl _)) out_len (Or.inr (by omega)), hr0 (Nat.le_refl _), hb⟩

theorem lzf_compress_expansion_bound_witness :
    0 < 3 ∧ 0 < 4096 ∧ 3 + (3 + 31) / 32 + 4 ≤ 8 ∧
    ∃ r, lzf_compress (mem [1, 2, 3]) 3 (mem []) 8 4096 (fun _ => -4096) (fun _ => 0) =
        some r ∧
      r.ret ≠ 0 ∧ r.ret ≤ 3 + (3 + 31) / 32 :=
  ⟨by decide, by decide, by decide,
    lzf_compress_expansion_bound (mem [1, 2, 3]) 3 (mem []) 8 4096 (fun _ => -4096)
      (fun _ => 0) (by decide) (by decide) (by decide)⟩

/-! ### Maximal extension of the emitted matches -/

theorem lzf_compress_refs_max (in_data : Nat → Byte) (in_len : Nat) (out_data : Nat → Byte)
    (out_len base : Nat) (first : Nat → Int) (prev : Nat → Nat) (r : Ret CState)
    (h : lzf_compress in_data in_len out_data out_len base first prev = some r) :
    ∀ e ∈ r.st.refs, e.2.2 = min 264 (in_len - e.1) ∨
      load in_data (e.2.1 + (e.2.2 : Int)) ≠ load in_data ((e.1 : Int) + (e.2.2 : Int)) := by
  by_cases h0 : in_len ≠ 0 ∧ out_len ≠ 0
  · refine lzf_compress_vis in_data in_len out_data out_len base first prev
      (fun s => ∀ e ∈ s.refs, e.2.2 = min 264 (in_len - e.1) ∨
        load in_data (e.2.1 + (e.2.2 : Int)) ≠ load in_data ((e.1 : Int) + (e.2.2 : Int)))
      (fun r => ∀ e ∈ r.st.refs, e.2.2 = min 264 (in_len - e.1) ∨
        load in_data (e.2.1 + (e.2.2 : Int)) ≠ load in_data ((e.1 : Int) + (e.2.2 : Int)))
      ?_ ?_ ?_ ?_ ?_ ?_ r h h0
    · intro s t _ _ _ _ e5 hI
      simp only at hI ⊢
      rw [e5]
      exact hI
    · intro s0 _ _ _ e4 _ e he
      simp only [add_literal] at he
      rw [e4] at he
      simp at he
    · intro s _ hI _
      simp only at hI ⊢
      rw [(push_literal_fields in_data s).2.1]
      exact hI
    · intro s l p _ hI _ hmax e he
      rw [(put_backref_fields s l p).2.2.1] at he
      simp only [List.mem_cons] at he
      rcases he with rfl | he
      · exact hmax
      · exact hI e he
    · intro s hI
      exact hI
    · intro t _ hI hip
      unfold finish
      rw [if_neg (by omega)]
      simp only [hip, Nat.sub_self, copy_tail]
      exact hI
  · unfold lzf_compress at h
    simp only at h
    rw [if_pos (by omega)] at h
    simp only [Option.some.injEq] at h
    rw [← h]
    intro e he
    simp at he

/-- C16. Every emitted match is a true, maximally extended match: for every back-reference
`(i, p, l)` that `lzf_compress` emits on an input of length `n`, the candidate lies at a
distance `d` with `1 ≤ d ≤ i` before `i`, `in[i - d + k] = in[i + k]` for every `k < l`, and
`l` is maximal for that candidate: `l = min(264, n - i)` or `in[i - d + l] ≠ in[i + l]`. -/
theorem lzf_compress_match_maximal (in_data : Nat → Byte) (in_len : Nat)
    (out_data : Nat → Byte) (out_len base : Nat) (first : Nat → Int) (prev : Nat → Nat)
    (e : Nat × Int × Nat)
    (he : e ∈ emitted (lzf_compress in_data in_len out_data out_len base first prev)) :
    ∃ d : Nat, 1 ≤ d ∧ d ≤ e.1 ∧ e.2.1 = (e.1 : Int) - (d : Int) ∧
      (∀ k, k < e.2.2 → in_data (e.1 - d + k) = in_data (e.1 + k)) ∧
      (e.2.2 = min 264 (in_len - e.1) ∨ in_data (e.1 - d + e.2.2) ≠ in_data (e.1 + e.2.2)) := by
  cases hr : lzf_compress in_data in_len out_data out_len base first prev with
  | none => rw [hr] at he; simp [emitted] at he
  | some r =>
    rw [hr] at he
    obtain ⟨r1, r2, r3, _, _, _, r7⟩ :=
      (lzf_compress_inv in_data in_len out_data out_len base first prev r hr).1 e he
    have hmax := lzf_compress_refs_max in_data in_len out_data out_len base first prev r hr e he
    have hload : ∀ k : Nat, load in_data (e.2.1 + (k : Int)) =
        in_data (e.1 - ((e.1 : Int) - e.2.1).toNat + k) ∧
        load in_data ((e.1 : Int) + (k : Int)) = in_data (e.1 + k) := by
      intro k
      unfold load
      constructor
      · congr 1; omega
      · congr 1
    refine ⟨((e.1 : Int) - e.2.1).toNat, by omega, by omega, by omega, ?_, ?_⟩
    · intro k hk
      rw [← (hload k).1, ← (hload k).2]
      exact r7 k hk
    · rw [← (hload e.2.2).1, ← (hload e.2.2).2]
      exact hmax

theorem lzf_compress_match_maximal_witness :
    ((2, 1, 3) : Nat × Int × Nat) ∈ emitted (lzf_compress (mem [97, 97, 97, 97, 97]) 5 (mem [])
      16 4096 (fun _ => -4096) (fun _ => 0)) ∧
    ∃ d : Nat, 1 ≤ d ∧ d ≤ 2 ∧ (1 : Int) = ((2 : Nat) : Int) - (d : Int) ∧
      (∀ k, k < 3 → (mem [97, 97, 97, 97, 97]) (2 - d + k) =
        (mem [97, 97, 97, 97, 97]) (2 + k)) ∧
      (3 = min 264 (5 - 2) ∨
        (mem [97, 97, 97, 97, 97]) (2 - d + 3) ≠ (mem [97, 97, 97, 97, 97]) (2 + 3)) :=
  ⟨by decide,
    lzf_compress_match_maximal (mem [97, 97, 97, 97, 97]) 5 (mem []) 16 4096 (fun _ => -4096)
      (fun _ => 0) (2, 1, 3) (by decide)⟩

/-! ### The layout of the output -/

theorem Layout_congr (out out1 : Nat → Byte) :
    ∀ (e : Nat) (ts : List Tok), Layout out e ts → (∀ i, i < e → out1 i = out i) →
      Layout out1 e ts := by
  intro e ts h
  induction h with
  | nil => intro _; exact Layout.nil
  | lit e n ts _ hc ih =>
    intro hag
    refine Layout.lit e n ts (ih (fun i hi => hag i (by omega))) ?_
    rw [hag e (by omega)]
    exact hc
  | ref e d l ts _ hb ih =>
    intro hag
    refine Layout.ref e d l ts (ih (fun i hi => hag i (by omega))) ?_
    intro j hj
    rw [hag (e + j) (by omega)]
    exact hb j hj

theorem spec_low (o : Nat) : o % 256 = o &&& 0xFF :=
  (Nat.and_pow_two_sub_one_eq_mod o 8).symm

theorem spec_ctrl (o len : Nat) (ho : o < 8192) :
    o / 256 + len * 32 = (len <<< 5) ||| (o >>> 8) := by
  rw [Nat.shiftRight_eq_div_pow, Nat.shiftLeft_eq, Nat.mul_comm len (2 ^ 5),
    ← Nat.mul_add_lt_is_or (by omega)]
  omega

theorem spec_backref_short (l d : Nat) (h : l ≤ 8) :
    spec_backref l d = [((l - 2) <<< 5) ||| ((d - 1) >>> 8), (d - 1) &&& 0xFF] := by
  unfold spec_backref
  rw [if_pos h]

theorem spec_backref_long (l d : Nat) (h : ¬l ≤ 8) :
    spec_backref l d = [0xE0 ||| ((d - 1) >>> 8), l - 9, (d - 1) &&& 0xFF] := by
  unfold spec_backref
  rw [if_neg h]

theorem Layout_close_run (in_data : Nat → Byte) (in_len : Nat) (s : CState)
    (hinv : CInv in_data in_len s) (hI : LayoutInv s) (out2 : Nat → Byte)
    (h1 : ∀ i, i < s.op - s.lit - 1 → out2 i = s.out i)
    (h2 : 1 ≤ s.lit → (out2 (s.op - s.lit - 1)).val = s.lit - 1) :
    ∃ ts, Layout out2 (s.op - (if s.lit = 0 then 1 else 0)) ts ∧
      back_refs ts = s.refs.map ref_dl ∧ total_len ts = s.ip ∧ ∀ t ∈ ts, t.InRange := by
  obtain ⟨ts, hL, hb, ht, hr⟩ := hI
  have a := hinv.lit_le
  have c := hinv.lit_lt
  have d := hinv.op_ge
  have hL2 := Layout_congr s.out out2 _ ts hL h1
  by_cases c0 : s.lit = 0
  · rw [if_pos c0]
    rw [show s.op - s.lit - 1 = s.op - 1 by omega] at hL2
    exact ⟨ts, hL2, hb, by omega, hr⟩
  · rw [if_neg c0]
    have := Layout.lit _ s.lit ts hL2 (by have := h2 (by omega); omega)
    rw [show s.op - s.lit - 1 + 1 + s.lit = s.op - 0 by omega] at this
    refine ⟨Tok.lit s.lit :: ts, this, hb, ?_, ?_⟩
    · simp only [total_len, Tok.len]; omega
    · intro t ht1
      rcases List.mem_cons.mp ht1 with rfl | ht1
      · exact ⟨by omega, by omega⟩
      · exact hr t ht1

theorem push_literal_layout (in_data : Nat → Byte) (in_len : Nat) (s : CState)
    (hinv : CInv in_data in_len s) (hI : LayoutInv s) :
    LayoutInv (push_literal in_data s) := by
  obtain ⟨ts, hL, hb, ht, hr⟩ := hI
  have a := hinv.lit_le
  have c := hinv.lit_lt
  have d := hinv.op_ge
  unfold push_literal close_run add_literal
  simp only [LZF_MAX_LIT_eq]
  split_ifs with c1
  · have hstop : ((s.op : Int) + 1 - ((s.lit + 1 : Nat) : Int) - 1).toNat = s.op - s.lit - 1 := by
      omega
    unfold LayoutInv
    simp only
    push_cast at hstop ⊢
    rw [hstop]
    have hL2 := Layout.lit (s.op - s.lit - 1) 32 ts
      (Layout_congr s.out (store (store s.out s.op (in_data s.ip)) (s.op - s.lit - 1)
        (u8 ((s.lit : Int) + 1 - 1))) _ ts hL (by
          intro i hi
          rw [store_other _ _ _ _ (by omega), store_other _ _ _ _ (by omega)])) (by
        rw [store_same, u8_val]; omega)
    rw [show s.op - s.lit - 1 + 1 + 32 = s.op + 1 + 1 - 0 - 1 by omega] at hL2
    refine ⟨Tok.lit 32 :: ts, hL2, hb, ?_, ?_⟩
    · simp only [total_len, Tok.len]; omega
    · intro t ht1
      rcases List.mem_cons.mp ht1 with rfl | ht1
      · exact ⟨by omega, by omega⟩
      · exact hr t ht1
  · unfold LayoutInv
    simp only
    rw [show s.op + 1 - (s.lit + 1) - 1 = s.op - s.lit - 1 by omega]
    refine ⟨ts, Layout_congr _ _ _ ts hL ?_, hb, by omega, hr⟩
    intro i hi
    rw [store_other _ _ _ _ (by omega)]

theorem put_backref_layout (in_data : Nat → Byte) (in_len : Nat) (s : CState)
    (hinv : CInv in_data in_len s) (hI : LayoutInv s) (l : Nat) (p : Int)
    (hr : RefOk in_data in_len (s.ip, p, l)) : LayoutInv (put_backref s l p) := by
  have hclose := Layout_close_run in_data in_len s hinv hI
  obtain ⟨hip, hlit, hrefs, hop, hout, _, _, _⟩ := put_backref_fields s l p
  have a := hinv.lit_le
  have c := hinv.lit_lt
  have d := hinv.op_ge
  obtain ⟨r1, r2, r3, r4, r5, r6, _⟩ := hr
  simp only at r1 r2 r3 r4 r5 r6
  obtain ⟨o, ho⟩ : ∃ o : Nat, (s.ip : Int) - p - 1 = (o : Int) :=
    ⟨((s.ip : Int) - p - 1).toNat, by omega⟩
  have hdl : ref_dl (s.ip, p, l) = (o + 1, l) := by
    unfold ref_dl
    simp only [Prod.mk.injEq, and_true]
    omega
  have hstop : ((s.op : Int) - s.lit - 1).toNat = s.op - s.lit - 1 := by omega
  generalize hop1 : s.op - (if s.lit = 0 then 1 else 0) = op1 at hop hout hclose
  have hop1' : (s.lit = 0 ∧ op1 = s.op - 1) ∨ (1 ≤ s.lit ∧ op1 = s.op) := by
    rw [← hop1]; split_ifs <;> omega
  rw [hstop] at hout
  unfold LayoutInv
  rw [hlit, hip, hop, hout, hrefs, List.map_cons, hdl]
  by_cases c1 : l - 2 < 7
  · rw [if_pos c1, if_pos c1]
    obtain ⟨ts1, hL1, hb1, ht1, hr1⟩ := hclose
      (store (store (store s.out (s.op - s.lit - 1) (u8 ((s.lit : Int) - 1)))
        op1 (u8 ((((s.ip : Int) - p - 1) >>> (8 : Nat)) + (((l - 2) <<< 5 : Nat) : Int))))
        (op1 + 1) (u8 ((s.ip : Int) - p - 1))) (by
          intro j hj
          rw [store_other _ _ _ _ (by omega), store_other _ _ _ _ (by omega),
            store_other _ _ _ _ (by omega)]) (by
          intro hl1
          rw [store_other _ _ _ _ (by omega), store_other _ _ _ _ (by omega), store_same,
            u8_val]
          omega)
    have hL2 := Layout.ref op1 (o + 1) l ts1 hL1 (by
      rw [spec_backref_short l (o + 1) (by omega)]
      intro j hj
      simp only [List.length_cons, List.length_nil] at hj
      have hj2 : j = 0 ∨ j = 1 := by omega
      rcases hj2 with rfl | rfl
      · simp only [Nat.add_zero, List.getD_cons_zero, Nat.add_sub_cancel]
        rw [store_other _ _ _ _ (by omega), store_same,
          u8_ctrl _ o _ ho (by omega) (by omega)]
        exact spec_ctrl o (l - 2) (by omega)
      · simp only [List.getD_cons_zero, List.getD_cons_succ, Nat.add_sub_cancel]
        rw [store_same, u8_low _ o ho]
        exact spec_low o)
    rw [spec_backref_short l (o + 1) (by omega)] at hL2
    simp only [List.length_cons, List.length_nil] at hL2
    rw [show op1 + (0 + 1 + 1) = op1 + 2 + 1 - 0 - 1 by omega] at hL2
    refine ⟨Tok.ref (o + 1) l :: ts1, hL2, ?_, ?_, ?_⟩
    · simp only [back_refs, hb1]
    · simp only [total_len, Tok.len]; omega
    · intro t ht2
      rcases List.mem_cons.mp ht2 with rfl | ht2
      · exact ⟨by omega, by omega, by omega, by omega, by omega⟩
      · exact hr1 t ht2
  · rw [if_neg c1, if_neg c1]
    obtain ⟨ts1, hL1, hb1, ht1, hr1⟩ := hclose
      (store (store (store (store s.out (s.op - s.lit - 1) (u8 ((s.lit : Int) - 1)))
        op1 (u8 ((((s.ip : Int) - p - 1) >>> (8 : Nat)) + ((7 <<< 5 : Nat) : Int))))
        (op1 + 1) (u8 (((l - 2 : Nat) : Int) - 7)))
        (op1 + 2) (u8 ((s.ip : Int) - p - 1))) (by
          intro j hj
          rw [store_other _ _ _ _ (by omega), store_other _ _ _ _ (by omega),
            store_other _ _ _ _ (by omega), store_other _ _ _ _ (by omega)]) (by
          intro hl1
          rw [store_other _ _ _ _ (by omega), store_other _ _ _ _ (by omega),
            store_other _ _ _ _ (by omega), store_same, u8_val]
          omega)
    have hL2 := Layout.ref op1 (o + 1) l ts1 hL1 (by
      rw [spec_backref_long l (o + 1) (by omega)]
      intro j hj
      simp only [List.length_cons, List.length_nil] at hj
      have hj2 : j = 0 ∨ j = 1 ∨ j = 2 := by omega
      rcases hj2 with rfl | rfl | rfl
      · simp only [Nat.add_zero, List.getD_cons_zero, Nat.add_sub_cancel]
        rw [store_other _ _ _ _ (by omega), store_other _ _ _ _ (by omega),
          store_same, u8_ctrl _ o _ ho (by omega) (by omega)]
        exact spec_ctrl o 7 (by omega)
      · simp only [List.getD_cons_zero, List.getD_cons_succ, Nat.add_sub_cancel]
        rw [store_other _ _ _ _ (by omega), store_same, u8_ext _ (by omega) (by omega)]
        omega
      · simp only [List.getD_cons_zero, List.getD_cons_succ, Nat.add_sub_cancel]
        rw [store_same, u8_low _ o ho]
        exact spec_low o)
    rw [spec_backref_long l (o + 1) (by omega)] at hL2
    simp only [List.length_cons, List.length_nil] at hL2
    rw [show op1 + (0 + 1 + 1 + 1) = op1 + 3 + 1 - 0 - 1 by omega] at hL2
    refine ⟨Tok.ref (o + 1) l :: ts1, hL2, ?_, ?_, ?_⟩
    · simp only [back_refs, hb1]
    · simp only [total_len, Tok.len]; omega
    · intro t ht2
      rcases List.mem_cons.mp ht2 with rfl | ht2
      · exact ⟨by omega, by omega, by omega, by omega, by omega⟩
      · exact hr1 t ht2

theorem lzf_compress_layout (in_data : Nat → Byte) (in_len : Nat) (out_data : Nat → Byte)
    (out_len base : Nat) (first : Nat → Int) (prev : Nat → Nat) (r : Ret CState)
    (h : lzf_compress in_data in_len out_data out_len base first prev = some r) :
    LayoutEnd in_len r := by
  by_cases h0 : in_len ≠ 0 ∧ out_len ≠ 0
  · refine lzf_compress_vis in_data in_len out_data out_len base first prev
      LayoutInv (LayoutEnd in_len) ?_ ?_ ?_ ?_ ?_ ?_ r h h0
    · intro s t e1 e2 e3 e4 e5 hI
      unfold LayoutInv at hI ⊢
      rw [e1, e2, e3, e4, e5]
      exact hI
    · intro s0 e1 e2 e3 e4 _
      unfold LayoutInv
      simp only [add_literal]
      rw [e1, e2, e3, e4]
      exact ⟨[], Layout.nil, rfl, rfl, fun t ht => by simp at ht⟩
    · intro s hinv hI _
      exact push_literal_layout in_data in_len s hinv hI
    · intro s l p hinv hI hr _
      exact put_backref_layout in_data in_len s hinv hI l p hr
    · intro s hI
      obtain ⟨ts, hL, hb, _, hr⟩ := hI
      exact ⟨_, ts, hL, hb, hr, fun h0 => absurd rfl h0⟩
    · intro t hinv hI hip
      have a := hinv.lit_le
      have d := hinv.op_ge
      have hstop : ((t.op : Int) - t.lit - 1).toNat = t.op - t.lit - 1 := by omega
      obtain ⟨ts, hL, hb, ht, hr⟩ := Layout_close_run in_data in_len t hinv hI
        (store t.out (t.op - t.lit - 1) (u8 ((t.lit : Int) - 1)))
        (fun i hi => store_other _ _ _ _ (by omega))
        (fun hl => by rw [store_same, u8_val]; have := hinv.lit_lt; omega)
      unfold finish
      rw [if_neg (by omega)]
      simp only [hip, Nat.sub_self, copy_tail]
      rw [hstop]
      exact ⟨_, ts, hL, hb, hr, fun _ => ⟨rfl, by rw [ht, hip]⟩⟩
  · unfold lzf_compress at h
    simp only at h
    rw [if_pos (by omega)] at h
    simp only [Option.some.injEq] at h
    rw [← h]
    exact ⟨0, [], Layout.nil, rfl, fun t ht => by simp at ht, fun h0 => absurd rfl h0⟩

/-- C11. Length bound: whenever `lzf_compress` returns `n ≠ 0`, the `n` output bytes are
exactly a sequence of tokens `ts` (`Layout`), these tokens stand for the whole input
(`total_len ts = in_len`), their back-references are the emitted matches, and every token is
within the bounds of the format (`Tok.InRange`): a literal run encodes a length in
`[1, 32]`, so no empty run remains, and a back-reference encodes a length in `[3, 264]`,
with an extra length byte `l - 9` of at most 255. -/
theorem lzf_compress_length_bounds (in_data : Nat → Byte) (in_len : Nat)
    (out_data : Nat → Byte) (out_len base : Nat) (first : Nat → Int) (prev : Nat → Nat)
    (n : Nat)
    (h : (lzf_compress in_data in_len out_data out_len base first prev).map Ret.ret = some n)
    (hn : n ≠ 0) :
    ∃ r ts, lzf_compress in_data in_len out_data out_len base first prev = some r ∧
      Layout r.st.out n ts ∧ total_len ts = in_len ∧
      back_refs ts = r.st.refs.map ref_dl ∧ ∀ t ∈ ts, t.InRange := by
  cases hr : lzf_compress in_data in_len out_data out_len base first prev with
  | none => rw [hr] at h; simp at h
  | some r =>
    rw [hr] at h
    simp only [Option.map_some', Option.some.injEq] at h
    obtain ⟨e, ts, hL, hb, hrange, hend⟩ :=
      lzf_compress_layout in_data in_len out_data out_len base first prev r hr
    obtain ⟨he, ht⟩ := hend (by omega)
    rw [he, h] at hL
    exact ⟨r, ts, rfl, hL, ht, hb, hrange⟩

theorem lzf_compress_length_bounds_witness :
    (lzf_compress (mem [97, 97, 97, 97, 97, 1, 2]) 7 (mem []) 16 4096 (fun _ => -4096)
      (fun _ => 0)).map Ret.ret = some 8 ∧ 8 ≠ 0 ∧
    ∃ r ts, lzf_compress (mem [97, 97, 97, 97, 97, 1, 2]) 7 (mem []) 16 4096 (fun _ => -4096)
        (fun _ => 0) = some r ∧
      Layout r.st.out 8 ts ∧ total_len ts = 7 ∧
      back_refs ts = r.st.refs.map ref_dl ∧ ∀ t ∈ ts, t.InRange :=
  ⟨by decide, by decide,
    lzf_compress_length_bounds (mem [97, 97, 97, 97, 97, 1, 2]) 7 (mem []) 16 4096
      (fun _ => -4096) (fun _ => 0) 8 (by decide) (by decide)⟩

/-- C12. Bit-exact layout of the back-references: whenever `lzf_compress` ends, the output
below some position `e` (the returned length when that is not zero) is a sequence of tokens
whose back-references are, in order, the emitted matches, each with its distance `d` and
length `l`; and by the definition of `Layout` the bytes of such a token are exactly
`spec_backref l d`: `[((l - 2) << 5) | ((d - 1) >> 8), (d - 1) & 0xFF]` when `l ≤ 8` and
`[0xE0 | ((d - 1) >> 8), l - 9, (d - 1) & 0xFF]` otherwise, where `3 ≤ l ≤ 264`. -/
theorem lzf_compress_backref_layout (in_data : Nat → Byte) (in_len : Nat)
    (out_data : Nat → Byte) (out_len base : Nat) (first : Nat → Int) (prev : Nat → Nat)
    (n : Nat)
    (h : (lzf_compress in_data in_len out_data out_len base first prev).map Ret.ret = some n) :
    ∃ r e ts, lzf_compress in_data in_len out_data out_len base first prev = some r ∧
      Layout r.st.out e ts ∧ (n ≠ 0 → e = n) ∧
      back_refs ts = (emitted (lzf_compress in_data in_len out_data out_len base first
        prev)).map ref_dl ∧
      ∀ d l, (d, l) ∈ back_refs ts → 1 ≤ d ∧ d ≤ 8192 ∧ 3 ≤ l ∧ l ≤ 264 := by
  cases hr : lzf_compress in_data in_len out_data out_len base first prev with
  | none => rw [hr] at h; simp at h
  | some r =>
    rw [hr] at h
    simp only [Option.map_some', Option.some.injEq] at h
    obtain ⟨e, ts, hL, hb, hrange, hend⟩ :=
      lzf_compress_layout in_data in_len out_data out_len base first prev r hr
    refine ⟨r, e, ts, rfl, hL, ?_, hb, ?_⟩
    · intro hn
      rw [← h]
      exact (hend (by omega)).1
    · intro d l hdl
      rw [hb] at hdl
      obtain ⟨x, hx, hxe⟩ := List.mem_map.mp hdl
      obtain ⟨r1, r2, r3, r4, r5, _, _⟩ :=
        (lzf_compress_inv in_data in_len out_data out_len base first prev r hr).1 x hx
      unfold ref_dl at hxe
      simp only [Prod.mk.injEq] at hxe
      omega

theorem lzf_compress_backref_layout_witness :
    (lzf_compress (mem (List.replicate 100 97)) 100 (mem []) 200 4096 (fun _ => -4096)
      (fun _ => 0)).map (fun r => (r.ret, bytes r.st.out 6, r.st.refs)) =
      some (6, [1, 97, 97, 0xE0, 89, 0], [(2, 1, 98)]) ∧
    spec_backref 98 1 = [0xE0, 89, 0] ∧
    (lzf_compress (mem (List.replicate 100 97)) 100 (mem []) 200 4096 (fun _ => -4096)
      (fun _ => 0)).map Ret.ret = some 6 ∧
    ∃ r e ts, lzf_compress (mem (List.replicate 100 97)) 100 (mem []) 200 4096
        (fun _ => -4096) (fun _ => 0) = some r ∧
      Layout r.st.out e ts ∧ (6 ≠ 0 → e = 6) ∧
      back_refs ts = (emitted (lzf_compress (mem (List.replicate 100 97)) 100 (mem []) 200
        4096 (fun _ => -4096) (fun _ => 0))).map ref_dl ∧
      ∀ d l, (d, l) ∈ back_refs ts → 1 ≤ d ∧ d ≤ 8192 ∧ 3 ≤ l ∧ l ≤ 264 :=
  ⟨by decide, by decide, by decide,
    lzf_compress_backref_layout (mem (List.replicate 100 97)) 100 (mem []) 200 4096
      (fun _ => -4096) (fun _ => 0) 6 (by decide)⟩

/-! ### Input without repeated byte triples -/

theorem push_literal_lit (in_data : Nat → Byte) (s : CState) (hI : LitInv in_data s) :
    LitInv in_data (push_literal in_data s) := by
  obtain ⟨h1, h2, h3, h4, h5⟩ := hI
  unfold push_literal close_run add_literal
  simp only [LZF_MAX_LIT_eq]
  split_ifs with c1
  · have hstop : ((s.op : Int) + 1 - ((s.lit + 1 : Nat) : Int) - 1).toNat = 33 * (s.ip / 32) := by
      omega
    unfold LitInv
    simp only
    push_cast at hstop ⊢
    rw [hstop]
    refine ⟨h1, by omega, by omega, ?_, ?_⟩
    · intro i hi
      rw [store_other _ _ _ _ (by omega)]
      by_cases hi2 : i = s.ip
      · rw [hi2, show s.ip + s.ip / 32 + 1 = s.op by omega, store_same]
      · rw [store_other _ _ _ _ (by omega)]
        exact h4 i (by omega)
    · intro q hq
      by_cases hq2 : q = s.ip / 32
      · rw [hq2, store_same, u8_val]
        omega
      · rw [store_other _ _ _ _ (by omega), store_other _ _ _ _ (by omega)]
        exact h5 q (by omega)
  · unfold LitInv
    simp only
    refine ⟨h1, by omega, by omega, ?_, ?_⟩
    · intro i hi
      by_cases hi2 : i = s.ip
      · rw [hi2, show s.ip + s.ip / 32 + 1 = s.op by omega, store_same]
      · rw [store_other _ _ _ _ (by omega)]
        exact h4 i (by omega)
    · intro q hq
      rw [store_other _ _ _ _ (by omega)]
      exact h5 q (by omega)

theorem lzf_compress_literals (in_data : Nat → Byte) (in_len : Nat) (out_data : Nat → Byte)
    (out_len base : Nat) (first : Nat → Int) (prev : Nat → Nat)
    (hrep : NoRepeat in_data in_len) (r : Ret CState)
    (h : lzf_compress in_data in_len out_data out_len base first prev = some r) :
    LitEnd in_data in_len r := by
  by_cases h0 : in_len ≠ 0 ∧ out_len ≠ 0
  · refine lzf_compress_vis in_data in_len out_data out_len base first prev
      (LitInv in_data) (LitEnd in_data in_len) ?_ ?_ ?_ ?_ ?_ ?_ r h h0
    · intro s t e1 e2 e3 e4 e5 hI
      unfold LitInv at hI ⊢
      rw [e1, e2, e3, e4, e5]
      exact hI
    · intro s0 e1 e2 e3 e4 _
      unfold LitInv
      simp only [add_literal]
      rw [e1, e2, e3, e4]
      refine ⟨rfl, rfl, rfl, ?_, ?_⟩
      · intro i hi
        have : i = 0 := by omega
        rw [this]
        exact store_same _ _ _
      · intro q hq
        omega
    · intro s _ hI _
      exact push_literal_lit in_data s hI
    · intro s l p hinv _ hr _
      exfalso
      obtain ⟨r1, r2, _, r4, _, r6, r7⟩ := hr
      simp only at r1 r2 r4 r6 r7
      have e0 := r7 0 (by omega)
      have e1 := r7 1 (by omega)
      have e2 := r7 2 (by omega)
      unfold load at e0 e1 e2
      rw [show (p + ((0 : Nat) : Int)).toNat = p.toNat by omega,
        show ((s.ip : Int) + ((0 : Nat) : Int)).toNat = s.ip by omega] at e0
      rw [show (p + ((1 : Nat) : Int)).toNat = p.toNat + 1 by omega,
        show ((s.ip : Int) + ((1 : Nat) : Int)).toNat = s.ip + 1 by omega] at e1
      rw [show (p + ((2 : Nat) : Int)).toNat = p.toNat + 2 by omega,
        show ((s.ip : Int) + ((2 : Nat) : Int)).toNat = s.ip + 2 by omega] at e2
      exact hrep s.ip (by omega) p.toNat (by omega) (by omega) ⟨e0, e1, e2⟩
    · intro s hI
      exact ⟨hI.1, fun h0 => absurd rfl h0⟩
    · intro t hinv hI hip
      obtain ⟨h1, h2, h3, h4, h5⟩ := hI
      rw [hip] at h2 h3 h4 h5
      have hstop : ((t.op : Int) - t.lit - 1).toNat = 33 * (in_len / 32) := by omega
      unfold finish
      rw [if_neg (by omega)]
      simp only [hip, Nat.sub_self, copy_tail]
      rw [hstop]
      unfold LitEnd
      simp only
      refine ⟨h1, fun _ => ⟨?_, ?_, ?_⟩⟩
      · split_ifs <;> omega
      · intro i hi
        rw [store_other _ _ _ _ (by omega)]
        exact h4 i hi
      · intro q hq
        by_cases hq2 : q = in_len / 32
        · rw [hq2, store_same, u8_val]
          omega
        · rw [store_other _ _ _ _ (by omega), h5 q (by omega)]
          omega
  · unfold lzf_compress at h
    simp only at h
    rw [if_pos (by omega)] at h
    simp only [Option.some.injEq] at h
    rw [← h]
    exact ⟨rfl, fun h0 => absurd rfl h0⟩

/-- C14. Incompressible input becomes literal runs only: for every non-empty input of length
`n` (at a non-null address) in which no sequence of three bytes occurs at two different
positions, and every capacity of at least `n + ceil(n/32) + 4`, `lzf_compress` returns exactly
`n + ceil(n/32)` and emits no back-reference; the output is the input cut into chunks of 32
bytes (the last one possibly shorter): the input byte `i` stands at the output position
`i + i / 32 + 1`, and the chunk `q` is preceded, at position `33 * q`, by a control byte
equal to its length `min(32, n - 32 * q)` minus one. -/
theorem lzf_compress_incompressible (in_data : Nat → Byte) (in_len : Nat)
    (out_data : Nat → Byte) (out_len base : Nat) (first : Nat → Int) (prev : Nat → Nat)
    (hn : 0 < in_len) (hbase : 0 < base) (hrep : NoRepeat in_data in_len)
    (hcap : in_len + (in_len + 31) / 32 + 4 ≤ out_len) :
    ∃ r, lzf_compress in_data in_len out_data out_len base first prev = some r ∧
      r.ret = in_len + (in_len + 31) / 32 ∧ r.st.refs = [] ∧
      (∀ i, i < in_len → r.st.out (i + i / 32 + 1) = in_data i) ∧
      ∀ q, 32 * q < in_len → (r.st.out (33 * q)).val = min 32 (in_len - 32 * q) - 1 := by
  obtain ⟨r, hr, hr0⟩ := lzf_compress_total in_data in_len out_data (2 * in_len + 4) base
    first prev hn hbase
  have hb := lzf_compress_bound in_data in_len out_data (2 * in_len + 4) base first prev r hr
  have hr1 := lzf_compress_cap in_data in_len out_data (2 * in_len + 4) base first prev r hr
    (hr0 (Nat.le_refl _)) out_len (Or.inr (by omega))
  obtain ⟨h1, h2⟩ := lzf_compress_literals in_data in_len out_data out_len base first prev
    hrep r hr1
  obtain ⟨h3, h4, h5⟩ := h2 (hr0 (Nat.le_refl _))
  exact ⟨r, hr1, h3, h1, h4, h5⟩

theorem lzf_compress_incompressible_witness :
    0 < 64 ∧ 0 < 4096 ∧
    NoRepeat (mem
      [0, 1, 2, 3, 4, 5, 6, 7, 8, 9, 10, 11, 12, 13, 14, 15, 16, 17, 18, 19, 20, 21, 22,
      23, 24, 25, 26, 27, 28, 29, 30, 31, 32, 33, 34, 35, 36, 37, 38, 39, 40, 41, 42, 43,
      44, 45, 46, 47, 48, 49, 50, 51, 52, 53, 54, 55, 56, 57, 58, 59, 60, 61, 62, 63]) 64 ∧
    64 + (64 + 31) / 32 + 4 ≤ 70 ∧
    ∃ r, lzf_compress (mem
      [0, 1, 2, 3, 4, 5, 6, 7, 8, 9, 10, 11, 12, 13, 14, 15, 16, 17, 18, 19, 20, 21, 22,
      23, 24, 25, 26, 27, 28, 29, 30, 31, 32, 33, 34, 35, 36, 37, 38, 39, 40, 41, 42, 43,
      44, 45, 46, 47, 48, 49, 50, 51, 52, 53, 54, 55, 56, 57, 58, 59, 60, 61, 62, 63]) 64 (mem []) 70 4096 (fun _ => -4096) (fun _ => 0) = some r ∧
      r.ret = 64 + (64 + 31) / 32 ∧ r.st.refs = [] ∧
      (∀ i, i < 64 → r.st.out (i + i / 32 + 1) = (mem
      [0, 1, 2, 3, 4, 5, 6, 7, 8, 9, 10, 11, 12, 13, 14, 15, 16, 17, 18, 19, 20, 21, 22,
      23, 24, 25, 26, 27, 28, 29, 30, 31, 32, 33, 34, 35, 36, 37, 38, 39, 40, 41, 42, 43,
      44, 45, 46, 47, 48, 49, 50, 51, 52, 53, 54, 55, 56, 57, 58, 59, 60, 61, 62, 63]) i) ∧
      ∀ q, 32 * q < 64 → (r.st.out (33 * q)).val = min 32 (64 - 32 * q) - 1 :=
  ⟨by decide, by decide, by decide, by decide,
    lzf_compress_incompressible (mem
      [0, 1, 2, 3, 4, 5, 6, 7, 8, 9, 10, 11, 12, 13, 14, 15, 16, 17, 18, 19, 20, 21, 22,
      23, 24, 25, 26, 27, 28, 29, 30, 31, 32, 33, 34, 35, 36, 37, 38, 39, 40, 41, 42, 43,
      44, 45, 46, 47, 48, 49, 50, 51, 52, 53, 54, 55, 56, 57, 58, 59, 60, 61, 62, 63]) 64 (mem []) 70 4096 (fun _ => -4096) (fun _ => 0) (by decide) (by decide)
      (by decide) (by decide)⟩

/-! ### The match index starts at position 1 -/

theorem index_skipped_first (in_data : Nat → Byte) (base : Nat) (first : Nat → Int) :
    ∀ (n : Nat) (s : CState), 1 ≤ s.ip → (∀ k, s.first k = first k ∨ 1 ≤ s.first k) →
      ∀ k, (index_skipped in_data base n s).first k = first k ∨
        1 ≤ (index_skipped in_data base n s).first k := by
  intro n
  induction n with
  | zero => intro s _ h; exact h
  | succ n ih =>
    intro s h1 h2
    simp only [index_skipped]
    refine ih _ (by simp only [index_update]; omega) ?_
    intro k
    simp only [index_update]
    by_cases hk : k = HASH in_data s.ip
    · right
      rw [hk, store_same]
      omega
    · rw [store_other _ _ _ _ hk]
      exact h2 k

theorem emit_match_first (in_data : Nat → Byte) (in_len out_len base : Nat) (s : CState)
    (l : Nat) (p : Int) (first : Nat → Int) (h1 : 1 ≤ s.ip)
    (h2 : ∀ k, s.first k = first k ∨ 1 ≤ s.first k) :
    ∀ k, (emit_match in_data in_len out_len base s l p).st.first k = first k ∨
      1 ≤ (emit_match in_data in_len out_len base s l p).st.first k := by
  have hf := (put_backref_fields s l p).2.2.2.2.2.1
  have hip := (put_backref_fields s l p).1
  unfold emit_match
  simp only
  by_cases c0 : s.op + 3 + 1 ≥ out_len ∧ s.op - (if s.lit = 0 then 1 else 0) + 3 + 1 ≥ out_len
  · rw [if_pos c0]
    exact h2
  · rw [if_neg c0]
    by_cases c1 : ((put_backref s l p).ip : Int) ≥ (in_len : Int) - 2
    · rw [if_pos c1]
      intro k
      simp only [Ctl.st]
      rw [hf]
      exact h2 k
    · rw [if_neg c1]
      simp only [Ctl.st]
      refine index_skipped_first in_data base first _ _ ?_ ?_
      · simp only; rw [hip]; omega
      · intro k
        simp only
        rw [hf]
        exact h2 k

theorem copy_tail_first (in_data : Nat → Byte) :
    ∀ (n : Nat) (s : CState), (copy_tail in_data n s).first = s.first := by
  intro n
  induction n with
  | zero => intro s; rfl
  | succ n ih =>
    intro s
    simp only [copy_tail]
    rw [ih, (push_literal_fields in_data s).2.2.1]

theorem lzf_compress_first (in_data : Nat → Byte) (in_len : Nat) (out_data : Nat → Byte)
    (out_len base : Nat) (first : Nat → Int) (prev : Nat → Nat) (r : Ret CState)
    (h : lzf_compress in_data in_len out_data out_len base first prev = some r) :
    ∀ k, r.st.first k = first k ∨ 1 ≤ r.st.first k := by
  by_cases h0 : in_len ≠ 0 ∧ out_len ≠ 0
  · refine lzf_compress_rule in_data in_len out_data out_len base first prev
      (fun s => 1 ≤ s.ip ∧ ∀ k, s.first k = first k ∨ 1 ≤ s.first k)
      (fun r => ∀ k, r.st.first k = first k ∨ 1 ≤ r.st.first k) ?_ ?_ ?_ r h h0
    · intro s0 e1 _ _ _ _ e6 _
      simp only [add_literal]
      rw [e1, e6]
      exact ⟨by omega, fun k => Or.inl rfl⟩
    · intro s c hinv hI hlt hc
      have hstep := compress_step_inv in_data in_len out_len base s hinv hlt c hc
      obtain ⟨s1, e1, _, _, _, _, _, e7, _, hs⟩ :=
        compress_step_shape in_data in_len out_len base s hlt c hc
      have hI1 : ∀ k, s1.first k = first k ∨ 1 ≤ s1.first k := by
        intro k
        rw [e7]
        by_cases hk : k = HASH in_data s.ip
        · right
          rw [hk, store_same]
          have := hI.1
          omega
        · rw [store_other _ _ _ _ hk]
          exact hI.2 k
      have hfirst : ∀ k, c.st.first k = first k ∨ 1 ≤ c.st.first k := by
        rcases hs with hs | ⟨l, p, _, _, hs⟩
        · rw [hs]
          unfold emit_literal
          split_ifs
          · exact hI1
          · intro k
            simp only [Ctl.st]
            rw [(push_literal_fields in_data s1).2.2.1]
            exact hI1 k
        · rw [hs]
          exact emit_match_first in_data in_len out_len base s1 l p first
            (by rw [e1]; exact hI.1) hI1
      cases c with
      | ret0 t => exact hfirst
      | stop t => exact ⟨by have := hstep.2.1; have := hI.1; omega, hfirst⟩
      | next t => exact ⟨by have := hstep.2.1; have := hI.1; omega, hfirst⟩
    · intro s _ hI
      unfold finish
      split_ifs
      · exact hI.2
      · intro k
        simp only
        rw [copy_tail_first]
        exact hI.2 k
  · unfold lzf_compress at h
    simp only at h
    rw [if_pos (by omega)] at h
    simp only [Option.some.injEq] at h
    rw [← h]
    exact fun k => Or.inl rfl

set_option maxRecDepth 100000 in
theorem lzf_compress_abc_output :
    (lzf_compress (mem (List.replicate 100 [97, 98, 99]).flatten) 300 (mem []) 400 4096
      (fun _ => -4096) (fun _ => 0)).map (fun r => (r.ret, bytes r.st.out 11, r.st.refs)) =
      some (11, [3, 97, 98, 99, 97, 0xE0, 255, 2, 0xE0, 23, 2],
        [(268, 265, 32), (4, 1, 264)]) := by
  decide

/-- C17 (counterexample). For the 300-byte input `abc` repeated 100 times, with tables that
hold null pointers and zeros, `lzf_compress` returns 11 bytes: the control byte 3, that is a
literal run of the first four input bytes `a b c a` and not of three, then the two
back-references `(4, 1, 264)` and `(268, 265, 32)` of distance 3, which cover 296 bytes and
not 297.  The occurrence of `abc` at position 0 was not a candidate at position 3. -/
theorem lzf_compress_abc_literal_run_of_four :
    (lzf_compress (mem (List.replicate 100 [97, 98, 99]).flatten) 300 (mem []) 400 4096
      (fun _ => -4096) (fun _ => 0)).map (fun r => (r.ret, bytes r.st.out 11, r.st.refs)) =
      some (11, [3, 97, 98, 99, 97, 0xE0, 255, 2, 0xE0, 23, 2],
        [(268, 265, 32), (4, 1, 264)]) :=
  lzf_compress_abc_output

/-- C17 (amended). The match index starts at position 1: `lzf_compress` emits the input byte
0 as a literal before the main loop and enters only positions `i ≥ 1` into the index, so
whenever a call ends, every entry of the table `first` is its initial content or a position
`≥ 1`, whatever the input, the capacity, the address and the initial tables are.  For the
300-byte input `abc` repeated 100 times, with tables that hold null pointers and zeros, the
output is one literal run holding the first 4 input bytes, followed only by back-reference
tokens of distance 3, of the lengths 264 and 32, that cover the remaining 296 bytes. -/
theorem lzf_compress_index_from_one (in_data : Nat → Byte) (in_len : Nat)
    (out_data : Nat → Byte) (out_len base : Nat) (first : Nat → Int) (prev : Nat → Nat)
    (n : Nat)
    (h : (lzf_compress in_data in_len out_data out_len base first prev).map Ret.ret = some n) :
    (∃ r, lzf_compress in_data in_len out_data out_len base first prev = some r ∧
      ∀ k, r.st.first k = first k ∨ 1 ≤ r.st.first k) ∧
    (lzf_compress (mem (List.replicate 100 [97, 98, 99]).flatten) 300 (mem []) 400 4096
      (fun _ => -4096) (fun _ => 0)).map (fun r => (r.ret, bytes r.st.out 11, r.st.refs)) =
      some (11, [3, 97, 98, 99, 97, 0xE0, 255, 2, 0xE0, 23, 2],
        [(268, 265, 32), (4, 1, 264)]) := by
  refine ⟨?_, lzf_compress_abc_output⟩
  cases hr : lzf_compress in_data in_len out_data out_len base first prev with
  | none => rw [hr] at h; simp at h
  | some r =>
    exact ⟨r, rfl, lzf_compress_first in_data in_len out_data out_len base first prev r hr⟩

theorem lzf_compress_index_from_one_witness :
    (lzf_compress (mem [97, 98, 99, 97, 98, 99, 97, 98, 99]) 9 (mem []) 20 4096
      (fun _ => -4096) (fun _ => 0)).map Ret.ret = some 7 ∧
    ((∃ r, lzf_compress (mem [97, 98, 99, 97, 98, 99, 97, 98, 99]) 9 (mem []) 20 4096
        (fun _ => -4096) (fun _ => 0) = some r ∧
      ∀ k, r.st.first k = (fun _ => -4096) k ∨ 1 ≤ r.st.first k) ∧
    (lzf_compress (mem (List.replicate 100 [97, 98, 99]).flatten) 300 (mem []) 400 4096
      (fun _ => -4096) (fun _ => 0)).map (fun r => (r.ret, bytes r.st.out 11, r.st.refs)) =
      some (11, [3, 97, 98, 99, 97, 0xE0, 255, 2, 0xE0, 23, 2],
        [(268, 265, 32), (4, 1, 264)])) :=
  ⟨by decide,
    lzf_compress_index_from_one (mem [97, 98, 99, 97, 98, 99, 97, 98, 99]) 9 (mem []) 20 4096
      (fun _ => -4096) (fun _ => 0) 7 (by decide)⟩

end MiniLzf
